import Mathlib

/-!
# Open-addressing hash table of `table.c`, with its word-count driver

A shallow embedding of the linear-probing table (`table_create`, `table_locate`,
`table_insert_or_update`, `table_lookup`, `table_resize`), of the string helpers
`str_lower` and `str_trim` of `string_utils.c`, and of the token loop of `main` in
`freq.c`, together with the properties proved about them.

The table is embedded twice.

* Namespace `HashTable` holds the exact reading: `capacity` and `size` are natural
  numbers and the load-factor test compares exact rationals.  It describes the runs in
  which no `int` operation overflows and in which rounding the quotient does not change
  the outcome of the test (`Machine.machine_refines_exact` and `Machine.Built.exact`;
  `Machine.agrees_half` for the load factor 0.5 of the driver).  The probe sequence, the
  representation invariant, the termination argument, the string helpers and the driver
  are developed on it.
* Namespace `HashTable.Machine` holds the machine reading: `capacity` and `size` are
  32-bit `int`s, `t->capacity * 2` and `t->size++` wrap around, the quotient
  `(double)size / capacity` is rounded to `double` before it is compared with `alpha`,
  `calloc` of a count that is not positive yields no slot, and `% t->capacity` with a
  capacity of 0 kills the process.  The contract of the table on the states reachable
  from `table_create` (round trip, finite map, resizing, frame, size, load factor,
  growth) is stated on it.  Its tables are read through `Machine.toIdeal` to reuse the
  probe sequence and the invariant of the exact reading.

Modelling conventions.

* A C string key is a `String`; only equality of keys (`strcmp(..) == 0`) is used.
* Exact reading: `capacity` and `size` are `Nat`, values and the result of
  `table_locate`, which can be `-1`, are `Int`; `alpha` is a rational number and
  `(double)size / capacity >= alpha` is the exact comparison of rationals;
  `capacity = 0` makes `% capacity` undefined in C, and the exact reading then computes
  with `n % 0 = n`.
* Machine reading: `capacity` and `size` are `Int`s kept in the range of `int` by
  `Machine.wrap32`.  Signed overflow is undefined in C; the machine reading follows the
  two's-complement wrap-around of the compiled code.  `double` is IEEE 754 binary64,
  rounded to nearest with ties to even (`Machine.roundDouble`), and the quotient is
  evaluated in that format; a finite `double` is the rational it denotes, so `alpha`
  is a rational, and `Machine.IsDouble alpha` says that it is a `double`.  A call ends
  as `Machine.Run.ok`, `Machine.Run.crash` (division by zero) or `Machine.Run.timeout`
  (the bound on the recursion depth ran out).
* Both readings describe the runs in which every `calloc` of a positive count succeeds.
* `buckets` is a list of optional pairs, `none` being the `NULL` slot.  Reading a
  slot past the end of the list yields `none`; the invariant `buckets.length =
  capacity` is what `calloc(capacity, ..)` establishes.
* `fnv_hash`, declared in a header that is not part of the sources, is a parameter
  `hash : Key → Nat`; so is `DEFAULT_CAPACITY`.
* A C string handed to `str_lower` or `str_trim` is the list of its characters before
  the terminating NUL; `isalnum` and `tolower` are those of the C locale.  `main` is
  modelled from the tokens that `fgets` and `strtok` deliver, up to `table_print`.
* `table_insert_or_update` and `table_resize` call each other.  The embedding takes
  a bound `fuel` on the depth of that mutual recursion; when the bound is exceeded the
  exact reading returns `none` and the machine reading `Machine.Run.timeout`.
-/

namespace HashTable

/-! ## The program -/

/-- Keys are C strings. -/
abbrev Key := String

/-- The `Pair` structure: a key with its `long` value. -/
structure Pair where
  key : Key
  value : Int
  deriving DecidableEq, Repr

/-- Modelled from the spec: `pair_create` (its source file is absent) builds the
entry that owns a copy of `key` paired with `value`. -/
def pair_create (key : Key) (value : Int) : Pair := { key := key, value := value }

/-- The `Table` structure: bucket array, capacity, size and maximum load factor.  Exact
reading: `capacity` and `size` are natural numbers; `Machine.Table` carries the `int`
fields. -/
structure Table where
  buckets : List (Option Pair)
  capacity : Nat
  size : Nat
  alpha : ℚ
  deriving DecidableEq

/-- `table_create(capacity, alpha)`: a non-positive capacity is replaced by
`DEFAULT_CAPACITY` (here the parameter `dflt`); all slots are empty. -/
def table_create (dflt : Nat) (capacity : Int) (alpha : ℚ) : Table :=
  let capacity : Nat := if capacity ≤ 0 then dflt else capacity.toNat
  { buckets := List.replicate capacity none
    capacity := capacity
    size := 0
    alpha := alpha }

/-- The `while (probe < t->capacity)` loop of `table_locate`; `rem` is the number of
probes still allowed (`capacity - probe`) and `bucket` the slot under inspection. -/
def locate_loop (buckets : List (Option Pair)) (capacity : Nat) (key : Key) :
    Nat → Nat → Int
  | 0, _ => -1
  | rem + 1, bucket =>
    match buckets.getD bucket none with
    | none => (bucket : Int)
    | some p =>
      if p.key = key then (bucket : Int)
      else locate_loop buckets capacity key rem ((bucket + 1) % capacity)

/-- `table_locate(t, key)`: linear probing from `hash(key) % capacity`. -/
def table_locate (hash : Key → Nat) (t : Table) (key : Key) : Int :=
  locate_loop t.buckets t.capacity key t.capacity (hash key % t.capacity)

/-- `table_lookup(t, key)`: the stored value, or `-1`. -/
def table_lookup (hash : Key → Nat) (t : Table) (key : Key) : Int :=
  let index := table_locate hash t key
  if index = -1 then -1
  else
    match t.buckets.getD index.toNat none with
    | none => -1
    | some p => p.value

/-- The `for (i = 0; i < old_capacity; i++)` loop of `table_resize`: `rem` is
`old_capacity - i`; every occupied old slot is reinserted through `ins`. -/
def resize_loop (ins : Table → Key → Int → Option Table) (old_buckets : List (Option Pair)) :
    Nat → Nat → Table → Option Table
  | 0, _, t => some t
  | rem + 1, i, t =>
    match old_buckets.getD i none with
    | none => resize_loop ins old_buckets rem (i + 1) t
    | some p => (ins t p.key p.value).bind (resize_loop ins old_buckets rem (i + 1))

/-- Body of `table_resize(t, capacity)`, with the recursive call to
`table_insert_or_update` passed as `ins`. -/
def table_resize_with (ins : Table → Key → Int → Option Table) (t : Table) (capacity : Nat) :
    Option Table :=
  let old_buckets := t.buckets
  let old_capacity := t.capacity
  let t : Table :=
    { t with buckets := List.replicate capacity none, capacity := capacity, size := 0 }
  resize_loop ins old_buckets old_capacity 0 t

/-- `table_insert_or_update(t, key, value)`; `fuel` bounds the nesting depth of
resizes.  Exact reading: the guard compares exact rationals and `capacity * 2` is the
exact product; `Machine.table_insert_or_update` is the reading on `int` and `double`. -/
def table_insert_or_update (hash : Key → Nat) : Nat → Table → Key → Int → Option Table
  | 0, _, _, _ => none
  | fuel + 1, t, key, value =>
    (if (t.size : ℚ) / (t.capacity : ℚ) ≥ t.alpha then
        table_resize_with (table_insert_or_update hash fuel) t (t.capacity * 2)
      else some t).bind fun t =>
    let index := table_locate hash t key
    if index = -1 then some t
    else
      match t.buckets.getD index.toNat none with
      | some p =>
        some { t with buckets := t.buckets.set index.toNat (some { p with value := value }) }
      | none =>
        some { t with
          buckets := t.buckets.set index.toNat (some (pair_create key value))
          size := t.size + 1 }

/-- `table_resize(t, capacity)` as called from outside, with `fuel` for the
reinsertions.  Exact reading, with a natural number for the new capacity;
`Machine.table_resize` takes an `int` and dies on the division by a capacity of 0. -/
def table_resize (hash : Key → Nat) (fuel : Nat) (t : Table) (capacity : Nat) : Option Table :=
  table_resize_with (table_insert_or_update hash fuel) t capacity

/-! ## Predicates, specification-side definitions and worked instances -/

/-- Number of occupied slots of a bucket array. -/
def occupied (bs : List (Option Pair)) : Nat := bs.countP Option.isSome

/-- The probe of `key` stops at slot `i`: the slot is empty or holds `key`. -/
def Stops (bs : List (Option Pair)) (key : Key) (i : Nat) : Prop :=
  ∀ p, bs.getD i none = some p → p.key = key

/-- Representation invariant: the bucket array has `capacity > 0` slots, `size` counts
the occupied ones, and every stored key is found by its own probe sequence. -/
structure Inv (hash : Key → Nat) (t : Table) : Prop where
  len : t.buckets.length = t.capacity
  pos : 0 < t.capacity
  size_eq : t.size = occupied t.buckets
  chain : ∀ i p, t.buckets.getD i none = some p → table_locate hash t p.key = (i : Int)

/-- Some slot of `t` holds the pair `(k, v)`. -/
def Stored (t : Table) (k : Key) (v : Int) : Prop :=
  ∃ i, t.buckets.getD i none = some ⟨k, v⟩

/-- Some slot of `t` holds key `k`. -/
def HoldsKey (t : Table) (k : Key) : Prop :=
  ∃ i p, t.buckets.getD i none = some p ∧ p.key = k

/-- Lines 94 to 104 of `table_insert_or_update`: locate the key, then leave the table
alone (full), overwrite the value (match) or fill the empty slot. -/
def place (hash : Key → Nat) (t : Table) (key : Key) (value : Int) : Table :=
  let index := table_locate hash t key
  if index = -1 then t
  else
    match t.buckets.getD index.toNat none with
    | some p => { t with buckets := t.buckets.set index.toNat (some { p with value := value }) }
    | none =>
      { t with
        buckets := t.buckets.set index.toNat (some (pair_create key value))
        size := t.size + 1 }

/-- The reinsertion loop read as a traversal of the old bucket list. -/
def reinsert (ins : Table → Key → Int → Option Table) : List (Option Pair) → Table → Option Table
  | [], t => some t
  | none :: l, t => reinsert ins l t
  | some p :: l, t => (ins t p.key p.value).bind (reinsert ins l)

/-- No two entries of the list carry the same key. -/
def DistinctKeys (bs : List (Option Pair)) : Prop :=
  bs.Pairwise fun a b => ∀ p q, a = some p → b = some q → p.key ≠ q.key

/-- What a returning call `table_insert_or_update(t, k, v)` guarantees about its final
state `t'`. -/
structure InsertPost (hash : Key → Nat) (t : Table) (k : Key) (v : Int) (t' : Table) : Prop where
  inv : Inv hash t'
  alpha_eq : t'.alpha = t.alpha
  cap_le : t.capacity ≤ t'.capacity
  stored : ∀ k' v', Stored t' k' v' ↔ (k' = k ∧ v' = v) ∨ (k' ≠ k ∧ Stored t k' v')
  size_old : HoldsKey t k → t'.size = t.size
  size_new : ¬ HoldsKey t k → t'.size = t.size + 1

/-- What a returning call `table_resize(t, n)` guarantees about its final state `t'`. -/
structure ResizePost (hash : Key → Nat) (t : Table) (n : Nat) (t' : Table) : Prop where
  inv : Inv hash t'
  alpha_eq : t'.alpha = t.alpha
  cap_le : n ≤ t'.capacity
  stored : ∀ k v, Stored t' k v ↔ Stored t k v
  size_eq : t'.size = t.size

/-- An insertion procedure that meets `InsertPost` whenever it returns. -/
def MeetsInsertPost (hash : Key → Nat) (ins : Table → Key → Int → Option Table) : Prop :=
  ∀ t k v t', Inv hash t → t.alpha ≤ 1 → ins t k v = some t' → InsertPost hash t k v t'

/-- An insertion procedure that returns on every table with fewer than `bound` occupied
slots, adding at most one. -/
def ReturnsBelow (ins : Table → Key → Int → Option Table) (bound : Nat) : Prop :=
  ∀ t k v, occupied t.buckets < bound →
    ∃ t', ins t k v = some t' ∧ occupied t'.buckets ≤ occupied t.buckets + 1

/-- `Built hash dflt c alpha ops t`: the table `t` is what `table_create(c, alpha)` has
become after the calls `table_insert_or_update(t, k, v)` for the pairs `(k, v)` of `ops`,
in order, each of which returned. -/
inductive Built (hash : Key → Nat) (dflt : Nat) (c : Int) (alpha : ℚ) :
    List (Key × Int) → Table → Prop
  | create : Built hash dflt c alpha [] (table_create dflt c alpha)
  | insert {ops : List (Key × Int)} {t t' : Table} {k : Key} {v : Int} {fuel : Nat} :
      Built hash dflt c alpha ops t →
      table_insert_or_update hash fuel t k v = some t' →
      Built hash dflt c alpha (ops ++ [(k, v)]) t'

/-- The call `table_insert_or_update(t, k, v)` returns and leaves the table as `t'`. -/
def InsertReturns (hash : Key → Nat) (t : Table) (k : Key) (v : Int) (t' : Table) : Prop :=
  ∃ fuel, table_insert_or_update hash fuel t k v = some t'

/-- The call `table_resize(t, n)` returns and leaves the table as `t'`. -/
def ResizeReturns (hash : Key → Nat) (t : Table) (n : Nat) (t' : Table) : Prop :=
  ∃ fuel, table_resize hash fuel t n = some t'

/-- Specification side of the finite map: the value written by the last pair of `ops`
whose key is `k`, if any. -/
def lastValue (ops : List (Key × Int)) (k : Key) : Option Int :=
  ops.foldl (fun acc kv => if kv.1 = k then some kv.2 else acc) none

/-- Specification side of the finite map: the number of distinct keys in `ops`. -/
def distinctKeyCount (ops : List (Key × Int)) : Nat := (ops.map Prod.fst).dedup.length

/-- Hash used in the worked instances: the length of the key. -/
def lengthHash : Key → Nat := fun s => s.length

/-- Table of the worked instances: capacity 1, full, holding `("a", 1)`, `alpha = 1/2`. -/
def tableA : Table := ⟨[some ⟨"a", 1⟩], 1, 1, 1 / 2⟩

/-- An insertion procedure that keeps the capacity positive and brings in no key but the
one it is given. -/
def MeetsKeysPost (ins : Table → Key → Int → Option Table) : Prop :=
  ∀ t k v t', 0 < t.capacity → ins t k v = some t' →
    0 < t'.capacity ∧ ∀ k', HoldsKey t' k' → k' = k ∨ HoldsKey t k'

/-- Table of the worked instances after `("b", 2)` has been inserted into `tableA`. -/
def tableAB : Table := ⟨[some ⟨"b", 2⟩, some ⟨"a", 1⟩], 2, 2, 1 / 2⟩

/-- Table of the worked instance of a dropped insertion: capacity 1, full, `alpha = 2`. -/
def tableFull : Table := ⟨[some ⟨"a", 1⟩], 1, 1, 2⟩

/-- No two occupied slots of `t` hold the same key. -/
def KeysUnique (t : Table) : Prop :=
  ∀ i j p q, t.buckets.getD i none = some p → t.buckets.getD j none = some q →
    p.key = q.key → i = j

/-- Probe chain: every occupied slot `i`, holding key `k`, lies on the cyclic path that
starts at `hash(k) mod capacity`, every slot of that path before `i` is occupied by a key
other than `k`, and `table_locate(t, k)` answers `i`. -/
def ProbeChain (hash : Key → Nat) (t : Table) : Prop :=
  ∀ i p, t.buckets.getD i none = some p →
    ∃ j, j < t.capacity ∧ i = (hash p.key % t.capacity + j) % t.capacity ∧
      (∀ j', j' < j →
        ∃ q, t.buckets.getD ((hash p.key % t.capacity + j') % t.capacity) none = some q ∧
          q.key ≠ p.key) ∧
      table_locate hash t p.key = (i : Int)

/-- Table of the worked instances with a small load factor: `"a"` and `"b"` inserted
into `table_create(1, 1/10)`. -/
def tableT : Table := ⟨[some ⟨"b", 2⟩, some ⟨"a", 1⟩], 2, 2, 1 / 10⟩

/-- The table `tableT` after `("c", 3)` has been inserted: the reinsertion of `"a"`
resized once more, from 4 to 8 slots. -/
def tableTC : Table :=
  ⟨[none, some ⟨"b", 2⟩, some ⟨"a", 1⟩, some ⟨"c", 3⟩, none, none, none, none], 8, 3, 1 / 10⟩

/-- Table of the worked instance of a negative value: `("a", -1)` inserted into
`table_create(1, 1/2)`. -/
def tableNeg : Table := ⟨[some ⟨"a", -1⟩], 1, 1, 1 / 2⟩

/-- An insertion procedure that, when it changes the capacity, multiplies it by a power
of two. -/
def MeetsPowPost (ins : Table → Key → Int → Option Table) : Prop :=
  ∀ t k v t', ins t k v = some t' → ∃ j, t'.capacity = t.capacity * 2 ^ j

/-- A thousand pairwise distinct keys, `""`, `"a"`, `"aa"`, .., each with its index as
value: the worked instance of growth from capacity 1. -/
def thousandPairs : List (Key × Int) :=
  (List.range 1000).map fun i => (String.mk (List.replicate i 'a'), (i : Int))

/-- `isalnum` of `<ctype.h>` in the C locale: an ASCII letter or digit. -/
def isalnum (c : Char) : Bool := c.isAlphanum

/-- `tolower` of `<ctype.h>` in the C locale: ASCII capitals are mapped to small letters. -/
def tolower (c : Char) : Char := c.toLower

/-- `str_lower(s)`: every character replaced by its `tolower`. -/
def str_lower (s : String) : String := String.mk (s.data.map tolower)

/-- First loop of `str_trim`, `while (*start && !isalnum(*start)) start++`, on the
characters before the terminating NUL; `rem` bounds the steps still to take. -/
def trim_front (s : List Char) : Nat → Nat → Nat
  | 0, start => start
  | rem + 1, start =>
    match s[start]? with
    | none => start
    | some c => if isalnum c then start else trim_front s rem (start + 1)

/-- Second loop of `str_trim`, `while (end >= start && !isalnum(*end)) end--`; the index
`end` can reach `-1`. -/
def trim_back (s : List Char) (start : Nat) : Nat → Int → Int
  | 0, e => e
  | rem + 1, e =>
    if (start : Int) ≤ e ∧ isalnum (s.getD e.toNat (Char.ofNat 0)) = false then
      trim_back s start rem (e - 1)
    else e

/-- `str_trim(s)`: the NUL written at `end + 1` cuts the string there, and the pointer
returned makes it begin at `start`. -/
def str_trim (s : String) : String :=
  let start := trim_front s.data s.data.length 0
  let e := trim_back s.data start s.data.length ((s.data.length : Int) - 1)
  String.mk ((s.data.take (e + 1).toNat).drop start)

/-- Body of the token loop of `main`: normalise the token and, unless it is empty, write
its count plus one into the table. -/
def main_step (hash : Key → Nat) (fuel : Nat) (t : Table) (token : String) : Option Table :=
  let word := str_trim (str_lower token)
  if word.length > 0 then
    let current_count := table_lookup hash t word
    let current_count := if current_count = -1 then 0 else current_count
    table_insert_or_update hash fuel t word (current_count + 1)
  else some t

/-- The token loop of `main` over the tokens that `fgets` and `strtok` deliver. -/
def main_loop (hash : Key → Nat) (fuel : Nat) : Table → List String → Option Table
  | t, [] => some t
  | t, token :: rest => (main_step hash fuel t token).bind fun t => main_loop hash fuel t rest

/-- `main` up to the call of `table_print`: the table after all tokens, starting from
`table_create(0, 0.5)`. -/
def main (hash : Key → Nat) (dflt : Nat) (fuel : Nat) (tokens : List String) : Option Table :=
  let alpha : ℚ := 1 / 2
  let t := table_create dflt 0 alpha
  main_loop hash fuel t tokens

namespace Machine

/-- Outcome of a call in the machine model: it returns with a result, the process is
killed by the integer division by zero of `% t->capacity`, or the bound on the depth of
the mutual recursion ran out before the call returned. -/
inductive Run (α : Type) where
  | ok : α → Run α
  | crash : Run α
  | timeout : Run α
  deriving DecidableEq

/-- Sequencing of calls: what follows runs only on the result of a call that returned. -/
def Run.bind {α β : Type} : Run α → (α → Run β) → Run β
  | Run.ok a, f => f a
  | Run.crash, _ => Run.crash
  | Run.timeout, _ => Run.timeout

/-- Result of a call with `f` applied to it. -/
def Run.map {α β : Type} (f : α → β) : Run α → Run β
  | Run.ok a => Run.ok (f a)
  | Run.crash => Run.crash
  | Run.timeout => Run.timeout

/-- Largest value of an `int`. -/
def INT_MAX : Int := 2147483647

/-- Result of an `int` operation whose exact value is `x`: reduced to 32 bits, two's
complement.  C leaves signed overflow undefined; this is what the compiled
`t->capacity * 2` and `t->size++` yield. -/
def wrap32 (x : Int) : Int := (x + 2147483648) % 4294967296 - 2147483648

/-- The `Table` structure with `int` fields: `capacity` can be zero or negative. -/
structure Table where
  buckets : List (Option Pair)
  capacity : Int
  size : Int
  alpha : ℚ
  deriving DecidableEq

/-- `calloc(n, sizeof(Pair *))` for an `int` count `n`: `n` empty slots when `n > 0`.  A
negative `n` converts to a `size_t` too large to allocate and `calloc` returns `NULL`; for
`n = 0` there is no slot either.  Both are the empty list. -/
def calloc (n : Int) : List (Option Pair) := List.replicate n.toNat none

/-- `table_create(capacity, alpha)`: a non-positive capacity is replaced by
`DEFAULT_CAPACITY` (here the parameter `dflt`); all slots are empty. -/
def table_create (dflt : Int) (capacity : Int) (alpha : ℚ) : Table :=
  let capacity : Int := if capacity ≤ 0 then dflt else capacity
  { buckets := calloc capacity
    capacity := capacity
    size := 0
    alpha := alpha }

/-- Position of the leading bit of `n`, by halving at most `fuel` times. -/
def log2f : Nat → Nat → Nat
  | 0, _ => 0
  | fuel + 1, n => if n < 2 then 0 else log2f fuel (n / 2) + 1

/-- Position of the leading bit of `n > 0`: `2 ^ ilog2 n ≤ n < 2 ^ (ilog2 n + 1)`. -/
def ilog2 (n : Nat) : Nat := log2f n n

/-- Rounding of a rational to the nearest integer, ties to the even one. -/
def rne (y : ℚ) : Int :=
  let f := ⌊y⌋
  if y - f < 1 / 2 then f
  else if 1 / 2 < y - f then f + 1
  else if f % 2 = 0 then f else f + 1

/-- The binary exponent `k` that brings `x > 0` into `[2^52, 2^53)`. -/
def scale (x : ℚ) : Int :=
  let k0 : Int := 52 + (ilog2 x.den : Int) - (ilog2 x.num.toNat : Int)
  if x * (2 : ℚ) ^ k0 < 2 ^ 52 then k0 + 1 else k0

/-- Rounding of `x > 0` to 53 significant bits, to nearest, ties to even. -/
def roundPos (x : ℚ) : ℚ := (rne (x * (2 : ℚ) ^ scale x) : ℚ) / (2 : ℚ) ^ scale x

/-- The `double` nearest to the rational `x` (IEEE 754 binary64, round to nearest, ties
to even), for `x` in the range of the normal doubles; the quotient of two nonzero `int`s
lies in that range. -/
def roundDouble (x : ℚ) : ℚ :=
  if 0 < x then roundPos x else if x < 0 then -roundPos (-x) else 0

/-- The test `(double)(t->size) / t->capacity >= t->alpha` of line 90.  Both `int`s
convert to `double` exactly and the quotient is rounded to `double`.  With
`capacity = 0` the quotient is `+inf` for `size > 0`, which is above every `alpha`, and
`NaN` or `-inf` otherwise, for which the test fails. -/
def load_ge (size capacity : Int) (alpha : ℚ) : Bool :=
  if capacity = 0 then decide (0 < size)
  else decide (roundDouble ((size : ℚ) / (capacity : ℚ)) ≥ alpha)

/-- `table_locate(t, key)`.  `fnv_hash(key) % t->capacity` is a division by zero when
`capacity = 0`.  With a negative capacity `probe < t->capacity` fails at once and the
result is `-1` whatever `bucket` is; otherwise the loop is `locate_loop`. -/
def table_locate (hash : Key → Nat) (t : Table) (key : Key) : Run Int :=
  if t.capacity = 0 then Run.crash
  else Run.ok (locate_loop t.buckets t.capacity.toNat key t.capacity.toNat
    (hash key % t.capacity.toNat))

/-- `table_lookup(t, key)`: the stored value, or `-1`. -/
def table_lookup (hash : Key → Nat) (t : Table) (key : Key) : Run Int :=
  (table_locate hash t key).bind fun index =>
  if index = -1 then Run.ok (-1)
  else
    match t.buckets.getD index.toNat none with
    | none => Run.ok (-1)
    | some p => Run.ok p.value

/-- The `for (i = 0; i < old_capacity; i++)` loop of `table_resize`: `rem` is the number
of iterations still to run; every occupied old slot is reinserted through `ins`. -/
def resize_loop (ins : Table → Key → Int → Run Table) (old_buckets : List (Option Pair)) :
    Nat → Nat → Table → Run Table
  | 0, _, t => Run.ok t
  | rem + 1, i, t =>
    match old_buckets.getD i none with
    | none => resize_loop ins old_buckets rem (i + 1) t
    | some p => (ins t p.key p.value).bind (resize_loop ins old_buckets rem (i + 1))

/-- Body of `table_resize(t, capacity)`, with the recursive call to
`table_insert_or_update` passed as `ins`.  The loop runs `old_capacity` times, not at
all when `old_capacity ≤ 0`. -/
def table_resize_with (ins : Table → Key → Int → Run Table) (t : Table) (capacity : Int) :
    Run Table :=
  let old_buckets := t.buckets
  let old_capacity := t.capacity
  let t : Table := { t with buckets := calloc capacity, capacity := capacity, size := 0 }
  resize_loop ins old_buckets old_capacity.toNat 0 t

/-- `table_insert_or_update(t, key, value)`; `fuel` bounds the nesting depth of
resizes. -/
def table_insert_or_update (hash : Key → Nat) : Nat → Table → Key → Int → Run Table
  | 0, _, _, _ => Run.timeout
  | fuel + 1, t, key, value =>
    (if load_ge t.size t.capacity t.alpha then
        table_resize_with (table_insert_or_update hash fuel) t (wrap32 (t.capacity * 2))
      else Run.ok t).bind fun t =>
    (table_locate hash t key).bind fun index =>
    if index = -1 then Run.ok t
    else
      match t.buckets.getD index.toNat none with
      | some p =>
        Run.ok { t with buckets := t.buckets.set index.toNat (some { p with value := value }) }
      | none =>
        Run.ok { t with
          buckets := t.buckets.set index.toNat (some (pair_create key value))
          size := wrap32 (t.size + 1) }

/-- `table_resize(t, capacity)` as called from outside, with `fuel` for the
reinsertions. -/
def table_resize (hash : Key → Nat) (fuel : Nat) (t : Table) (capacity : Int) : Run Table :=
  table_resize_with (table_insert_or_update hash fuel) t capacity

/-! ### The machine program with a ghost counter for failed probes -/

/-- The table read with natural-number fields, on which the probe sequence, the
invariant `Inv` and the stored association are defined. -/
def toIdeal (t : Table) : HashTable.Table :=
  { buckets := t.buckets, capacity := t.capacity.toNat, size := t.size.toNat, alpha := t.alpha }

/-- A table in working order: `0 < capacity ≤ INT_MAX`, `size ≥ 0`, and the
representation invariant holds. -/
structure Good (hash : Key → Nat) (t : Table) : Prop where
  pos : 0 < t.capacity
  le_max : t.capacity ≤ INT_MAX
  size_nonneg : 0 ≤ t.size
  inv : Inv hash (toIdeal t)

/-- A table whose doubling has overflowed: the capacity is negative, `buckets` is `NULL`
and `size` is 0. -/
def Lost (t : Table) : Prop := t.capacity < 0 ∧ t.buckets = [] ∧ t.size = 0

/-- Lines 94 to 104 of `table_insert_or_update`: locate the key, then leave the table
alone, overwrite the value or fill the empty slot. -/
def place (hash : Key → Nat) (t : Table) (key : Key) (value : Int) : Run Table :=
  (table_locate hash t key).bind fun index =>
  if index = -1 then Run.ok t
  else
    match t.buckets.getD index.toNat none with
    | some p =>
      Run.ok { t with buckets := t.buckets.set index.toNat (some { p with value := value }) }
    | none =>
      Run.ok { t with
        buckets := t.buckets.set index.toNat (some (pair_create key value))
        size := wrap32 (t.size + 1) }

/-- The reinsertion loop read as a traversal of the old bucket list. -/
def reinsert (ins : Table → Key → Int → Run Table) : List (Option Pair) → Table → Run Table
  | [], t => Run.ok t
  | none :: l, t => reinsert ins l t
  | some p :: l, t => (ins t p.key p.value).bind (reinsert ins l)

/-- `Built hash dflt c alpha ops t`: the table `t` is what `table_create(c, alpha)` has
become after the calls `table_insert_or_update(t, k, v)` for the pairs `(k, v)` of `ops`,
in order, each of which returned. -/
inductive Built (hash : Key → Nat) (dflt : Int) (c : Int) (alpha : ℚ) :
    List (Key × Int) → Table → Prop
  | create : Built hash dflt c alpha [] (table_create dflt c alpha)
  | insert {ops : List (Key × Int)} {t t' : Table} {k : Key} {v : Int} {fuel : Nat} :
      Built hash dflt c alpha ops t →
      table_insert_or_update hash fuel t k v = Run.ok t' →
      Built hash dflt c alpha (ops ++ [(k, v)]) t'

/-- The call `table_insert_or_update(t, k, v)` returns and leaves the table as `t'`. -/
def InsertReturns (hash : Key → Nat) (t : Table) (k : Key) (v : Int) (t' : Table) : Prop :=
  ∃ fuel, table_insert_or_update hash fuel t k v = Run.ok t'

/-- The call `table_resize(t, n)` returns and leaves the table as `t'`. -/
def ResizeReturns (hash : Key → Nat) (t : Table) (n : Int) (t' : Table) : Prop :=
  ∃ fuel, table_resize hash fuel t n = Run.ok t'

/-- The value `alpha` is a `double`: rounding leaves it as it is. -/
def IsDouble (alpha : ℚ) : Prop := roundDouble alpha = alpha

/-- An insertion procedure that leaves a table that has overflowed as it is. -/
def KeepsLost (ins : Table → Key → Int → Run Table) : Prop :=
  ∀ t k v t', Lost t → 0 < t.alpha → ins t k v = Run.ok t' → t' = t

/-- An insertion procedure that, on a table in working order with `0 < alpha ≤ 1`, returns
either a table that has overflowed or a table in working order that meets `InsertPost`. -/
def MeetsMachinePost (hash : Key → Nat) (ins : Table → Key → Int → Run Table) : Prop :=
  ∀ t k v t', Good hash t → 0 < t.alpha → t.alpha ≤ 1 → ins t k v = Run.ok t' →
    t'.alpha = t.alpha ∧
      (Lost t' ∨ (Good hash t' ∧ InsertPost hash (toIdeal t) k v (toIdeal t')))

/-- An insertion procedure that returns on every table, in working order or overflowed,
with `0 < alpha ≤ 1` and fewer than `bound` occupied slots, adding at most one. -/
def ReturnsOkBelow (hash : Key → Nat) (ins : Table → Key → Int → Run Table) (bound : Nat) :
    Prop :=
  ∀ t k v, Good hash t ∨ Lost t → 0 < t.alpha → t.alpha ≤ 1 → occupied t.buckets < bound →
    ∃ t', ins t k v = Run.ok t' ∧ occupied t'.buckets ≤ occupied t.buckets + 1

/-- Record of how the table grew: not counting its last entry, the table is at most half
full, or the load-factor test would fail on it. -/
def Steady (t : Table) : Prop :=
  2 * (t.size - 1) ≤ t.capacity ∨ load_ge (t.size - 1) t.capacity t.alpha = false

/-- Rounding does not change the outcome of the load-factor test against `alpha`: on
every `int` size and positive `int` capacity the test on the rounded quotient agrees with
the comparison of exact rationals. -/
def Agrees (alpha : ℚ) : Prop :=
  ∀ s c : Int, 0 ≤ s → 0 < c → c ≤ INT_MAX →
    (load_ge s c alpha = true ↔ alpha ≤ (s : ℚ) / (c : ℚ))

/-- Table of the worked instances with `alpha = 1/2`: `("a", 1)` inserted into
`table_create(1, 1/2)`. -/
def tableOne : Table := ⟨[some ⟨"a", 1⟩], 1, 1, 1 / 2⟩

/-- The table `tableOne` after `("b", 2)` has been inserted. -/
def tableTwo : Table := ⟨[some ⟨"b", 2⟩, some ⟨"a", 1⟩], 2, 2, 1 / 2⟩

/-- Table of the worked instance with `alpha = 1/4`: `"a"` and `"b"` inserted into
`table_create(1, 1/4)`. -/
def tableQuarter : Table := ⟨[some ⟨"b", 2⟩, some ⟨"a", 1⟩], 2, 2, 1 / 4⟩

/-- The table `tableQuarter` after `("c", 3)` has been inserted: the reinsertion of `"a"`
into 4 slots met `1/4 ≥ 1/4` and resized once more, to 8 slots. -/
def tableQuarterC : Table :=
  ⟨[none, some ⟨"b", 2⟩, some ⟨"a", 1⟩, some ⟨"c", 3⟩, none, none, none, none], 8, 3, 1 / 4⟩

/-- The `double` nearest to `0.1`; it lies above `1/10`. -/
def tenth : ℚ := 3602879701896397 / 36028797018963968

/-- Key of length 9 of the worked instance of a collision. -/
def key9 : Key := "aaaaaaaaa"

/-- Key of length 19 of the worked instance of a collision. -/
def key19 : Key := "aaaaaaaaaaaaaaaaaaa"

/-- The key `key9` inserted into `table_create(10, 0.1)`, with `lengthHash`. -/
def tableTen : Table :=
  ⟨[none, none, none, none, none, none, none, none, none, some ⟨key9, 1⟩], 10, 1, tenth⟩

/-- The table `tableTen` after `key19` has been inserted: the rounded quotient `1/10` met
`alpha`, the table was resized to 20 slots, and `key19` went to slot 19. -/
def tableTwenty : Table :=
  ⟨[none, none, none, none, none, none, none, none, none, some ⟨key9, 1⟩,
    none, none, none, none, none, none, none, none, none, some ⟨key19, 2⟩], 20, 2, tenth⟩

end Machine

/-! ## Reading and writing slots -/

theorem getD_replicate_none (n i : Nat) :
    (List.replicate n (none : Option Pair)).getD i none = none := by
  induction n generalizing i with
  | zero => rfl
  | succ n ih =>
    cases i with
    | zero => rfl
    | succ i => exact ih i

theorem getD_of_length_le (bs : List (Option Pair)) (i : Nat) (h : bs.length ≤ i) :
    bs.getD i none = none := by
  induction bs generalizing i with
  | nil => rfl
  | cons a bs ih =>
    cases i with
    | zero => simp at h
    | succ i => exact ih i (by simpa using h)

theorem lt_length_of_getD (bs : List (Option Pair)) (i : Nat) (p : Pair)
    (h : bs.getD i none = some p) : i < bs.length := by
  by_contra hc
  rw [getD_of_length_le bs i (by omega)] at h
  cases h

theorem getD_set_self (bs : List (Option Pair)) (i : Nat) (a : Option Pair)
    (h : i < bs.length) : (bs.set i a).getD i none = a := by
  induction bs generalizing i with
  | nil => simp at h
  | cons b bs ih =>
    cases i with
    | zero => rfl
    | succ i => exact ih i (by simpa using h)

theorem getD_set_of_ne (bs : List (Option Pair)) (i j : Nat) (a : Option Pair)
    (h : i ≠ j) : (bs.set i a).getD j none = bs.getD j none := by
  induction bs generalizing i j with
  | nil => rfl
  | cons b bs ih =>
    cases i with
    | zero =>
      cases j with
      | zero => exact absurd rfl h
      | succ j => rfl
    | succ i =>
      cases j with
      | zero => rfl
      | succ j => exact ih i j (by omega)

theorem occupied_replicate_none (n : Nat) :
    occupied (List.replicate n none) = 0 := by
  induction n with
  | zero => rfl
  | succ n ih => simp [occupied, List.replicate_succ, List.countP_cons]

theorem occupied_le_length (bs : List (Option Pair)) : occupied bs ≤ bs.length :=
  List.countP_le_length _

theorem occupied_set_of_none (bs : List (Option Pair)) (i : Nat) (p : Pair)
    (hi : i < bs.length) (h : bs.getD i none = none) :
    occupied (bs.set i (some p)) = occupied bs + 1 := by
  induction bs generalizing i with
  | nil => simp at hi
  | cons b bs ih =>
    cases i with
    | zero =>
      have hb : b = none := h
      subst hb
      simp [occupied, List.countP_cons]
    | succ i =>
      have := ih i (by simpa using hi) h
      simp only [occupied, List.set_cons_succ, List.countP_cons] at this ⊢
      omega

theorem occupied_set_of_some (bs : List (Option Pair)) (i : Nat) (p q : Pair)
    (h : bs.getD i none = some q) :
    occupied (bs.set i (some p)) = occupied bs := by
  induction bs generalizing i with
  | nil => cases h
  | cons b bs ih =>
    cases i with
    | zero =>
      have hb : b = some q := h
      subst hb
      simp [occupied, List.countP_cons]
    | succ i =>
      have := ih i h
      simp only [occupied, List.set_cons_succ, List.countP_cons] at this ⊢
      omega

theorem exists_empty_of_occupied_lt (bs : List (Option Pair))
    (h : occupied bs < bs.length) : ∃ i, i < bs.length ∧ bs.getD i none = none := by
  induction bs with
  | nil => simp at h
  | cons b bs ih =>
    cases b with
    | none => exact ⟨0, by simp, rfl⟩
    | some p =>
      have h2 : occupied bs < bs.length := by
        simp only [occupied, List.countP_cons, List.length_cons] at h ⊢
        simpa using h
      obtain ⟨i, hi, hg⟩ := ih h2
      exact ⟨i + 1, by simpa using hi, hg⟩

/-! ## The probe sequence -/

theorem stops_of_none {bs : List (Option Pair)} {key : Key} {i : Nat}
    (h : bs.getD i none = none) : Stops bs key i := by
  intro p hp
  rw [h] at hp
  cases hp

theorem stops_of_some {bs : List (Option Pair)} {key : Key} {i : Nat} {p : Pair}
    (h : bs.getD i none = some p) (hk : p.key = key) : Stops bs key i := by
  intro q hq
  rw [h] at hq
  cases hq
  exact hk

theorem not_stops_iff {bs : List (Option Pair)} {key : Key} {i : Nat} :
    ¬ Stops bs key i ↔ ∃ p, bs.getD i none = some p ∧ p.key ≠ key := by
  unfold Stops
  push_neg
  rfl

theorem succ_mod_add (b j cap : Nat) : ((b + 1) % cap + j) % cap = (b + (j + 1)) % cap := by
  rw [Nat.add_mod, Nat.mod_mod, ← Nat.add_mod]
  congr 1
  omega

/-- What the probing loop computes, started at `bucket` with `rem` probes left. -/
theorem locate_loop_spec (bs : List (Option Pair)) (cap : Nat) (key : Key) (rem b : Nat)
    (hb : b < cap) :
    (locate_loop bs cap key rem b = -1 ∧ ∀ j, j < rem → ¬ Stops bs key ((b + j) % cap)) ∨
    (∃ j, j < rem ∧ locate_loop bs cap key rem b = (((b + j) % cap : Nat) : Int) ∧
      Stops bs key ((b + j) % cap) ∧ ∀ j', j' < j → ¬ Stops bs key ((b + j') % cap)) := by
  induction rem generalizing b with
  | zero =>
    left
    exact ⟨rfl, fun j hj => absurd hj (Nat.not_lt_zero j)⟩
  | succ rem ih =>
    have hb0 : (b + 0) % cap = b := by simp [Nat.mod_eq_of_lt hb]
    cases hs : bs.getD b none with
    | none =>
      right
      refine ⟨0, Nat.succ_pos _, ?_, ?_, fun j' hj' => absurd hj' (Nat.not_lt_zero j')⟩
      · rw [hb0]; simp only [locate_loop, hs]
      · rw [hb0]; exact stops_of_none hs
    | some p =>
      by_cases hk : p.key = key
      · right
        refine ⟨0, Nat.succ_pos _, ?_, ?_, fun j' hj' => absurd hj' (Nat.not_lt_zero j')⟩
        · rw [hb0]; simp only [locate_loop, hs, hk, if_true]
        · rw [hb0]; exact stops_of_some hs hk
      · have hns : ¬ Stops bs key b := not_stops_iff.mpr ⟨p, hs, hk⟩
        have hstep : locate_loop bs cap key (rem + 1) b
            = locate_loop bs cap key rem ((b + 1) % cap) := by
          simp only [locate_loop, hs, hk, if_false]
        have hlt : (b + 1) % cap < cap := Nat.mod_lt _ (by omega)
        have hfirst : ∀ j', j' < 1 → ¬ Stops bs key ((b + j') % cap) := by
          intro j' hj'
          have : j' = 0 := by omega
          subst this
          rw [hb0]; exact hns
        rcases ih ((b + 1) % cap) hlt with ⟨h1, h2⟩ | ⟨j, hj, h1, h2, h3⟩
        · left
          refine ⟨hstep.trans h1, ?_⟩
          intro j hj
          cases j with
          | zero => exact hfirst 0 (by omega)
          | succ j =>
            rw [← succ_mod_add]
            exact h2 j (by omega)
        · right
          refine ⟨j + 1, by omega, ?_, ?_, ?_⟩
          · rw [hstep, h1, succ_mod_add]
          · rw [← succ_mod_add]; exact h2
          · intro j' hj'
            cases j' with
            | zero => exact hfirst 0 (by omega)
            | succ j' =>
              rw [← succ_mod_add]
              exact h3 j' (by omega)

/-- Every slot index below `cap` is met by the cyclic path that starts at `b`. -/
theorem exists_offset (cap b i : Nat) (hb : b < cap) (hi : i < cap) :
    ∃ j, j < cap ∧ (b + j) % cap = i := by
  by_cases h : b ≤ i
  · refine ⟨i - b, by omega, ?_⟩
    rw [show b + (i - b) = i by omega, Nat.mod_eq_of_lt hi]
  · refine ⟨i + cap - b, by omega, ?_⟩
    rw [show b + (i + cap - b) = i + cap by omega, Nat.add_mod_right, Nat.mod_eq_of_lt hi]

/-- The two outcomes of `table_locate` on a table with a positive capacity. -/
theorem table_locate_cases (hash : Key → Nat) (t : Table) (key : Key) (hc : 0 < t.capacity) :
    (table_locate hash t key = -1 ∧ ∀ i, i < t.capacity → ¬ Stops t.buckets key i) ∨
    (∃ j, j < t.capacity ∧
      table_locate hash t key = (((hash key % t.capacity + j) % t.capacity : Nat) : Int) ∧
      Stops t.buckets key ((hash key % t.capacity + j) % t.capacity) ∧
      ∀ j', j' < j → ¬ Stops t.buckets key ((hash key % t.capacity + j') % t.capacity)) := by
  have hb : hash key % t.capacity < t.capacity := Nat.mod_lt _ hc
  rcases locate_loop_spec t.buckets t.capacity key t.capacity _ hb with ⟨h1, h2⟩ | h
  · left
    refine ⟨h1, ?_⟩
    intro i hi
    obtain ⟨j, hj, hji⟩ := exists_offset t.capacity _ i hb hi
    rw [← hji]
    exact h2 j hj
  · right
    exact h

/-- The first stopping slot of the probe sequence is what `table_locate` returns. -/
theorem table_locate_eq_of_first (hash : Key → Nat) (t : Table) (key : Key)
    (hc : 0 < t.capacity) (j : Nat)
    (hs : Stops t.buckets key ((hash key % t.capacity + j) % t.capacity))
    (hn : ∀ j', j' < j → ¬ Stops t.buckets key ((hash key % t.capacity + j') % t.capacity)) :
    table_locate hash t key = (((hash key % t.capacity + j) % t.capacity : Nat) : Int) := by
  rcases table_locate_cases hash t key hc with ⟨_, h2⟩ | ⟨j2, hj2, h1, h2, h3⟩
  · exact absurd hs (h2 _ (Nat.mod_lt _ hc))
  · have : j2 = j := by
      rcases Nat.lt_trichotomy j2 j with h | h | h
      · exact absurd h2 (hn j2 h)
      · exact h
      · exact absurd hs (h3 j h)
    rw [h1, this]

/-- A non-negative result of `table_locate` is a slot below `capacity` at which the
probe of `key` stops, reached from the home slot through slots at which it does not. -/
theorem table_locate_eq_nat (hash : Key → Nat) (t : Table) (key : Key) (hc : 0 < t.capacity)
    (i : Nat) (h : table_locate hash t key = (i : Int)) :
    ∃ j, j < t.capacity ∧ i = (hash key % t.capacity + j) % t.capacity ∧
      Stops t.buckets key i ∧
      ∀ j', j' < j → ¬ Stops t.buckets key ((hash key % t.capacity + j') % t.capacity) := by
  rcases table_locate_cases hash t key hc with ⟨h1, _⟩ | ⟨j, hj, h1, h2, h3⟩
  · rw [h1] at h
    omega
  · have hij : i = (hash key % t.capacity + j) % t.capacity := by
      rw [h1] at h
      exact (Int.ofNat_inj.mp h).symm
    exact ⟨j, hj, hij, hij ▸ h2, h3⟩

/-! ## The representation invariant and the stored association -/

theorem holdsKey_iff_stored (t : Table) (k : Key) : HoldsKey t k ↔ ∃ v, Stored t k v := by
  constructor
  · rintro ⟨i, p, hp, hk⟩
    refine ⟨p.value, i, ?_⟩
    rw [hp, ← hk]
  · rintro ⟨v, i, hi⟩
    exact ⟨i, _, hi, rfl⟩

theorem Inv.size_le {hash : Key → Nat} {t : Table} (h : Inv hash t) : t.size ≤ t.capacity := by
  rw [h.size_eq, ← h.len]
  exact occupied_le_length _

/-- Under the invariant a key sits in at most one slot. -/
theorem Inv.slot_unique {hash : Key → Nat} {t : Table} (h : Inv hash t) {i j : Nat} {p q : Pair}
    (hi : t.buckets.getD i none = some p) (hj : t.buckets.getD j none = some q)
    (hk : p.key = q.key) : i = j := by
  have h1 := h.chain i p hi
  have h2 := h.chain j q hj
  rw [hk, h2] at h1
  exact (Int.ofNat_inj.mp h1).symm

theorem Inv.stored_unique {hash : Key → Nat} {t : Table} (h : Inv hash t) {k : Key} {v w : Int}
    (hv : Stored t k v) (hw : Stored t k w) : v = w := by
  obtain ⟨i, hi⟩ := hv
  obtain ⟨j, hj⟩ := hw
  have := h.slot_unique hi hj rfl
  subst this
  rw [hi] at hj
  simpa using hj

/-- With a free slot somewhere, `table_locate` does not report a full table. -/
theorem table_locate_ne_full (hash : Key → Nat) (t : Table) (key : Key)
    (hlen : t.buckets.length = t.capacity) (hc : 0 < t.capacity)
    (hfree : occupied t.buckets < t.capacity) :
    ∃ i, i < t.capacity ∧ table_locate hash t key = (i : Int) := by
  rcases table_locate_cases hash t key hc with ⟨_, h2⟩ | ⟨j, _, h1, _, _⟩
  · obtain ⟨i, hi, hn⟩ := exists_empty_of_occupied_lt t.buckets (by omega)
    exact absurd (stops_of_none hn) (h2 i (by omega))
  · exact ⟨_, Nat.mod_lt _ hc, h1⟩

/-- Looking up a stored key yields its value. -/
theorem table_lookup_of_stored {hash : Key → Nat} {t : Table} (h : Inv hash t) {k : Key} {v : Int}
    (hs : Stored t k v) : table_lookup hash t k = v := by
  obtain ⟨i, hi⟩ := hs
  have hl : table_locate hash t k = (i : Int) := h.chain i _ hi
  have hne : ¬ ((i : Int) = -1) := by omega
  simp only [table_lookup, hl, hne, if_false, Int.toNat_ofNat, hi]

/-- Looking up a key that no slot holds yields `-1`. -/
theorem table_lookup_of_absent (hash : Key → Nat) (t : Table) (k : Key) (hc : 0 < t.capacity)
    (hs : ¬ HoldsKey t k) : table_lookup hash t k = -1 := by
  rcases table_locate_cases hash t k hc with ⟨h1, _⟩ | ⟨j, _, h1, h2, _⟩
  · simp only [table_lookup, h1, if_true]
  · have hne : ¬ ((((hash k % t.capacity + j) % t.capacity : Nat) : Int) = -1) := by omega
    cases hg : t.buckets.getD ((hash k % t.capacity + j) % t.capacity) none with
    | none => simp only [table_lookup, h1, hne, if_false, Int.toNat_ofNat, hg]
    | some p => exact absurd ⟨_, p, hg, h2 p hg⟩ hs

/-! ## The step after the load-factor guard -/

theorem table_insert_or_update_succ (hash : Key → Nat) (fuel : Nat) (t : Table) (key : Key)
    (value : Int) :
    table_insert_or_update hash (fuel + 1) t key value =
      (if (t.size : ℚ) / (t.capacity : ℚ) ≥ t.alpha then
          table_resize_with (table_insert_or_update hash fuel) t (t.capacity * 2)
        else some t).bind fun t => some (place hash t key value) := by
  rw [table_insert_or_update]
  congr 1
  funext t1
  simp only [place]
  split
  · rfl
  · split <;> rfl

theorem place_capacity (hash : Key → Nat) (t : Table) (key : Key) (value : Int) :
    (place hash t key value).capacity = t.capacity := by
  simp only [place]
  split
  · rfl
  · split <;> rfl

theorem place_alpha (hash : Key → Nat) (t : Table) (key : Key) (value : Int) :
    (place hash t key value).alpha = t.alpha := by
  simp only [place]
  split
  · rfl
  · split <;> rfl

/-- When `table_locate` answers slot `i`, the step writes `(key, value)` there. -/
theorem place_buckets (hash : Key → Nat) (t : Table) (key : Key) (value : Int) (i : Nat)
    (hl : table_locate hash t key = (i : Int)) (hs : Stops t.buckets key i) :
    (place hash t key value).buckets = t.buckets.set i (some ⟨key, value⟩) := by
  have hne : ¬ ((i : Int) = -1) := by omega
  simp only [place, hl, hne, if_false, Int.toNat_ofNat]
  cases hg : t.buckets.getD i none with
  | none => rfl
  | some p =>
    have hk : p.key = key := hs p hg
    simp only [hk]

theorem place_size_of_none (hash : Key → Nat) (t : Table) (key : Key) (value : Int) (i : Nat)
    (hl : table_locate hash t key = (i : Int)) (hg : t.buckets.getD i none = none) :
    (place hash t key value).size = t.size + 1 := by
  have hne : ¬ ((i : Int) = -1) := by omega
  simp only [place, hl, hne, if_false, Int.toNat_ofNat, hg]

theorem place_size_of_some (hash : Key → Nat) (t : Table) (key : Key) (value : Int) (i : Nat)
    (p : Pair) (hl : table_locate hash t key = (i : Int)) (hg : t.buckets.getD i none = some p) :
    (place hash t key value).size = t.size := by
  have hne : ¬ ((i : Int) = -1) := by omega
  simp only [place, hl, hne, if_false, Int.toNat_ofNat, hg]

theorem place_of_full (hash : Key → Nat) (t : Table) (key : Key) (value : Int)
    (hl : table_locate hash t key = -1) : place hash t key value = t := by
  simp only [place, hl, if_true]

/-- Writing `(k, v)` into the slot that `table_locate` answers for `k` keeps every
stored key on its own probe sequence. -/
theorem chain_after_set {hash : Key → Nat} {t t' : Table} {k : Key} {v : Int} {i : Nat}
    (h : Inv hash t) (hl : table_locate hash t k = (i : Int))
    (hb : t'.buckets = t.buckets.set i (some ⟨k, v⟩)) (hcap : t'.capacity = t.capacity) :
    ∀ i' p', t'.buckets.getD i' none = some p' → table_locate hash t' p'.key = (i' : Int) := by
  obtain ⟨j, _, hij, hst, hbefore⟩ := table_locate_eq_nat hash t k h.pos i hl
  have hilt : i < t.buckets.length := by
    rw [h.len, hij]
    exact Nat.mod_lt _ h.pos
  have hpos' : 0 < t'.capacity := hcap ▸ h.pos
  have hself : t'.buckets.getD i none = some ⟨k, v⟩ := by
    rw [hb, getD_set_self _ _ _ hilt]
  have hkeep : ∀ k2 s, ¬ Stops t.buckets k2 s → ¬ Stops t'.buckets k2 s := by
    intro k2 s hns
    obtain ⟨q, hq, hqk⟩ := not_stops_iff.mp hns
    by_cases hs : s = i
    · rw [hs] at hq ⊢
      have hqk2 : q.key = k := hst q hq
      refine not_stops_iff.mpr ⟨⟨k, v⟩, hself, ?_⟩
      rw [← hqk2]
      exact hqk
    · refine not_stops_iff.mpr ⟨q, ?_, hqk⟩
      rw [hb, getD_set_of_ne _ _ _ _ (Ne.symm hs)]
      exact hq
  intro i' p' hp'
  by_cases hii : i' = i
  · rw [hii] at hp' ⊢
    rw [hself] at hp'
    have hp'k : p'.key = k := by
      rw [← Option.some.inj hp']
    rw [hp'k]
    have key := table_locate_eq_of_first hash t' k hpos' j
      (by rw [hcap, ← hij]; exact stops_of_some hself rfl)
      (by intro j' hj'; rw [hcap]; exact hkeep _ _ (hbefore j' hj'))
    rw [hcap, ← hij] at key
    exact key
  · have hp : t.buckets.getD i' none = some p' := by
      rw [hb, getD_set_of_ne _ _ _ _ (Ne.symm hii)] at hp'
      exact hp'
    obtain ⟨j2, _, hij2, _, hbefore2⟩ :=
      table_locate_eq_nat hash t p'.key h.pos i' (h.chain i' p' hp)
    have key := table_locate_eq_of_first hash t' p'.key hpos' j2
      (by rw [hcap, ← hij2]; exact stops_of_some hp' rfl)
      (by intro j' hj'; rw [hcap]; exact hkeep _ _ (hbefore2 j' hj'))
    rw [hcap, ← hij2] at key
    exact key

/-- The step after the guard keeps the invariant when a slot is free. -/
theorem place_inv {hash : Key → Nat} {t : Table} (h : Inv hash t) (hfree : t.size < t.capacity)
    (k : Key) (v : Int) : Inv hash (place hash t k v) := by
  obtain ⟨i, hi, hl⟩ :=
    table_locate_ne_full hash t k h.len h.pos (by rw [← h.size_eq]; exact hfree)
  obtain ⟨j, _, _, hst, _⟩ := table_locate_eq_nat hash t k h.pos i hl
  have hb := place_buckets hash t k v i hl hst
  have hcap := place_capacity hash t k v
  refine ⟨?_, ?_, ?_, chain_after_set h hl hb hcap⟩
  · rw [hb, hcap, List.length_set, h.len]
  · rw [hcap]; exact h.pos
  · rw [hb]
    cases hg : t.buckets.getD i none with
    | none =>
      rw [place_size_of_none hash t k v i hl hg,
        occupied_set_of_none _ _ _ (by rw [h.len]; exact hi) hg, h.size_eq]
    | some p =>
      rw [place_size_of_some hash t k v i p hl hg, occupied_set_of_some _ _ _ p hg, h.size_eq]

/-- The step after the guard binds `k` to `v` and keeps every other association. -/
theorem place_stored {hash : Key → Nat} {t : Table} (h : Inv hash t) (hfree : t.size < t.capacity)
    (k : Key) (v : Int) (k' : Key) (v' : Int) :
    Stored (place hash t k v) k' v' ↔ (k' = k ∧ v' = v) ∨ (k' ≠ k ∧ Stored t k' v') := by
  obtain ⟨i, hi, hl⟩ :=
    table_locate_ne_full hash t k h.len h.pos (by rw [← h.size_eq]; exact hfree)
  obtain ⟨j, _, _, hst, _⟩ := table_locate_eq_nat hash t k h.pos i hl
  have hb := place_buckets hash t k v i hl hst
  have hilt : i < t.buckets.length := by rw [h.len]; exact hi
  constructor
  · rintro ⟨i', hi'⟩
    rw [hb] at hi'
    by_cases hii : i' = i
    · rw [hii, getD_set_self _ _ _ hilt] at hi'
      have := Option.some.inj hi'
      left
      exact ⟨(congrArg Pair.key this).symm, (congrArg Pair.value this).symm⟩
    · rw [getD_set_of_ne _ _ _ _ (Ne.symm hii)] at hi'
      right
      refine ⟨?_, i', hi'⟩
      intro hkk
      have h1 := h.chain i' _ hi'
      simp only [hkk] at h1
      rw [hl] at h1
      exact hii (Int.ofNat_inj.mp h1).symm
  · rintro (⟨hk, hv⟩ | ⟨hk, i', hi'⟩)
    · refine ⟨i, ?_⟩
      rw [hb, getD_set_self _ _ _ hilt, hk, hv]
    · refine ⟨i', ?_⟩
      have hii : i' ≠ i := by
        intro e
        rw [e] at hi'
        exact hk (hst _ hi')
      rw [hb, getD_set_of_ne _ _ _ _ (Ne.symm hii)]
      exact hi'

/-- Size after the step: unchanged for a key already held, one more otherwise. -/
theorem place_size {hash : Key → Nat} {t : Table} (h : Inv hash t) (hfree : t.size < t.capacity)
    (k : Key) (v : Int) :
    (HoldsKey t k → (place hash t k v).size = t.size) ∧
    (¬ HoldsKey t k → (place hash t k v).size = t.size + 1) := by
  obtain ⟨i, _, hl⟩ :=
    table_locate_ne_full hash t k h.len h.pos (by rw [← h.size_eq]; exact hfree)
  obtain ⟨j, _, _, hst, _⟩ := table_locate_eq_nat hash t k h.pos i hl
  constructor
  · rintro ⟨i', p, hp, hk⟩
    have h1 := h.chain i' p hp
    rw [hk, hl] at h1
    have hii : i = i' := Int.ofNat_inj.mp h1
    rw [← hii] at hp
    exact place_size_of_some hash t k v i p hl hp
  · intro hno
    cases hg : t.buckets.getD i none with
    | none => exact place_size_of_none hash t k v i hl hg
    | some p => exact absurd ⟨i, p, hg, hst p hg⟩ hno

/-! ## The reinsertion loop of `table_resize` -/

theorem getD_eq_getElem (bs : List (Option Pair)) (i : Nat) (h : i < bs.length) :
    bs.getD i none = bs[i] := by
  induction bs generalizing i with
  | nil => simp at h
  | cons b bs ih =>
    cases i with
    | zero => rfl
    | succ i => exact ih i (by simpa using h)

/-- The index loop visits the slots `i, i+1, ..` of the old array in order. -/
theorem resize_loop_eq_reinsert (ins : Table → Key → Int → Option Table)
    (old : List (Option Pair)) (rem i : Nat) (t : Table) :
    resize_loop ins old rem i t = reinsert ins ((old.drop i).take rem) t := by
  induction rem generalizing i t with
  | zero => simp [resize_loop, reinsert]
  | succ rem ih =>
    by_cases hi : i < old.length
    · rw [List.drop_eq_getElem_cons hi, List.take_succ_cons, resize_loop,
        getD_eq_getElem old i hi]
      cases hg : old[i] with
      | none => simp only [reinsert]; exact ih (i + 1) t
      | some p =>
        simp only [reinsert]
        congr 1
        funext t1
        exact ih (i + 1) t1
    · have hnone : old.getD i none = none := getD_of_length_le old i (by omega)
      have hd : old.drop i = [] := List.drop_eq_nil_of_le (by omega)
      have hd1 : old.drop (i + 1) = [] := List.drop_eq_nil_of_le (by omega)
      rw [resize_loop, hnone]
      simp only []
      rw [ih (i + 1) t, hd, hd1]
      simp [reinsert]

theorem table_resize_with_eq (ins : Table → Key → Int → Option Table) (t : Table) (n : Nat)
    (hlen : t.buckets.length = t.capacity) :
    table_resize_with ins t n =
      reinsert ins t.buckets
        { t with buckets := List.replicate n none, capacity := n, size := 0 } := by
  simp only [table_resize_with]
  rw [resize_loop_eq_reinsert, List.drop_zero, ← hlen, List.take_length]

theorem mem_iff_getD (bs : List (Option Pair)) (p : Pair) :
    some p ∈ bs ↔ ∃ i, bs.getD i none = some p := by
  induction bs with
  | nil =>
    constructor
    · intro h; cases h
    · rintro ⟨i, hi⟩; cases hi
  | cons b bs ih =>
    rw [List.mem_cons, ih]
    constructor
    · rintro (h | ⟨i, hi⟩)
      · exact ⟨0, h.symm⟩
      · exact ⟨i + 1, hi⟩
    · rintro ⟨i, hi⟩
      cases i with
      | zero => left; exact hi.symm
      | succ i => right; exact ⟨i, hi⟩

theorem distinctKeys_of_slot_unique (bs : List (Option Pair))
    (h : ∀ i j p q, bs.getD i none = some p → bs.getD j none = some q → p.key = q.key → i = j) :
    DistinctKeys bs := by
  induction bs with
  | nil => exact List.Pairwise.nil
  | cons a bs ih =>
    refine List.Pairwise.cons ?_ (ih ?_)
    · intro b hb p q hap hbq hk
      rw [hbq] at hb
      obtain ⟨j, hj⟩ := (mem_iff_getD bs q).mp hb
      have := h 0 (j + 1) p q hap hj hk
      omega
    · intro i j p q hi hj hk
      have := h (i + 1) (j + 1) p q hi hj hk
      omega

theorem Inv.distinctKeys {hash : Key → Nat} {t : Table} (h : Inv hash t) :
    DistinctKeys t.buckets :=
  distinctKeys_of_slot_unique _ fun _ _ _ _ hi hj hk => h.slot_unique hi hj hk

/-! ## Correctness of insertion and resizing -/

theorem reinsert_post {hash : Key → Nat} {ins : Table → Key → Int → Option Table}
    (hins : MeetsInsertPost hash ins) (l : List (Option Pair)) (tc t' : Table)
    (hinv : Inv hash tc) (ha : tc.alpha ≤ 1) (hd : DistinctKeys l)
    (hfresh : ∀ q, some q ∈ l → ¬ HoldsKey tc q.key)
    (hr : reinsert ins l tc = some t') :
    Inv hash t' ∧ t'.alpha = tc.alpha ∧ tc.capacity ≤ t'.capacity ∧
      (∀ k v, Stored t' k v ↔ Stored tc k v ∨ some (⟨k, v⟩ : Pair) ∈ l) ∧
      t'.size = tc.size + occupied l := by
  induction l generalizing tc with
  | nil =>
    simp only [reinsert, Option.some.injEq] at hr
    subst hr
    refine ⟨hinv, rfl, le_refl _, ?_, rfl⟩
    intro k v
    simp
  | cons a l ih =>
    have hdl : DistinctKeys l := (List.pairwise_cons.mp hd).2
    cases a with
    | none =>
      simp only [reinsert] at hr
      obtain ⟨h1, h2, h3, h4, h5⟩ :=
        ih tc hinv ha hdl (fun q hq => hfresh q (List.mem_cons_of_mem _ hq)) hr
      refine ⟨h1, h2, h3, ?_, ?_⟩
      · intro k v
        rw [h4 k v]
        simp
      · rw [h5]
        simp [occupied, List.countP_cons]
    | some p =>
      simp only [reinsert] at hr
      obtain ⟨t1, ht1, hr1⟩ := Option.bind_eq_some.mp hr
      have hp := hins tc p.key p.value t1 hinv ha ht1
      have hpfresh : ¬ HoldsKey tc p.key := hfresh p (List.mem_cons_self _ _)
      have hfresh1 : ∀ q, some q ∈ l → ¬ HoldsKey t1 q.key := by
        intro q hq hh
        obtain ⟨w, hw⟩ := (holdsKey_iff_stored t1 q.key).mp hh
        rcases (hp.stored q.key w).mp hw with ⟨hk, _⟩ | ⟨_, hst⟩
        · exact (List.pairwise_cons.mp hd).1 (some q) hq p q rfl rfl hk.symm
        · exact hfresh q (List.mem_cons_of_mem _ hq)
            ((holdsKey_iff_stored tc q.key).mpr ⟨w, hst⟩)
      obtain ⟨h1, h2, h3, h4, h5⟩ :=
        ih t1 hp.inv (by rw [hp.alpha_eq]; exact ha) hdl hfresh1 hr1
      refine ⟨h1, h2.trans hp.alpha_eq, le_trans hp.cap_le h3, ?_, ?_⟩
      · intro k v
        rw [h4 k v, hp.stored k v, List.mem_cons]
        constructor
        · rintro ((⟨hk, hv⟩ | ⟨_, hst⟩) | hm)
          · right; left
            rw [hk, hv]
          · left; exact hst
          · right; right; exact hm
        · rintro (hst | hm | hm)
          · left; right
            refine ⟨?_, hst⟩
            intro hk
            exact hpfresh ((holdsKey_iff_stored tc p.key).mpr ⟨v, hk ▸ hst⟩)
          · left; left
            have := Option.some.inj hm
            exact ⟨congrArg Pair.key this, congrArg Pair.value this⟩
          · right; exact hm
      · rw [h5, hp.size_new hpfresh]
        simp only [occupied, List.countP_cons, Option.isSome_some, if_true]
        omega

theorem resize_post {hash : Key → Nat} {ins : Table → Key → Int → Option Table}
    (hins : MeetsInsertPost hash ins) (t : Table) (n : Nat) (t' : Table)
    (hinv : Inv hash t) (ha : t.alpha ≤ 1) (hn : 0 < n)
    (hr : table_resize_with ins t n = some t') : ResizePost hash t n t' := by
  rw [table_resize_with_eq ins t n hinv.len] at hr
  have hinv0 : Inv hash
      { t with buckets := List.replicate n none, capacity := n, size := 0 } := by
    refine ⟨by simp, hn, (occupied_replicate_none n).symm, ?_⟩
    intro i p hp
    rw [getD_replicate_none] at hp
    cases hp
  have hfresh : ∀ q, some q ∈ t.buckets →
      ¬ HoldsKey { t with buckets := List.replicate n none, capacity := n, size := 0 } q.key := by
    rintro q _ ⟨i, p, hp, _⟩
    rw [getD_replicate_none] at hp
    cases hp
  obtain ⟨h1, h2, h3, h4, h5⟩ :=
    reinsert_post hins t.buckets _ t' hinv0 ha hinv.distinctKeys hfresh hr
  refine ⟨h1, h2, h3, ?_, ?_⟩
  · intro k v
    rw [h4 k v, mem_iff_getD]
    constructor
    · rintro (⟨i, hi⟩ | h)
      · rw [getD_replicate_none] at hi
        cases hi
      · exact h
    · intro h
      exact Or.inr h
  · rw [h5, hinv.size_eq]
    simp

theorem lt_of_not_load_ge (t : Table) (hc : 0 < t.capacity) (ha : t.alpha ≤ 1)
    (hg : ¬ ((t.size : ℚ) / (t.capacity : ℚ) ≥ t.alpha)) : t.size < t.capacity := by
  have hcq : (0 : ℚ) < (t.capacity : ℚ) := by exact_mod_cast hc
  have h1 : (t.size : ℚ) / (t.capacity : ℚ) < 1 := lt_of_lt_of_le (not_le.mp hg) ha
  have h2 : (t.size : ℚ) < (t.capacity : ℚ) := by
    rwa [div_lt_one hcq] at h1
  exact_mod_cast h2

/-- Whenever `table_insert_or_update` returns, on a table that meets the invariant and has
`alpha ≤ 1`, its final state meets `InsertPost`. -/
theorem insert_post (hash : Key → Nat) (fuel : Nat) :
    MeetsInsertPost hash (table_insert_or_update hash fuel) := by
  induction fuel with
  | zero =>
    intro t k v t' _ _ hr
    simp [table_insert_or_update] at hr
  | succ fuel ih =>
    intro t k v t' hinv ha hr
    rw [table_insert_or_update_succ] at hr
    obtain ⟨t1, ht1, hr1⟩ := Option.bind_eq_some.mp hr
    have ht' : t' = place hash t1 k v := (Option.some.inj hr1).symm
    have key : Inv hash t1 ∧ t1.size < t1.capacity ∧ t1.alpha = t.alpha ∧
        t.capacity ≤ t1.capacity ∧ (∀ k v, Stored t1 k v ↔ Stored t k v) ∧
        t1.size = t.size := by
      by_cases hg : (t.size : ℚ) / (t.capacity : ℚ) ≥ t.alpha
      · rw [if_pos hg] at ht1
        have hp := resize_post ih t (t.capacity * 2) t1 hinv ha
          (Nat.mul_pos hinv.pos (by decide)) ht1
        have hsz := hinv.size_le
        have hpos := hinv.pos
        have hcap := hp.cap_le
        have hse := hp.size_eq
        exact ⟨hp.inv, by omega, hp.alpha_eq, by omega, hp.stored, hp.size_eq⟩
      · rw [if_neg hg] at ht1
        have : t1 = t := (Option.some.inj ht1).symm
        subst this
        exact ⟨hinv, lt_of_not_load_ge t1 hinv.pos ha hg, rfl, le_refl _, fun _ _ => Iff.rfl, rfl⟩
    obtain ⟨hinv1, hfree, hal, hcap, hst, hsz⟩ := key
    have hhk : HoldsKey t1 k ↔ HoldsKey t k := by
      rw [holdsKey_iff_stored, holdsKey_iff_stored]
      exact exists_congr fun w => hst k w
    subst ht'
    refine ⟨place_inv hinv1 hfree k v, ?_, ?_, ?_, ?_, ?_⟩
    · rw [place_alpha, hal]
    · rw [place_capacity]; exact hcap
    · intro k' v'
      rw [place_stored hinv1 hfree, hst]
    · intro hh
      rw [(place_size hinv1 hfree k v).1 (hhk.mpr hh), hsz]
    · intro hh
      rw [(place_size hinv1 hfree k v).2 (fun h => hh (hhk.mp h)), hsz]

/-! ## Termination -/

theorem occupied_set_le (bs : List (Option Pair)) (i : Nat) (p : Pair) :
    occupied (bs.set i (some p)) ≤ occupied bs + 1 := by
  induction bs generalizing i with
  | nil => simp [occupied]
  | cons b bs ih =>
    cases i with
    | zero =>
      simp only [occupied, List.set_cons_zero, List.countP_cons, Option.isSome_some, if_true]
      omega
    | succ i =>
      have := ih i
      simp only [occupied, List.set_cons_succ, List.countP_cons] at this ⊢
      omega

theorem place_occupied_le (hash : Key → Nat) (t : Table) (k : Key) (v : Int) :
    occupied (place hash t k v).buckets ≤ occupied t.buckets + 1 := by
  simp only [place]
  split
  · omega
  · split
    · exact occupied_set_le _ _ _
    · exact occupied_set_le _ _ _

theorem occupied_take_le (bs : List (Option Pair)) (n : Nat) :
    occupied (bs.take n) ≤ occupied bs :=
  (List.take_sublist n bs).countP_le _

theorem reinsert_total {ins : Table → Key → Int → Option Table} {bound : Nat}
    (hins : ReturnsBelow ins bound) (l : List (Option Pair)) (tc : Table)
    (hb : occupied tc.buckets + occupied l ≤ bound) :
    ∃ t', reinsert ins l tc = some t' ∧
      occupied t'.buckets ≤ occupied tc.buckets + occupied l := by
  induction l generalizing tc with
  | nil => exact ⟨tc, rfl, le_refl _⟩
  | cons a l ih =>
    cases a with
    | none =>
      have ho : occupied (none :: l) = occupied l := by simp [occupied, List.countP_cons]
      rw [ho] at hb ⊢
      exact ih tc hb
    | some p =>
      have ho : occupied (some p :: l) = occupied l + 1 := by
        simp [occupied, List.countP_cons]
      rw [ho] at hb ⊢
      obtain ⟨t1, ht1, hle1⟩ := hins tc p.key p.value (by omega)
      obtain ⟨t', ht', hle'⟩ := ih t1 (by omega)
      refine ⟨t', ?_, by omega⟩
      simp only [reinsert, ht1, Option.some_bind]
      exact ht'

/-- The call `table_insert_or_update(t, k, v)` returns: a recursion depth above the
number of occupied slots of `t` is never exceeded. -/
theorem insert_total (hash : Key → Nat) (fuel : Nat) :
    ReturnsBelow (table_insert_or_update hash fuel) fuel := by
  induction fuel with
  | zero =>
    intro t k v h
    exact absurd h (Nat.not_lt_zero _)
  | succ fuel ih =>
    intro t k v h
    rw [table_insert_or_update_succ]
    by_cases hg : (t.size : ℚ) / (t.capacity : ℚ) ≥ t.alpha
    · rw [if_pos hg]
      simp only [table_resize_with]
      rw [resize_loop_eq_reinsert, List.drop_zero]
      have htk := occupied_take_le t.buckets t.capacity
      obtain ⟨t1, ht1, hle1⟩ := reinsert_total ih (t.buckets.take t.capacity)
        { t with buckets := List.replicate (t.capacity * 2) none,
                 capacity := t.capacity * 2, size := 0 }
        (by simp only [occupied_replicate_none]; omega)
      simp only [occupied_replicate_none] at hle1
      refine ⟨place hash t1 k v, ?_, ?_⟩
      · rw [ht1]; rfl
      · have := place_occupied_le hash t1 k v
        omega
    · rw [if_neg hg]
      exact ⟨place hash t k v, rfl, place_occupied_le hash t k v⟩

/-- The call `table_resize(t, n)` returns once the depth bound reaches the number of
occupied slots of `t`. -/
theorem resize_total (hash : Key → Nat) (fuel : Nat) (t : Table) (n : Nat)
    (h : occupied t.buckets ≤ fuel) : ∃ t', table_resize hash fuel t n = some t' := by
  simp only [table_resize, table_resize_with]
  rw [resize_loop_eq_reinsert, List.drop_zero]
  have htk := occupied_take_le t.buckets t.capacity
  obtain ⟨t1, ht1, _⟩ := reinsert_total (insert_total hash fuel) (t.buckets.take t.capacity)
    { t with buckets := List.replicate n none, capacity := n, size := 0 }
    (by simp only [occupied_replicate_none]; omega)
  exact ⟨t1, ht1⟩

/-! ## Tables built by a sequence of insertions -/

theorem table_create_inv (hash : Key → Nat) (dflt : Nat) (c : Int) (alpha : ℚ) (hc : 0 < c) :
    Inv hash (table_create dflt c alpha) := by
  have hnot : ¬ c ≤ 0 := by omega
  refine ⟨?_, ?_, ?_, ?_⟩
  · simp [table_create]
  · simp only [table_create, hnot, if_false]
    omega
  · simp only [table_create, occupied_replicate_none]
  · intro i p hp
    simp only [table_create, getD_replicate_none] at hp
    cases hp

theorem table_create_alpha (dflt : Nat) (c : Int) (alpha : ℚ) :
    (table_create dflt c alpha).alpha = alpha := rfl

/-- Every table built from `table_create(c, alpha)` with `c > 0` and `alpha ≤ 1` meets the
invariant and still carries `alpha`. -/
theorem Built.inv {hash : Key → Nat} {dflt : Nat} {c : Int} {alpha : ℚ}
    {ops : List (Key × Int)} {t : Table} (hc : 0 < c) (ha : alpha ≤ 1)
    (h : Built hash dflt c alpha ops t) : Inv hash t ∧ t.alpha = alpha := by
  induction h with
  | create => exact ⟨table_create_inv hash dflt c alpha hc, rfl⟩
  | insert _ hstep ih =>
    have hp := insert_post hash _ _ _ _ _ ih.1 (by rw [ih.2]; exact ha) hstep
    exact ⟨hp.inv, hp.alpha_eq.trans ih.2⟩

theorem insert_returns (hash : Key → Nat) (t : Table) (k : Key) (v : Int) :
    ∃ t', InsertReturns hash t k v t' := by
  obtain ⟨t', ht', _⟩ := insert_total hash (occupied t.buckets + 1) t k v (Nat.lt_succ_self _)
  exact ⟨t', _, ht'⟩

theorem tableA_built : Built lengthHash 8 1 (1 / 2) [("a", 1)] tableA :=
  @Built.insert lengthHash 8 1 (1 / 2) [] _ _ "a" 1 1 Built.create (by decide!)

theorem lastValue_append (ops : List (Key × Int)) (k : Key) (v : Int) (k' : Key) :
    lastValue (ops ++ [(k, v)]) k' = if k = k' then some v else lastValue ops k' := by
  simp [lastValue, List.foldl_append]

theorem lastValue_isSome_iff (ops : List (Key × Int)) (k : Key) :
    (∃ v, lastValue ops k = some v) ↔ k ∈ ops.map Prod.fst := by
  induction ops using List.reverseRecOn with
  | nil => simp [lastValue]
  | append_singleton ops kv ih =>
    obtain ⟨k1, v1⟩ := kv
    rw [List.map_append, List.mem_append, ← ih]
    by_cases h : k1 = k
    · simp [lastValue_append, h]
    · simp [lastValue_append, h, Ne.symm h]

theorem distinctKeyCount_append (ops : List (Key × Int)) (k : Key) (v : Int) :
    distinctKeyCount (ops ++ [(k, v)]) =
      if k ∈ ops.map Prod.fst then distinctKeyCount ops else distinctKeyCount ops + 1 := by
  have hU : (ops.map Prod.fst ++ [k]).toFinset = insert k (ops.map Prod.fst).toFinset := by
    ext x
    simp only [List.toFinset_append, List.toFinset_cons, List.toFinset_nil, Finset.mem_union,
      List.mem_toFinset, Finset.mem_insert, Finset.not_mem_empty, or_false]
    exact or_comm
  simp only [distinctKeyCount, ← List.card_toFinset, List.map_append, List.map_cons,
    List.map_nil]
  rw [hU]
  by_cases h : k ∈ ops.map Prod.fst
  · rw [if_pos h, Finset.insert_eq_of_mem (List.mem_toFinset.mpr h)]
  · rw [if_neg h, Finset.card_insert_of_not_mem (fun hm => h (List.mem_toFinset.mp hm))]

/-- A built table stores exactly the last value written for each key, and its size is the
number of distinct keys written. -/
theorem Built.refines {hash : Key → Nat} {dflt : Nat} {c : Int} {alpha : ℚ}
    {ops : List (Key × Int)} {t : Table} (hc : 0 < c) (ha : alpha ≤ 1)
    (h : Built hash dflt c alpha ops t) :
    (∀ k v, Stored t k v ↔ lastValue ops k = some v) ∧ t.size = distinctKeyCount ops := by
  induction h with
  | create =>
    refine ⟨?_, rfl⟩
    intro k v
    constructor
    · rintro ⟨i, hi⟩
      simp only [table_create, getD_replicate_none] at hi
      cases hi
    · intro hl
      cases hl
  | @insert ops t t' k v fuel hb hstep ih =>
    obtain ⟨hinv, hal⟩ := hb.inv hc ha
    have hp := insert_post hash fuel t k v t' hinv (by rw [hal]; exact ha) hstep
    have hmem : HoldsKey t k ↔ k ∈ ops.map Prod.fst := by
      rw [holdsKey_iff_stored, ← lastValue_isSome_iff]
      exact exists_congr fun w => ih.1 k w
    constructor
    · intro k' v'
      rw [hp.stored, lastValue_append, ih.1]
      by_cases hk : k = k'
      · rw [if_pos hk]
        constructor
        · rintro (⟨_, hv⟩ | ⟨hne, _⟩)
          · rw [hv]
          · exact absurd hk.symm hne
        · intro hv
          left
          exact ⟨hk.symm, (Option.some.inj hv).symm⟩
      · rw [if_neg hk]
        constructor
        · rintro (⟨hkk, _⟩ | ⟨_, hv⟩)
          · exact absurd hkk.symm hk
          · exact hv
        · intro hv
          right
          exact ⟨Ne.symm hk, hv⟩
    · rw [distinctKeyCount_append]
      by_cases hk : k ∈ ops.map Prod.fst
      · rw [if_pos hk, hp.size_old (hmem.mpr hk), ih.2]
      · rw [if_neg hk, hp.size_new (fun hh => hk (hmem.mp hh)), ih.2]

/-- Every finite sequence of insertions can be run from `table_create(c, alpha)`. -/
theorem built_exists (hash : Key → Nat) (dflt : Nat) (c : Int) (alpha : ℚ)
    (ops : List (Key × Int)) : ∃ t, Built hash dflt c alpha ops t := by
  induction ops using List.reverseRecOn with
  | nil => exact ⟨_, Built.create⟩
  | append_singleton ops kv ih =>
    obtain ⟨t, ht⟩ := ih
    obtain ⟨t', fuel, hf⟩ := insert_returns hash t kv.1 kv.2
    exact ⟨t', Built.insert ht hf⟩

/-! ## Keys held by a table, whatever the load factor -/

theorem getD_set_cases (bs : List (Option Pair)) (i j : Nat) (a : Option Pair) (q : Pair)
    (h : (bs.set i a).getD j none = some q) : a = some q ∨ bs.getD j none = some q := by
  by_cases hij : i = j
  · by_cases hlt : i < bs.length
    · rw [← hij, getD_set_self _ _ _ hlt] at h
      exact Or.inl h
    · rw [List.set_eq_of_length_le (by omega)] at h
      exact Or.inr h
  · rw [getD_set_of_ne _ _ _ _ hij] at h
    exact Or.inr h

/-- The step after the guard brings in no key but `k`. -/
theorem place_keys (hash : Key → Nat) (t : Table) (k : Key) (v : Int) (k' : Key)
    (h : HoldsKey (place hash t k v) k') : k' = k ∨ HoldsKey t k' := by
  obtain ⟨i', q, hq, hqk⟩ := h
  simp only [place] at hq
  split at hq
  · exact Or.inr ⟨i', q, hq, hqk⟩
  · split at hq
    next p hp =>
      rcases getD_set_cases _ _ _ _ _ hq with h1 | h1
      · right
        refine ⟨_, p, hp, ?_⟩
        rw [← hqk, ← Option.some.inj h1]
      · exact Or.inr ⟨i', q, h1, hqk⟩
    next hp =>
      rcases getD_set_cases _ _ _ _ _ hq with h1 | h1
      · left
        rw [← hqk, ← Option.some.inj h1]
        rfl
      · exact Or.inr ⟨i', q, h1, hqk⟩

theorem reinsert_keys {ins : Table → Key → Int → Option Table} (hins : MeetsKeysPost ins)
    (l : List (Option Pair)) (tc t' : Table) (hc : 0 < tc.capacity)
    (hr : reinsert ins l tc = some t') :
    0 < t'.capacity ∧ ∀ k', HoldsKey t' k' → HoldsKey tc k' ∨ ∃ p, some p ∈ l ∧ p.key = k' := by
  induction l generalizing tc with
  | nil =>
    simp only [reinsert, Option.some.injEq] at hr
    subst hr
    exact ⟨hc, fun k' h => Or.inl h⟩
  | cons a l ih =>
    cases a with
    | none =>
      simp only [reinsert] at hr
      obtain ⟨h1, h2⟩ := ih tc hc hr
      refine ⟨h1, fun k' h => ?_⟩
      rcases h2 k' h with h3 | ⟨p, hp, hk⟩
      · exact Or.inl h3
      · exact Or.inr ⟨p, List.mem_cons_of_mem _ hp, hk⟩
    | some p =>
      simp only [reinsert] at hr
      obtain ⟨t1, ht1, hr1⟩ := Option.bind_eq_some.mp hr
      obtain ⟨hc1, hk1⟩ := hins tc p.key p.value t1 hc ht1
      obtain ⟨h1, h2⟩ := ih t1 hc1 hr1
      refine ⟨h1, fun k' h => ?_⟩
      rcases h2 k' h with h3 | ⟨q, hq, hk⟩
      · rcases hk1 k' h3 with h4 | h4
        · exact Or.inr ⟨p, List.mem_cons_self _ _, h4.symm⟩
        · exact Or.inl h4
      · exact Or.inr ⟨q, List.mem_cons_of_mem _ hq, hk⟩

/-- Whenever `table_insert_or_update` returns, with any `alpha`, the capacity is still
positive and the table holds no key that was not there before, except `k`. -/
theorem insert_keys (hash : Key → Nat) (fuel : Nat) :
    MeetsKeysPost (table_insert_or_update hash fuel) := by
  induction fuel with
  | zero =>
    intro t k v t' _ hr
    simp [table_insert_or_update] at hr
  | succ fuel ih =>
    intro t k v t' hc hr
    rw [table_insert_or_update_succ] at hr
    obtain ⟨t1, ht1, hr1⟩ := Option.bind_eq_some.mp hr
    have ht' : t' = place hash t1 k v := (Option.some.inj hr1).symm
    have key : 0 < t1.capacity ∧ ∀ k', HoldsKey t1 k' → HoldsKey t k' := by
      by_cases hg : (t.size : ℚ) / (t.capacity : ℚ) ≥ t.alpha
      · rw [if_pos hg] at ht1
        simp only [table_resize_with] at ht1
        rw [resize_loop_eq_reinsert, List.drop_zero] at ht1
        obtain ⟨h1, h2⟩ := reinsert_keys ih _ _ t1 (Nat.mul_pos hc (by decide)) ht1
        refine ⟨h1, fun k' h => ?_⟩
        rcases h2 k' h with ⟨i, p, hp, _⟩ | ⟨p, hp, hk⟩
        · rw [getD_replicate_none] at hp
          cases hp
        · obtain ⟨i, hi⟩ := (mem_iff_getD t.buckets p).mp (List.mem_of_mem_take hp)
          exact ⟨i, p, hi, hk⟩
      · rw [if_neg hg] at ht1
        have : t1 = t := (Option.some.inj ht1).symm
        subst this
        exact ⟨hc, fun _ h => h⟩
    subst ht'
    refine ⟨by rw [place_capacity]; exact key.1, fun k' h => ?_⟩
    rcases place_keys hash t1 k v k' h with h1 | h1
    · exact Or.inl h1
    · exact Or.inr (key.2 k' h1)

/-- A table built from `table_create(c, alpha)`, `c > 0`, any `alpha`, has a positive
capacity and holds only keys that were inserted. -/
theorem Built.keys {hash : Key → Nat} {dflt : Nat} {c : Int} {alpha : ℚ}
    {ops : List (Key × Int)} {t : Table} (hc : 0 < c)
    (h : Built hash dflt c alpha ops t) :
    0 < t.capacity ∧ ∀ k, HoldsKey t k → k ∈ ops.map Prod.fst := by
  induction h with
  | create =>
    refine ⟨(table_create_inv hash dflt c alpha hc).pos, ?_⟩
    rintro k ⟨i, p, hp, _⟩
    simp only [table_create, getD_replicate_none] at hp
    cases hp
  | @insert ops t t' k v fuel _ hstep ih =>
    obtain ⟨h1, h2⟩ := insert_keys hash fuel t k v t' ih.1 hstep
    refine ⟨h1, fun k' h => ?_⟩
    rw [List.map_append, List.mem_append]
    rcases h2 k' h with h3 | h3
    · right
      rw [h3]
      simp
    · exact Or.inl (ih.2 k' h3)

/-! ## Load factor -/

/-- A returning insertion adds at most one entry, and either the guard did not fire and
the capacity is kept, or the capacity has at least doubled. -/
theorem insert_load (hash : Key → Nat) (fuel : Nat) (t : Table) (k : Key) (v : Int) (t' : Table)
    (hinv : Inv hash t) (ha : t.alpha ≤ 1)
    (hr : table_insert_or_update hash fuel t k v = some t') :
    t'.size ≤ t.size + 1 ∧
      (((t.size : ℚ) / (t.capacity : ℚ) < t.alpha ∧ t'.capacity = t.capacity) ∨
        2 * t.capacity ≤ t'.capacity) := by
  have hp := insert_post hash fuel t k v t' hinv ha hr
  constructor
  · by_cases hk : HoldsKey t k
    · rw [hp.size_old hk]; omega
    · rw [hp.size_new hk]
  · cases fuel with
    | zero => simp [table_insert_or_update] at hr
    | succ fuel =>
      rw [table_insert_or_update_succ] at hr
      obtain ⟨t1, ht1, hr1⟩ := Option.bind_eq_some.mp hr
      have ht' : t' = place hash t1 k v := (Option.some.inj hr1).symm
      by_cases hg : (t.size : ℚ) / (t.capacity : ℚ) ≥ t.alpha
      · rw [if_pos hg] at ht1
        have hrp := resize_post (insert_post hash fuel) t (t.capacity * 2) t1 hinv ha
          (Nat.mul_pos hinv.pos (by decide)) ht1
        right
        rw [ht', place_capacity]
        have := hrp.cap_le
        omega
      · rw [if_neg hg] at ht1
        have : t1 = t := (Option.some.inj ht1).symm
        subst this
        left
        exact ⟨not_le.mp hg, by rw [ht', place_capacity]⟩

theorem inv_fresh (hash : Key → Nat) (t : Table) (n : Nat) (hn : 0 < n) :
    Inv hash { t with buckets := List.replicate n none, capacity := n, size := 0 } := by
  refine ⟨by simp, hn, (occupied_replicate_none n).symm, ?_⟩
  intro i p hp
  rw [getD_replicate_none] at hp
  cases hp

/-! ## Invariants in their stated form, and resizing to any capacity -/

theorem Inv.keysUnique {hash : Key → Nat} {t : Table} (h : Inv hash t) : KeysUnique t :=
  fun _ _ _ _ hi hj hk => h.slot_unique hi hj hk

theorem Inv.probeChain {hash : Key → Nat} {t : Table} (h : Inv hash t) : ProbeChain hash t := by
  intro i p hp
  have hl := h.chain i p hp
  obtain ⟨j, hj, hij, _, hbefore⟩ := table_locate_eq_nat hash t p.key h.pos i hl
  exact ⟨j, hj, hij, fun j' hj' => not_stops_iff.mp (hbefore j' hj'), hl⟩

/-- On a table without slots an insertion changes nothing (the model of capacity 0). -/
theorem insert_of_capacity_zero (hash : Key → Nat) (fuel : Nat) (t : Table) (k : Key) (v : Int)
    (t' : Table) (hc : t.capacity = 0) (ha : 0 < t.alpha)
    (hr : table_insert_or_update hash fuel t k v = some t') : t' = t := by
  cases fuel with
  | zero => simp [table_insert_or_update] at hr
  | succ fuel =>
    have hg : ¬ ((t.size : ℚ) / (t.capacity : ℚ) ≥ t.alpha) := by
      rw [hc]
      simp only [Nat.cast_zero, div_zero, ge_iff_le, not_le]
      exact ha
    have hl : table_locate hash t k = -1 := by
      simp only [table_locate, hc, locate_loop]
    rw [table_insert_or_update_succ, if_neg hg] at hr
    simp only [Option.some_bind, place_of_full hash t k v hl, Option.some.injEq] at hr
    exact hr.symm

theorem reinsert_fixed {ins : Table → Key → Int → Option Table} {t0 : Table}
    (hins : ∀ k v t1, ins t0 k v = some t1 → t1 = t0) (l : List (Option Pair)) (t' : Table)
    (hr : reinsert ins l t0 = some t') : t' = t0 := by
  induction l with
  | nil =>
    simp only [reinsert, Option.some.injEq] at hr
    exact hr.symm
  | cons a l ih =>
    cases a with
    | none => exact ih hr
    | some p =>
      simp only [reinsert] at hr
      obtain ⟨t1, ht1, hr1⟩ := Option.bind_eq_some.mp hr
      have := hins p.key p.value t1 ht1
      subst this
      exact ih hr1

/-- Resizing to capacity 0 leaves, in the model, a table without slots. -/
theorem resize_to_zero (hash : Key → Nat) (fuel : Nat) (t t' : Table) (ha : 0 < t.alpha)
    (hr : table_resize hash fuel t 0 = some t') : t'.buckets = [] := by
  simp only [table_resize, table_resize_with] at hr
  rw [resize_loop_eq_reinsert] at hr
  have := @reinsert_fixed (table_insert_or_update hash fuel)
    { t with buckets := List.replicate 0 none, capacity := 0, size := 0 }
    (fun k v t1 h => insert_of_capacity_zero hash fuel _ k v t1 rfl ha h) _ t' hr
  rw [this]
  rfl

/-- After `table_resize(t, n)`, whatever `n`, on a table that meets the invariant: keys
are unique and every stored key is on its probe chain. -/
theorem resize_unique_chain {hash : Key → Nat} {t t' : Table} {n : Nat}
    (hinv : Inv hash t) (ha0 : 0 < t.alpha) (ha1 : t.alpha ≤ 1)
    (hr : ResizeReturns hash t n t') : KeysUnique t' ∧ ProbeChain hash t' := by
  obtain ⟨fuel, hf⟩ := hr
  by_cases hn : 0 < n
  · have hp := resize_post (insert_post hash fuel) t n t' hinv ha1 hn hf
    exact ⟨hp.inv.keysUnique, hp.inv.probeChain⟩
  · have h0 : n = 0 := by omega
    subst h0
    have hb := resize_to_zero hash fuel t t' ha0 hf
    constructor
    · intro i j p q hi
      rw [hb] at hi
      cases hi
    · intro i p hi
      rw [hb] at hi
      cases hi

theorem tableT_built : Built lengthHash 8 1 (1 / 10) [("a", 1), ("b", 2)] tableT :=
  @Built.insert lengthHash 8 1 (1 / 10) [("a", 1)] ⟨[some ⟨"a", 1⟩], 1, 1, 1 / 10⟩ _ "b" 2 2
    (@Built.insert lengthHash 8 1 (1 / 10) [] _ _ "a" 1 1 Built.create (by decide!))
    (by decide!)

/-! ## Values written, and growth of the capacity -/

theorem lastValue_mem (ops : List (Key × Int)) (k : Key) (v : Int)
    (h : lastValue ops k = some v) : (k, v) ∈ ops := by
  induction ops using List.reverseRecOn with
  | nil => cases h
  | append_singleton ops kv ih =>
    obtain ⟨k1, v1⟩ := kv
    rw [lastValue_append] at h
    rw [List.mem_append]
    by_cases hk : k1 = k
    · rw [if_pos hk] at h
      right
      rw [← hk, ← Option.some.inj h]
      exact List.mem_singleton_self _
    · rw [if_neg hk] at h
      exact Or.inl (ih h)

theorem reinsert_capacity {ins : Table → Key → Int → Option Table} (hins : MeetsPowPost ins)
    (l : List (Option Pair)) (tc t' : Table) (hr : reinsert ins l tc = some t') :
    ∃ j, t'.capacity = tc.capacity * 2 ^ j := by
  induction l generalizing tc with
  | nil =>
    simp only [reinsert, Option.some.injEq] at hr
    exact ⟨0, by rw [← hr]; simp⟩
  | cons a l ih =>
    cases a with
    | none => exact ih tc hr
    | some p =>
      simp only [reinsert] at hr
      obtain ⟨t1, ht1, hr1⟩ := Option.bind_eq_some.mp hr
      obtain ⟨j1, hj1⟩ := hins tc p.key p.value t1 ht1
      obtain ⟨j2, hj2⟩ := ih t1 hr1
      exact ⟨j1 + j2, by rw [hj2, hj1, pow_add, Nat.mul_assoc]⟩

/-- Whenever `table_insert_or_update` returns, with any `alpha`, the capacity is the old
one times a power of two. -/
theorem insert_capacity (hash : Key → Nat) (fuel : Nat) :
    MeetsPowPost (table_insert_or_update hash fuel) := by
  induction fuel with
  | zero =>
    intro t k v t' hr
    simp [table_insert_or_update] at hr
  | succ fuel ih =>
    intro t k v t' hr
    rw [table_insert_or_update_succ] at hr
    obtain ⟨t1, ht1, hr1⟩ := Option.bind_eq_some.mp hr
    have ht' : t' = place hash t1 k v := (Option.some.inj hr1).symm
    rw [ht', place_capacity]
    by_cases hg : (t.size : ℚ) / (t.capacity : ℚ) ≥ t.alpha
    · rw [if_pos hg] at ht1
      simp only [table_resize_with] at ht1
      rw [resize_loop_eq_reinsert] at ht1
      obtain ⟨j, hj⟩ := reinsert_capacity ih _ _ t1 ht1
      exact ⟨j + 1, by rw [hj, pow_succ]; simp only []; ring⟩
    · rw [if_neg hg] at ht1
      rw [← Option.some.inj ht1]
      exact ⟨0, by simp⟩

theorem tableNeg_built : Built lengthHash 8 1 (1 / 2) [("a", -1)] tableNeg :=
  @Built.insert lengthHash 8 1 (1 / 2) [] _ _ "a" (-1) 1 Built.create (by decide!)

/-! ## Growth from a small table, and two colliding keys -/

theorem lastValue_of_mem_nodup (ops : List (Key × Int)) (hnd : (ops.map Prod.fst).Nodup)
    (k : Key) (v : Int) (h : (k, v) ∈ ops) : lastValue ops k = some v := by
  induction ops using List.reverseRecOn with
  | nil => cases h
  | append_singleton ops kv ih =>
    obtain ⟨k1, v1⟩ := kv
    rw [List.map_append, List.nodup_append] at hnd
    obtain ⟨hnd1, _, hdis⟩ := hnd
    rw [lastValue_append]
    rcases List.mem_append.mp h with h1 | h1
    · have hk : k1 ≠ k := by
        intro e
        have hm : k ∈ ops.map Prod.fst := List.mem_map.mpr ⟨(k, v), h1, rfl⟩
        exact hdis hm (by rw [e]; simp)
      rw [if_neg hk]
      exact ih hnd1 h1
    · have := List.mem_singleton.mp h1
      have hk : k1 = k := (congrArg Prod.fst this).symm
      have hv : v1 = v := (congrArg Prod.snd this).symm
      rw [if_pos hk, hv]

theorem distinctKeyCount_of_nodup (ops : List (Key × Int)) (hnd : (ops.map Prod.fst).Nodup) :
    distinctKeyCount ops = ops.length := by
  rw [distinctKeyCount, hnd.dedup, List.length_map]

/-- The capacity of a built table is the initial one times a power of two. -/
theorem Built.capacity_pow {hash : Key → Nat} {dflt : Nat} {c : Int} {alpha : ℚ}
    {ops : List (Key × Int)} {t : Table} (h : Built hash dflt c alpha ops t) :
    ∃ j, t.capacity = (table_create dflt c alpha).capacity * 2 ^ j := by
  induction h with
  | create => exact ⟨0, by simp⟩
  | insert _ hstep ih =>
    obtain ⟨j, hj⟩ := ih
    obtain ⟨j2, hj2⟩ := insert_capacity hash _ _ _ _ _ hstep
    exact ⟨j + j2, by rw [hj2, hj, pow_add, Nat.mul_assoc]⟩

/-- With `alpha ≤ 1/2` the table is at most half full once the entry just written is
left out. -/
theorem insert_half_full (hash : Key → Nat) (fuel : Nat) (t : Table) (k : Key) (v : Int)
    (t' : Table) (hinv : Inv hash t) (ha : t.alpha ≤ 1 / 2)
    (hr : table_insert_or_update hash fuel t k v = some t') :
    2 * (t'.size - 1) ≤ t'.capacity := by
  have ha1 : t.alpha ≤ 1 := le_trans ha (by norm_num)
  obtain ⟨hsz, hcases⟩ := insert_load hash fuel t k v t' hinv ha1 hr
  rcases hcases with ⟨h1, h2⟩ | h2
  · have hcq : (0 : ℚ) < (t.capacity : ℚ) := by exact_mod_cast hinv.pos
    have h3 : (t.size : ℚ) / (t.capacity : ℚ) < 1 / 2 := lt_of_lt_of_le h1 ha
    rw [div_lt_iff₀ hcq] at h3
    have h4 : (2 : ℚ) * (t.size : ℚ) < (t.capacity : ℚ) := by linarith
    have h5 : 2 * t.size < t.capacity := by exact_mod_cast h4
    omega
  · have := hinv.size_le
    omega

theorem succ_mod_ne (c h : Nat) (hc : 2 ≤ c) (hh : h < c) : (h + 1) % c ≠ h := by
  by_cases h1 : h + 1 < c
  · rw [Nat.mod_eq_of_lt h1]
    omega
  · have : h + 1 = c := by omega
    rw [this, Nat.mod_self]
    omega

theorem thousandPairs_length : thousandPairs.length = 1000 := by
  simp [thousandPairs]

theorem thousandPairs_nodup : (thousandPairs.map Prod.fst).Nodup := by
  have hf : thousandPairs.map Prod.fst
      = (List.range 1000).map fun i => String.mk (List.replicate i 'a') := by
    simp [thousandPairs, List.map_map, Function.comp_def]
  rw [hf]
  refine List.Nodup.map ?_ (List.nodup_range 1000)
  intro i j hij
  have := congrArg (fun s : String => s.data.length) hij
  simpa using this

/-! ## Normalisation of tokens -/

theorem trim_front_spec (s : List Char) (rem start : Nat) (h1 : start ≤ s.length)
    (h2 : s.length ≤ start + rem) :
    start ≤ trim_front s rem start ∧ trim_front s rem start ≤ s.length ∧
      (∀ i, start ≤ i → i < trim_front s rem start →
        isalnum (s.getD i (Char.ofNat 0)) = false) ∧
      (trim_front s rem start < s.length →
        isalnum (s.getD (trim_front s rem start) (Char.ofNat 0)) = true) := by
  induction rem generalizing start with
  | zero =>
    have : start = s.length := by omega
    simp only [trim_front]
    exact ⟨le_refl _, h1, fun i hi1 hi2 => absurd hi2 (by omega), fun h => absurd h (by omega)⟩
  | succ rem ih =>
    rw [trim_front]
    by_cases hlt : start < s.length
    · have hget : s[start]? = some s[start] := List.getElem?_eq_getElem hlt
      have hgetD : s.getD start (Char.ofNat 0) = s[start] := by
        rw [List.getD_eq_getElem?_getD, hget]; rfl
      rw [hget]
      simp only []
      by_cases hal : isalnum s[start] = true
      · rw [if_pos hal]
        exact ⟨le_refl _, h1, fun i hi1 hi2 => absurd hi2 (by omega),
          fun _ => by rw [hgetD]; exact hal⟩
      · rw [if_neg hal]
        obtain ⟨a1, a2, a3, a4⟩ := ih (start + 1) (by omega) (by omega)
        refine ⟨by omega, a2, ?_, a4⟩
        intro i hi1 hi2
        by_cases hi : i = start
        · rw [hi, hgetD]
          simpa using hal
        · exact a3 i (by omega) hi2
    · have hs : start = s.length := by omega
      have hget : s[start]? = none := List.getElem?_eq_none (by omega)
      rw [hget]
      simp only []
      exact ⟨le_refl _, h1, fun i hi1 hi2 => absurd hi2 (by omega),
        fun h => absurd h (by omega)⟩

theorem trim_back_spec (s : List Char) (start rem : Nat) (e : Int)
    (h1 : (start : Int) - 1 ≤ e) (h2 : e + 1 ≤ (start : Int) + rem) :
    trim_back s start rem e ≤ e ∧ (start : Int) - 1 ≤ trim_back s start rem e ∧
      (∀ i : Nat, trim_back s start rem e < (i : Int) → (i : Int) ≤ e →
        isalnum (s.getD i (Char.ofNat 0)) = false) ∧
      ((start : Int) ≤ trim_back s start rem e →
        isalnum (s.getD (trim_back s start rem e).toNat (Char.ofNat 0)) = true) := by
  induction rem generalizing e with
  | zero =>
    simp only [trim_back]
    refine ⟨le_refl _, h1, fun i hi1 hi2 => absurd hi2 (by omega), fun h => ?_⟩
    simp only [Nat.cast_zero, add_zero] at h2
    omega
  | succ rem ih =>
    rw [trim_back]
    by_cases hc : (start : Int) ≤ e ∧ isalnum (s.getD e.toNat (Char.ofNat 0)) = false
    · rw [if_pos hc]
      obtain ⟨a1, a2, a3, a4⟩ := ih (e - 1) (by omega) (by push_cast at h2 ⊢; omega)
      refine ⟨by omega, a2, ?_, a4⟩
      intro i hi1 hi2
      by_cases hie : (i : Int) = e
      · have : e.toNat = i := by omega
        rw [← this]
        exact hc.2
      · exact a3 i hi1 (by omega)
    · rw [if_neg hc]
      refine ⟨le_refl _, h1, fun i hi1 hi2 => absurd hi2 (by omega), fun h => ?_⟩
      by_contra hal
      exact hc ⟨h, by simpa using hal⟩

/-- What `str_trim` computes, on the list of characters: nothing when no character is
alphanumeric, otherwise the stretch from the first to the last alphanumeric one. -/
theorem str_trim_data (s : String) :
    ((∀ i, i < s.data.length → isalnum (s.data.getD i (Char.ofNat 0)) = false) ∧
      (str_trim s).data = []) ∨
    ∃ a b, a ≤ b ∧ b < s.data.length ∧
      isalnum (s.data.getD a (Char.ofNat 0)) = true ∧
      isalnum (s.data.getD b (Char.ofNat 0)) = true ∧
      (∀ i, i < a → isalnum (s.data.getD i (Char.ofNat 0)) = false) ∧
      (∀ i, b < i → i < s.data.length → isalnum (s.data.getD i (Char.ofNat 0)) = false) ∧
      (str_trim s).data = (s.data.take (b + 1)).drop a := by
  obtain ⟨_, f2, f3, f4⟩ := trim_front_spec s.data s.data.length 0 (Nat.zero_le _) (by omega)
  obtain ⟨b1, b2, b3, b4⟩ := trim_back_spec s.data (trim_front s.data s.data.length 0)
    s.data.length ((s.data.length : Int) - 1) (by omega) (by omega)
  by_cases hlt : trim_front s.data s.data.length 0 < s.data.length
  · right
    have hal := f4 hlt
    have hge : (trim_front s.data s.data.length 0 : Int)
        ≤ trim_back s.data (trim_front s.data s.data.length 0) s.data.length
            ((s.data.length : Int) - 1) := by
      by_contra hcon
      have := b3 (trim_front s.data s.data.length 0) (by omega) (by omega)
      rw [this] at hal
      cases hal
    refine ⟨trim_front s.data s.data.length 0,
      (trim_back s.data (trim_front s.data s.data.length 0) s.data.length
        ((s.data.length : Int) - 1)).toNat, by omega, by omega, hal, b4 hge,
      fun i hi => f3 i (Nat.zero_le _) hi, fun i hi1 hi2 => b3 i (by omega) (by omega), ?_⟩
    simp only [str_trim]
    congr 2
    omega
  · left
    have ha : trim_front s.data s.data.length 0 = s.data.length := by omega
    refine ⟨fun i hi => f3 i (Nat.zero_le _) (by omega), ?_⟩
    simp only [str_trim]
    rw [ha, List.drop_eq_nil_iff, List.length_take]
    exact Nat.min_le_right _ _

/-! ## The token loop of `main` -/

/-- The run of `main` on `the cat sat on the mat`, hashing by length from 8 slots:
the five counts, the size, and the absence of a word that was not there. -/
theorem main_the_cat :
    (main lengthHash 8 7 ["the", "cat", "sat", "on", "the", "mat"]).map
        (fun t => (["the", "cat", "sat", "on", "mat", "dog"].map (table_lookup lengthHash t),
          t.size))
      = some ([2, 1, 1, 1, 1, -1], 5) := by
  decide!

/-- The run of `main` on the tokens of `Hello, world! hello WORLD.`. -/
theorem main_hello_world :
    (main lengthHash 8 5 ["Hello,", "world!", "hello", "WORLD."]).map
        (fun t => (["hello", "world"].map (table_lookup lengthHash t), t.size))
      = some ([2, 2], 2) := by
  decide!

/-- The run of `main` on the tokens of `... !!! ---`: nothing is inserted. -/
theorem main_punctuation :
    main lengthHash 8 1 ["...", "!!!", "---"] = some (table_create 8 0 (1 / 2)) := by
  decide!

/-! ## Rounding to `double` -/

namespace Machine

theorem log2f_spec (fuel n : Nat) (hn : 0 < n) (hf : n < 2 ^ fuel) :
    2 ^ log2f fuel n ≤ n ∧ n < 2 ^ (log2f fuel n + 1) := by
  induction fuel generalizing n with
  | zero =>
    simp at hf
    omega
  | succ fuel ih =>
    rw [log2f]
    by_cases h2 : n < 2
    · rw [if_pos h2]
      simp
      omega
    · rw [if_neg h2]
      have hdiv : n / 2 < 2 ^ fuel := by
        rw [pow_succ] at hf
        omega
      obtain ⟨a, b⟩ := ih (n / 2) (by omega) hdiv
      rw [pow_succ, pow_succ]
      rw [pow_succ] at b
      constructor <;> omega

theorem ilog2_spec (n : Nat) (hn : 0 < n) : 2 ^ ilog2 n ≤ n ∧ n < 2 ^ (ilog2 n + 1) :=
  log2f_spec n n hn (Nat.lt_two_pow n)

theorem rne_bounds (y : ℚ) : ⌊y⌋ ≤ rne y ∧ rne y ≤ ⌊y⌋ + 1 := by
  simp only [rne]
  split_ifs <;> constructor <;> omega

theorem rne_mono {y z : ℚ} (h : y ≤ z) : rne y ≤ rne z := by
  have hf : ⌊y⌋ ≤ ⌊z⌋ := Int.floor_mono h
  rcases lt_or_eq_of_le hf with hlt | heq
  · exact le_trans (rne_bounds y).2 (le_trans (by omega) (rne_bounds z).1)
  · simp only [rne, heq]
    have hyz : y - (⌊z⌋ : ℚ) ≤ z - (⌊z⌋ : ℚ) := by linarith
    split_ifs <;> first | omega | (exfalso; linarith)

/-- The scaled value of a positive rational lies in `[2^52, 2^53)`. -/
theorem scale_spec (x : ℚ) (hx : 0 < x) :
    (2 : ℚ) ^ 52 ≤ x * (2 : ℚ) ^ scale x ∧ x * (2 : ℚ) ^ scale x < (2 : ℚ) ^ 53 := by
  have hnum : 0 < x.num := Rat.num_pos.mpr hx
  have hn0 : 0 < x.num.toNat := by omega
  have hd0 : 0 < x.den := x.den_pos
  obtain ⟨a1, a2⟩ := ilog2_spec x.num.toNat hn0
  obtain ⟨b1, b2⟩ := ilog2_spec x.den hd0
  have hxe : x = (x.num.toNat : ℚ) / (x.den : ℚ) := by
    have h1 : ((x.num.toNat : ℤ) : ℚ) = (x.num : ℚ) := by
      rw [Int.toNat_of_nonneg (le_of_lt hnum)]
    have h2 : ((x.num.toNat : ℕ) : ℚ) = ((x.num.toNat : ℤ) : ℚ) := by push_cast; rfl
    rw [h2, h1]
    exact (Rat.num_div_den x).symm
  have hp : (0 : ℚ) < (2 : ℚ) ^ ilog2 x.num.toNat := by positivity
  have hq : (0 : ℚ) < (2 : ℚ) ^ ilog2 x.den := by positivity
  have hdq : (0 : ℚ) < (x.den : ℚ) := by exact_mod_cast hd0
  have A1 : (2 : ℚ) ^ ilog2 x.num.toNat ≤ (x.num.toNat : ℚ) := by exact_mod_cast a1
  have A2 : (x.num.toNat : ℚ) < 2 * (2 : ℚ) ^ ilog2 x.num.toNat := by
    have : (x.num.toNat : ℚ) < (2 : ℚ) ^ (ilog2 x.num.toNat + 1) := by exact_mod_cast a2
    rw [pow_succ] at this
    linarith
  have B1 : (2 : ℚ) ^ ilog2 x.den ≤ (x.den : ℚ) := by exact_mod_cast b1
  have B2 : (x.den : ℚ) < 2 * (2 : ℚ) ^ ilog2 x.den := by
    have : (x.den : ℚ) < (2 : ℚ) ^ (ilog2 x.den + 1) := by exact_mod_cast b2
    rw [pow_succ] at this
    linarith
  have hk0 : (2 : ℚ) ^ (52 + (ilog2 x.den : Int) - (ilog2 x.num.toNat : Int))
      = (2 : ℚ) ^ 52 * (2 : ℚ) ^ ilog2 x.den / (2 : ℚ) ^ ilog2 x.num.toNat := by
    rw [zpow_sub₀ (by norm_num), zpow_add₀ (by norm_num), zpow_natCast, zpow_natCast]
    norm_num
  have hval : x * (2 : ℚ) ^ (52 + (ilog2 x.den : Int) - (ilog2 x.num.toNat : Int))
      = (2 : ℚ) ^ 52 * ((x.num.toNat : ℚ) * (2 : ℚ) ^ ilog2 x.den
          / ((x.den : ℚ) * (2 : ℚ) ^ ilog2 x.num.toNat)) := by
    rw [hk0]
    have hx2 : x * ((2 : ℚ) ^ 52 * (2 : ℚ) ^ ilog2 x.den / (2 : ℚ) ^ ilog2 x.num.toNat)
        = (x.num.toNat : ℚ) / (x.den : ℚ)
          * ((2 : ℚ) ^ 52 * (2 : ℚ) ^ ilog2 x.den / (2 : ℚ) ^ ilog2 x.num.toNat) := by
      rw [← hxe]
    rw [hx2]
    field_simp
    ring
  have hlow : (1 : ℚ) / 2 < (x.num.toNat : ℚ) * (2 : ℚ) ^ ilog2 x.den
          / ((x.den : ℚ) * (2 : ℚ) ^ ilog2 x.num.toNat) := by
    rw [lt_div_iff₀ (by positivity)]
    nlinarith
  have hhigh : (x.num.toNat : ℚ) * (2 : ℚ) ^ ilog2 x.den
          / ((x.den : ℚ) * (2 : ℚ) ^ ilog2 x.num.toNat) < 2 := by
    rw [div_lt_iff₀ (by positivity)]
    nlinarith
  have h52 : (0 : ℚ) < (2 : ℚ) ^ 52 := by positivity
  simp only [scale]
  by_cases hc : x * (2 : ℚ) ^ (52 + (ilog2 x.den : Int) - (ilog2 x.num.toNat : Int)) < 2 ^ 52
  · rw [if_pos hc, zpow_add₀ (by norm_num), zpow_one, ← mul_assoc]
    rw [hval] at hc ⊢
    constructor
    · nlinarith
    · have : (2 : ℚ) ^ 53 = 2 ^ 52 * 2 := by norm_num
      rw [this]
      nlinarith
  · rw [if_neg hc]
    rw [not_lt] at hc
    refine ⟨hc, ?_⟩
    rw [hval]
    have : (2 : ℚ) ^ 53 = 2 ^ 52 * 2 := by norm_num
    rw [this]
    nlinarith

theorem scale_pos_pow (x : ℚ) : (0 : ℚ) < (2 : ℚ) ^ scale x := by positivity

theorem rne_scaled_bounds (x : ℚ) (hx : 0 < x) :
    (2 : ℚ) ^ 52 ≤ (rne (x * (2 : ℚ) ^ scale x) : ℚ) ∧
      (rne (x * (2 : ℚ) ^ scale x) : ℚ) ≤ (2 : ℚ) ^ 53 := by
  obtain ⟨h1, h2⟩ := scale_spec x hx
  obtain ⟨b1, b2⟩ := rne_bounds (x * (2 : ℚ) ^ scale x)
  have f1 : ((2 : Int) ^ 52 : Int) ≤ ⌊x * (2 : ℚ) ^ scale x⌋ := by
    rw [Int.le_floor]
    push_cast
    exact h1
  have f2 : ⌊x * (2 : ℚ) ^ scale x⌋ < ((2 : Int) ^ 53 : Int) := by
    rw [Int.floor_lt]
    push_cast
    exact h2
  constructor
  · have : ((2 : Int) ^ 52 : Int) ≤ rne (x * (2 : ℚ) ^ scale x) := le_trans f1 b1
    exact_mod_cast this
  · have : rne (x * (2 : ℚ) ^ scale x) ≤ ((2 : Int) ^ 53 : Int) := by omega
    exact_mod_cast this

theorem roundPos_pos (x : ℚ) (hx : 0 < x) : 0 < roundPos x := by
  have h := (rne_scaled_bounds x hx).1
  have hp := scale_pos_pow x
  simp only [roundPos]
  have : (0 : ℚ) < (rne (x * (2 : ℚ) ^ scale x) : ℚ) := lt_of_lt_of_le (by positivity) h
  positivity

theorem scale_antitone {x y : ℚ} (hx : 0 < x) (hxy : x ≤ y) : scale y ≤ scale x := by
  by_contra hlt
  have hlt : scale x + 1 ≤ scale y := by omega
  have hy : 0 < y := lt_of_lt_of_le hx hxy
  obtain ⟨a1, _⟩ := scale_spec x hx
  obtain ⟨_, b2⟩ := scale_spec y hy
  have hpow : (2 : ℚ) ^ (scale x + 1) ≤ (2 : ℚ) ^ scale y :=
    zpow_le_zpow_right₀ (by norm_num) hlt
  rw [zpow_add₀ (by norm_num), zpow_one] at hpow
  have hpx := scale_pos_pow x
  have h1 : x * ((2 : ℚ) ^ scale x * 2) ≤ y * (2 : ℚ) ^ scale y :=
    mul_le_mul hxy hpow (by positivity) (le_of_lt hy)
  have h53 : (2 : ℚ) ^ 53 = 2 ^ 52 * 2 := by norm_num
  rw [h53] at b2
  nlinarith

theorem roundPos_mono {x y : ℚ} (hx : 0 < x) (hxy : x ≤ y) : roundPos x ≤ roundPos y := by
  have hy : 0 < y := lt_of_lt_of_le hx hxy
  have hk := scale_antitone hx hxy
  rcases lt_or_eq_of_le hk with hlt | heq
  · obtain ⟨_, a2⟩ := rne_scaled_bounds x hx
    obtain ⟨b1, _⟩ := rne_scaled_bounds y hy
    have hpx := scale_pos_pow x
    have hpy := scale_pos_pow y
    have hpow : (2 : ℚ) ^ (scale y + 1) ≤ (2 : ℚ) ^ scale x :=
      zpow_le_zpow_right₀ (by norm_num) (by omega)
    rw [zpow_add₀ (by norm_num), zpow_one] at hpow
    simp only [roundPos]
    rw [div_le_div_iff₀ hpx hpy]
    have h53 : (2 : ℚ) ^ 53 = 2 ^ 52 * 2 := by norm_num
    rw [h53] at a2
    have h52 : (0 : ℚ) < (2 : ℚ) ^ 52 := by positivity
    calc (rne (x * (2 : ℚ) ^ scale x) : ℚ) * (2 : ℚ) ^ scale y
        ≤ (2 ^ 52 * 2) * (2 : ℚ) ^ scale y := mul_le_mul_of_nonneg_right a2 (le_of_lt hpy)
      _ = 2 ^ 52 * ((2 : ℚ) ^ scale y * 2) := by ring
      _ ≤ 2 ^ 52 * (2 : ℚ) ^ scale x := mul_le_mul_of_nonneg_left hpow (le_of_lt h52)
      _ ≤ (rne (y * (2 : ℚ) ^ scale y) : ℚ) * (2 : ℚ) ^ scale x :=
          mul_le_mul_of_nonneg_right b1 (le_of_lt hpx)
  · simp only [roundPos, heq]
    have hpx := scale_pos_pow x
    refine div_le_div_of_nonneg_right ?_ (le_of_lt hpx)
    have : rne (x * (2 : ℚ) ^ scale x) ≤ rne (y * (2 : ℚ) ^ scale x) :=
      rne_mono (mul_le_mul_of_nonneg_right hxy (le_of_lt hpx))
    exact_mod_cast this

theorem roundDouble_zero : roundDouble 0 = 0 := by
  simp [roundDouble]

theorem roundDouble_of_pos {x : ℚ} (hx : 0 < x) : roundDouble x = roundPos x := by
  simp only [roundDouble, if_pos hx]

theorem roundDouble_nonneg {x : ℚ} (hx : 0 ≤ x) : 0 ≤ roundDouble x := by
  rcases lt_or_eq_of_le hx with h | h
  · rw [roundDouble_of_pos h]
    exact le_of_lt (roundPos_pos x h)
  · rw [← h, roundDouble_zero]

/-- Rounding to `double` is monotone (on the quotients that occur, which are not
negative). -/
theorem roundDouble_mono {x y : ℚ} (hx : 0 ≤ x) (hxy : x ≤ y) :
    roundDouble x ≤ roundDouble y := by
  rcases lt_or_eq_of_le hx with h | h
  · rw [roundDouble_of_pos h, roundDouble_of_pos (lt_of_lt_of_le h hxy)]
    exact roundPos_mono h hxy
  · rw [← h, roundDouble_zero]
    exact roundDouble_nonneg (le_trans hx hxy)

theorem roundDouble_one : roundDouble 1 = 1 := by decide!

theorem roundDouble_quarter : roundDouble (1 / 4) = 1 / 4 := by decide!

/-- Below a `double` bound, the rounded quotient tells the exact one: if the rounded
value of `x ≥ 0` is below the double `alpha`, so is `x`. -/
theorem lt_of_roundDouble_lt {x alpha : ℚ} (ha : IsDouble alpha) (ha0 : 0 ≤ alpha)
    (h : roundDouble x < alpha) : x < alpha := by
  by_contra hn
  have := roundDouble_mono ha0 (not_lt.mp hn)
  rw [ha] at this
  exact absurd h (not_lt.mpr this)

/-! ## The load-factor test -/

theorem load_ge_eq (size capacity : Int) (alpha : ℚ) (hc : capacity ≠ 0) :
    load_ge size capacity alpha = decide (roundDouble ((size : ℚ) / (capacity : ℚ)) ≥ alpha) := by
  simp only [load_ge, if_neg hc]

/-- An empty table never meets the test, as long as `alpha > 0` and `capacity ≠ 0`. -/
theorem load_ge_of_size_zero (capacity : Int) (alpha : ℚ) (hc : capacity ≠ 0) (ha : 0 < alpha) :
    load_ge 0 capacity alpha = false := by
  rw [load_ge_eq 0 capacity alpha hc]
  simp only [Int.cast_zero, zero_div, roundDouble_zero, ge_iff_le, decide_eq_false_iff_not,
    not_le]
  exact ha

theorem load_lt_of_false {size capacity : Int} {alpha : ℚ} (hc : 0 < capacity)
    (h : load_ge size capacity alpha = false) :
    roundDouble ((size : ℚ) / (capacity : ℚ)) < alpha := by
  rw [load_ge_eq size capacity alpha (by omega)] at h
  simpa using h

/-- When the test fails on a table with `alpha ≤ 1`, there is a free slot to count:
`size < capacity`. -/
theorem size_lt_of_load_false {size capacity : Int} {alpha : ℚ} (hc : 0 < capacity)
    (ha : alpha ≤ 1) (h : load_ge size capacity alpha = false) : size < capacity := by
  by_contra hn
  have hle : capacity ≤ size := not_lt.mp hn
  have hcq : (0 : ℚ) < (capacity : ℚ) := by exact_mod_cast hc
  have h1 : (1 : ℚ) ≤ (size : ℚ) / (capacity : ℚ) := by
    rw [le_div_iff₀ hcq, one_mul]
    exact_mod_cast hle
  have h2 := roundDouble_mono (by norm_num) h1
  rw [roundDouble_one] at h2
  have h3 := load_lt_of_false hc h
  linarith

/-- The test is monotone: it fails for fewer entries in more slots once it fails. -/
theorem load_false_mono {s1 s2 c1 c2 : Int} {alpha : ℚ} (hs1 : 0 ≤ s1) (hs : s1 ≤ s2)
    (hc2 : 0 < c2) (hc : c2 ≤ c1) (h : load_ge s2 c2 alpha = false) :
    load_ge s1 c1 alpha = false := by
  have hc1 : 0 < c1 := lt_of_lt_of_le hc2 hc
  have h3 := load_lt_of_false hc2 h
  rw [load_ge_eq s1 c1 alpha (by omega)]
  simp only [ge_iff_le, decide_eq_false_iff_not, not_le]
  refine lt_of_le_of_lt (roundDouble_mono ?_ ?_) h3
  · have : (0 : ℚ) ≤ (s1 : ℚ) := by exact_mod_cast hs1
    have : (0 : ℚ) < (c1 : ℚ) := by exact_mod_cast hc1
    positivity
  · have a1 : (0 : ℚ) ≤ (s1 : ℚ) := by exact_mod_cast hs1
    have a2 : (s1 : ℚ) ≤ (s2 : ℚ) := by exact_mod_cast hs
    have a3 : (0 : ℚ) < (c2 : ℚ) := by exact_mod_cast hc2
    have a4 : (c2 : ℚ) ≤ (c1 : ℚ) := by exact_mod_cast hc
    exact div_le_div₀ (le_trans a1 a2) a2 a3 a4

end Machine

/-! ## The machine model: outcomes, wrap-around and the table in working order -/

namespace Machine

theorem bind_ok {α β : Type} (a : α) (f : α → Run β) : (Run.ok a).bind f = f a := rfl

theorem bind_eq_ok {α β : Type} {r : Run α} {f : α → Run β} {b : β} :
    r.bind f = Run.ok b ↔ ∃ a, r = Run.ok a ∧ f a = Run.ok b := by
  cases r with
  | ok a => simp [Run.bind]
  | crash => simp [Run.bind]
  | timeout => simp [Run.bind]

theorem wrap32_of_range (x : Int) (h1 : -2147483648 ≤ x) (h2 : x ≤ 2147483647) :
    wrap32 x = x := by
  unfold wrap32
  omega

/-- Doubling a capacity up to `2^30 - 1` is exact; from `2^30` on it wraps to a negative
number. -/
theorem wrap32_double (c : Int) (h1 : 0 < c) (h2 : c ≤ INT_MAX) :
    (c * 2 ≤ INT_MAX → wrap32 (c * 2) = c * 2) ∧
      (INT_MAX < c * 2 → wrap32 (c * 2) = c * 2 - 4294967296 ∧ wrap32 (c * 2) < 0) := by
  unfold wrap32 INT_MAX at *
  constructor
  · intro h
    omega
  · intro h
    omega

theorem getD_calloc (n : Int) (i : Nat) : (calloc n).getD i none = none :=
  getD_replicate_none _ _

theorem occupied_calloc (n : Int) : occupied (calloc n) = 0 :=
  occupied_replicate_none _

theorem calloc_of_nonpos (n : Int) (h : n ≤ 0) : calloc n = [] := by
  have : n.toNat = 0 := by omega
  simp [calloc, this]

theorem table_create_pos (dflt c : Int) (alpha : ℚ) (hc : 0 < c) :
    table_create dflt c alpha = ⟨calloc c, c, 0, alpha⟩ := by
  have hnot : ¬ c ≤ 0 := by omega
  simp only [table_create, hnot, if_false]

theorem toIdeal_buckets (t : Table) : (toIdeal t).buckets = t.buckets := rfl

theorem toIdeal_capacity (t : Table) : (toIdeal t).capacity = t.capacity.toNat := rfl

theorem toIdeal_size (t : Table) : (toIdeal t).size = t.size.toNat := rfl

theorem toIdeal_alpha (t : Table) : (toIdeal t).alpha = t.alpha := rfl

/-- A freshly allocated table of `n > 0` slots is in working order. -/
theorem good_fresh (hash : Key → Nat) (n : Int) (alpha : ℚ) (hn : 0 < n) (hm : n ≤ INT_MAX) :
    Good hash ⟨calloc n, n, 0, alpha⟩ := by
  refine ⟨hn, hm, le_refl _, ?_⟩
  exact inv_fresh hash ⟨[], 0, 0, alpha⟩ n.toNat (by omega)

theorem Good.size_le_capacity {hash : Key → Nat} {t : Table} (h : Good hash t) : t.size ≤ t.capacity := by
  have := h.inv.size_le
  have h1 := h.pos
  have h2 := h.size_nonneg
  simp only [toIdeal_size, toIdeal_capacity] at this
  omega

theorem Good.length_eq {hash : Key → Nat} {t : Table} (h : Good hash t) :
    t.buckets.length = t.capacity.toNat := h.inv.len

theorem Good.size_occupied {hash : Key → Nat} {t : Table} (h : Good hash t) :
    t.size = (occupied t.buckets : Int) := by
  have := h.inv.size_eq
  have h2 := h.size_nonneg
  simp only [toIdeal_size, toIdeal_buckets] at this
  omega

/-! ## Probing, looking up and writing in the machine model -/

theorem table_locate_pos (hash : Key → Nat) (t : Table) (k : Key) (hc : 0 < t.capacity) :
    table_locate hash t k = Run.ok (HashTable.table_locate hash (toIdeal t) k) := by
  have hne : ¬ t.capacity = 0 := by omega
  simp only [table_locate, hne, if_false, HashTable.table_locate, toIdeal]

theorem table_lookup_pos (hash : Key → Nat) (t : Table) (k : Key) (hc : 0 < t.capacity) :
    table_lookup hash t k = Run.ok (HashTable.table_lookup hash (toIdeal t) k) := by
  simp only [table_lookup, table_locate_pos hash t k hc, bind_ok, HashTable.table_lookup,
    toIdeal_buckets]
  by_cases hi : HashTable.table_locate hash (toIdeal t) k = -1
  · simp only [hi, if_true]
  · simp only [hi, if_false]
    cases hg : t.buckets.getD (HashTable.table_locate hash (toIdeal t) k).toNat none with
    | none => rfl
    | some p => rfl

theorem table_insert_or_update_step (hash : Key → Nat) (fuel : Nat) (t : Table) (key : Key)
    (value : Int) :
    table_insert_or_update hash (fuel + 1) t key value =
      (if load_ge t.size t.capacity t.alpha then
          table_resize_with (table_insert_or_update hash fuel) t (wrap32 (t.capacity * 2))
        else Run.ok t).bind fun t => place hash t key value := rfl

/-- On a table with `capacity > 0` and `0 ≤ size < INT_MAX` the machine step after the
guard is the exact one: `table_locate` does not crash and `size++` does not wrap. -/
theorem place_of_pos (hash : Key → Nat) (t : Table) (k : Key) (v : Int) (hc : 0 < t.capacity)
    (hs0 : 0 ≤ t.size) (hs1 : t.size < INT_MAX) :
    ∃ t', place hash t k v = Run.ok t' ∧
      toIdeal t' = HashTable.place hash (toIdeal t) k v ∧
      t'.capacity = t.capacity ∧ t'.alpha = t.alpha ∧ t.size ≤ t'.size ∧
      t'.size ≤ t.size + 1 := by
  simp only [place, table_locate_pos hash t k hc, bind_ok, HashTable.place, toIdeal_buckets]
  by_cases hi : HashTable.table_locate hash (toIdeal t) k = -1
  · simp only [hi, if_true]
    exact ⟨t, rfl, rfl, rfl, rfl, le_refl _, by omega⟩
  · simp only [hi, if_false]
    cases hg : t.buckets.getD (HashTable.table_locate hash (toIdeal t) k).toNat none with
    | none =>
      have hw : wrap32 (t.size + 1) = t.size + 1 := by
        unfold INT_MAX at hs1
        exact wrap32_of_range _ (by omega) (by omega)
      refine ⟨_, rfl, ?_, rfl, rfl, ?_, ?_⟩
      · simp only [toIdeal, hw]
        congr 1
        omega
      · simp only [hw]; omega
      · simp only [hw]; omega
    | some p =>
      exact ⟨_, rfl, rfl, rfl, rfl, le_refl _, Int.le_add_one (le_refl _)⟩

/-- The step after the guard keeps a table with a free slot in working order. -/
theorem good_place {hash : Key → Nat} {t t' : Table} {k : Key} {v : Int} (hg : Good hash t)
    (hfree : t.size < t.capacity) (hr : place hash t k v = Run.ok t') :
    Good hash t' ∧ toIdeal t' = HashTable.place hash (toIdeal t) k v ∧
      t'.capacity = t.capacity ∧ t'.alpha = t.alpha ∧ t.size ≤ t'.size ∧
      t'.size ≤ t.size + 1 := by
  have hmax := hg.le_max
  obtain ⟨t1, h1, h2, h3, h4, h5, h6⟩ :=
    place_of_pos hash t k v hg.pos hg.size_nonneg (by omega)
  rw [hr] at h1
  have := Run.ok.inj h1
  subst this
  refine ⟨⟨by rw [h3]; exact hg.pos, by rw [h3]; exact hg.le_max,
    le_trans hg.size_nonneg h5, ?_⟩, h2, h3, h4, h5, h6⟩
  rw [h2]
  refine place_inv hg.inv ?_ k v
  have h0 := hg.size_nonneg
  have hp := hg.pos
  simp only [toIdeal_size, toIdeal_capacity]
  omega

/-! ## The table after an overflow -/

theorem lost_locate (hash : Key → Nat) (t : Table) (k : Key) (h : t.capacity < 0) :
    table_locate hash t k = Run.ok (-1) := by
  have hne : ¬ t.capacity = 0 := by omega
  have h0 : t.capacity.toNat = 0 := by omega
  simp only [table_locate, hne, if_false, h0, locate_loop]

theorem lost_place (hash : Key → Nat) (t : Table) (k : Key) (v : Int) (h : t.capacity < 0) :
    place hash t k v = Run.ok t := by
  simp only [place, lost_locate hash t k h, bind_ok, if_true]

/-- An insertion into a table that has overflowed returns with the table as it was: the
entry is dropped. -/
theorem lost_insert (hash : Key → Nat) (fuel : Nat) (t : Table) (k : Key) (v : Int)
    (h : Lost t) (ha : 0 < t.alpha) :
    table_insert_or_update hash (fuel + 1) t k v = Run.ok t := by
  obtain ⟨hc, _, hs⟩ := h
  have hg : load_ge t.size t.capacity t.alpha = false := by
    rw [hs]
    exact load_ge_of_size_zero _ _ (by omega) ha
  rw [table_insert_or_update_step]
  simp only [hg, Bool.false_eq_true, if_false, bind_ok]
  exact lost_place hash t k v hc

theorem keepsLost_insert (hash : Key → Nat) (fuel : Nat) :
    KeepsLost (table_insert_or_update hash fuel) := by
  intro t k v t' h ha hr
  cases fuel with
  | zero => simp [table_insert_or_update] at hr
  | succ fuel =>
    rw [lost_insert hash fuel t k v h ha] at hr
    exact (Run.ok.inj hr).symm

/-- The index loop visits the slots `i, i+1, ..` of the old array in order. -/
theorem resize_loop_as_reinsert (ins : Table → Key → Int → Run Table)
    (old : List (Option Pair)) (rem i : Nat) (t : Table) :
    resize_loop ins old rem i t = reinsert ins ((old.drop i).take rem) t := by
  induction rem generalizing i t with
  | zero => simp [resize_loop, reinsert]
  | succ rem ih =>
    by_cases hi : i < old.length
    · rw [List.drop_eq_getElem_cons hi, List.take_succ_cons, resize_loop,
        getD_eq_getElem old i hi]
      cases hg : old[i] with
      | none => simp only [reinsert]; exact ih (i + 1) t
      | some p =>
        simp only [reinsert]
        congr 1
        funext t1
        exact ih (i + 1) t1
    · have hnone : old.getD i none = none := getD_of_length_le old i (by omega)
      have hd : old.drop i = [] := List.drop_eq_nil_of_le (by omega)
      have hd1 : old.drop (i + 1) = [] := List.drop_eq_nil_of_le (by omega)
      rw [resize_loop, hnone]
      simp only []
      rw [ih (i + 1) t, hd, hd1]
      simp [reinsert]

theorem table_resize_with_as_reinsert (ins : Table → Key → Int → Run Table) (t : Table)
    (n : Int) (hlen : t.buckets.length = t.capacity.toNat) :
    table_resize_with ins t n =
      reinsert ins t.buckets ⟨calloc n, n, 0, t.alpha⟩ := by
  simp only [table_resize_with]
  rw [resize_loop_as_reinsert, List.drop_zero, ← hlen, List.take_length]

/-- Reinsertions into a table that has overflowed leave it as it is. -/
theorem reinsert_lost {ins : Table → Key → Int → Run Table} (hk : KeepsLost ins)
    (l : List (Option Pair)) (t t' : Table) (h : Lost t) (ha : 0 < t.alpha)
    (hr : reinsert ins l t = Run.ok t') : t' = t := by
  induction l with
  | nil =>
    simp only [reinsert] at hr
    exact (Run.ok.inj hr).symm
  | cons a l ih =>
    cases a with
    | none =>
      simp only [reinsert] at hr
      exact ih hr
    | some p =>
      simp only [reinsert] at hr
      obtain ⟨t1, ht1, hr1⟩ := bind_eq_ok.mp hr
      have := hk t p.key p.value t1 h ha ht1
      subst this
      exact ih hr1

end Machine

/-! ## Correctness of insertion and resizing in the machine model -/

namespace Machine

theorem post_in_int {hash : Key → Nat} {t t' : Table} {k : Key} {v : Int} (hg : Good hash t)
    (hg' : Good hash t') (hp : InsertPost hash (toIdeal t) k v (toIdeal t')) :
    t.capacity ≤ t'.capacity ∧ (HoldsKey (toIdeal t) k → t'.size = t.size) ∧
      (¬ HoldsKey (toIdeal t) k → t'.size = t.size + 1) := by
  have h1 := hp.cap_le
  have p1 := hg.pos
  have p2 := hg'.pos
  have s1 := hg.size_nonneg
  have s2 := hg'.size_nonneg
  simp only [toIdeal_capacity] at h1
  refine ⟨by omega, ?_, ?_⟩
  · intro hh
    have := hp.size_old hh
    simp only [toIdeal_size] at this
    omega
  · intro hh
    have := hp.size_new hh
    simp only [toIdeal_size] at this
    omega

theorem reinsert_good {hash : Key → Nat} {ins : Table → Key → Int → Run Table}
    (hins : MeetsMachinePost hash ins) (hk : KeepsLost ins) (l : List (Option Pair))
    (tc t' : Table) (hg : Good hash tc) (ha0 : 0 < tc.alpha) (ha1 : tc.alpha ≤ 1)
    (hd : DistinctKeys l) (hfresh : ∀ q, some q ∈ l → ¬ HoldsKey (toIdeal tc) q.key)
    (hr : reinsert ins l tc = Run.ok t') :
    t'.alpha = tc.alpha ∧
      (Lost t' ∨ (Good hash t' ∧ tc.capacity ≤ t'.capacity ∧
        (∀ k v, Stored (toIdeal t') k v ↔
          Stored (toIdeal tc) k v ∨ some (⟨k, v⟩ : Pair) ∈ l) ∧
        t'.size = tc.size + (occupied l : Int))) := by
  induction l generalizing tc with
  | nil =>
    simp only [reinsert] at hr
    have := Run.ok.inj hr
    subst this
    refine ⟨rfl, Or.inr ⟨hg, le_refl _, ?_, ?_⟩⟩
    · intro k v
      simp
    · simp [occupied]
  | cons a l ih =>
    have hdl : DistinctKeys l := (List.pairwise_cons.mp hd).2
    cases a with
    | none =>
      simp only [reinsert] at hr
      obtain ⟨h0, h⟩ :=
        ih tc hg ha0 ha1 hdl (fun q hq => hfresh q (List.mem_cons_of_mem _ hq)) hr
      refine ⟨h0, ?_⟩
      rcases h with h | ⟨h1, h3, h4, h5⟩
      · exact Or.inl h
      · refine Or.inr ⟨h1, h3, ?_, ?_⟩
        · intro k v
          rw [h4 k v]
          simp
        · rw [h5]
          simp [occupied, List.countP_cons]
    | some p =>
      simp only [reinsert] at hr
      obtain ⟨t1, ht1, hr1⟩ := bind_eq_ok.mp hr
      obtain ⟨hal1, h1⟩ := hins tc p.key p.value t1 hg ha0 ha1 ht1
      rcases h1 with hlost | ⟨hg1, hp⟩
      · have := reinsert_lost hk l t1 t' hlost (by rw [hal1]; exact ha0) hr1
        subst this
        exact ⟨hal1, Or.inl hlost⟩
      · have hpfresh : ¬ HoldsKey (toIdeal tc) p.key := hfresh p (List.mem_cons_self _ _)
        have hfresh1 : ∀ q, some q ∈ l → ¬ HoldsKey (toIdeal t1) q.key := by
          intro q hq hh
          obtain ⟨w, hw⟩ := (holdsKey_iff_stored (toIdeal t1) q.key).mp hh
          rcases (hp.stored q.key w).mp hw with ⟨hkk, _⟩ | ⟨_, hst⟩
          · exact (List.pairwise_cons.mp hd).1 (some q) hq p q rfl rfl hkk.symm
          · exact hfresh q (List.mem_cons_of_mem _ hq)
              ((holdsKey_iff_stored (toIdeal tc) q.key).mpr ⟨w, hst⟩)
        obtain ⟨hc1, _, hsn⟩ := post_in_int hg hg1 hp
        obtain ⟨h0, h⟩ := ih t1 hg1 (by rw [hal1]; exact ha0) (by rw [hal1]; exact ha1) hdl
          hfresh1 hr1
        refine ⟨h0.trans hal1, ?_⟩
        rcases h with h | ⟨h1, h3, h4, h5⟩
        · exact Or.inl h
        · refine Or.inr ⟨h1, le_trans hc1 h3, ?_, ?_⟩
          · intro k v
            rw [h4 k v, hp.stored k v, List.mem_cons]
            constructor
            · rintro ((⟨hkk, hv⟩ | ⟨_, hst⟩) | hm)
              · right; left
                rw [hkk, hv]
              · left; exact hst
              · right; right; exact hm
            · rintro (hst | hm | hm)
              · left; right
                refine ⟨?_, hst⟩
                intro hkk
                exact hpfresh
                  ((holdsKey_iff_stored (toIdeal tc) p.key).mpr ⟨v, hkk ▸ hst⟩)
              · left; left
                have := Option.some.inj hm
                exact ⟨congrArg Pair.key this, congrArg Pair.value this⟩
              · right; exact hm
          · rw [h5, hsn hpfresh]
            simp only [occupied, List.countP_cons, Option.isSome_some, if_true]
            push_cast
            ring

/-- A resize to a capacity `n` in `(0, INT_MAX]` of a table in working order ends in a
table that has overflowed (a reinsertion doubled too far) or in a table in working order
with the same entries and the same size. -/
theorem resize_with_good {hash : Key → Nat} {ins : Table → Key → Int → Run Table}
    (hins : MeetsMachinePost hash ins) (hk : KeepsLost ins) (t : Table) (n : Int) (t' : Table)
    (hg : Good hash t) (ha0 : 0 < t.alpha) (ha1 : t.alpha ≤ 1) (hn : 0 < n) (hm : n ≤ INT_MAX)
    (hr : table_resize_with ins t n = Run.ok t') :
    t'.alpha = t.alpha ∧
      (Lost t' ∨ (Good hash t' ∧ n ≤ t'.capacity ∧
        (∀ k v, Stored (toIdeal t') k v ↔ Stored (toIdeal t) k v) ∧ t'.size = t.size)) := by
  rw [table_resize_with_as_reinsert ins t n hg.length_eq] at hr
  have hfresh : ∀ q, some q ∈ t.buckets →
      ¬ HoldsKey (toIdeal ⟨calloc n, n, 0, t.alpha⟩) q.key := by
    rintro q _ ⟨i, p, hp, _⟩
    simp only [toIdeal_buckets, getD_calloc] at hp
    cases hp
  obtain ⟨h0, h⟩ := reinsert_good hins hk t.buckets _ t' (good_fresh hash n t.alpha hn hm)
    ha0 ha1 hg.inv.distinctKeys hfresh hr
  refine ⟨h0, ?_⟩
  rcases h with h | ⟨h1, h3, h4, h5⟩
  · exact Or.inl h
  · refine Or.inr ⟨h1, h3, ?_, ?_⟩
    · intro k v
      rw [h4 k v, mem_iff_getD]
      constructor
      · rintro (⟨i, hi⟩ | h)
        · simp only [toIdeal_buckets, getD_calloc] at hi
          cases hi
        · exact h
      · intro h
        exact Or.inr h
    · rw [h5, hg.size_occupied]
      simp

/-- A resize to a negative capacity leaves a table that has overflowed: `calloc` fails,
and every reinsertion is dropped. -/
theorem resize_with_negative {ins : Table → Key → Int → Run Table} (hk : KeepsLost ins)
    (t : Table) (n : Int) (t' : Table) (ha0 : 0 < t.alpha) (hn : n < 0)
    (hr : table_resize_with ins t n = Run.ok t') : t' = ⟨[], n, 0, t.alpha⟩ := by
  simp only [table_resize_with] at hr
  rw [resize_loop_as_reinsert, calloc_of_nonpos n (le_of_lt hn)] at hr
  exact reinsert_lost hk _ ⟨[], n, 0, t.alpha⟩ t' ⟨hn, rfl, rfl⟩ ha0 hr

/-- Whenever `table_insert_or_update` returns, on a table in working order with
`0 < alpha ≤ 1`, it leaves a table that has overflowed or a table in working order that
meets `InsertPost`. -/
theorem insert_machine_post (hash : Key → Nat) (fuel : Nat) :
    MeetsMachinePost hash (table_insert_or_update hash fuel) := by
  induction fuel with
  | zero =>
    intro t k v t' _ _ _ hr
    simp [table_insert_or_update] at hr
  | succ fuel ih =>
    intro t k v t' hg ha0 ha1 hr
    rw [table_insert_or_update_step] at hr
    obtain ⟨t1, ht1, hr1⟩ := bind_eq_ok.mp hr
    have key : t1.alpha = t.alpha ∧ (Lost t1 ∨ (Good hash t1 ∧ t1.size < t1.capacity ∧
        t.capacity ≤ t1.capacity ∧ (∀ k v, Stored (toIdeal t1) k v ↔ Stored (toIdeal t) k v) ∧
        t1.size = t.size)) := by
      cases hgd : load_ge t.size t.capacity t.alpha with
      | true =>
        rw [hgd, if_pos rfl] at ht1
        have hpos := hg.pos
        have hmax := hg.le_max
        obtain ⟨w1, w2⟩ := wrap32_double t.capacity hg.pos hg.le_max
        by_cases hov : t.capacity * 2 ≤ INT_MAX
        · rw [w1 hov] at ht1
          obtain ⟨h0, h⟩ := resize_with_good ih (keepsLost_insert hash fuel) t
            (t.capacity * 2) t1 hg ha0 ha1 (by omega) hov ht1
          refine ⟨h0, ?_⟩
          rcases h with h | ⟨h1, h3, h4, h5⟩
          · exact Or.inl h
          · have := hg.size_le_capacity
            exact Or.inr ⟨h1, by omega, by omega, h4, h5⟩
        · obtain ⟨_, hneg⟩ := w2 (by omega)
          have := resize_with_negative (keepsLost_insert hash fuel) t _ t1 ha0 hneg ht1
          subst this
          exact ⟨rfl, Or.inl ⟨hneg, rfl, rfl⟩⟩
      | false =>
        rw [hgd] at ht1
        simp only [Bool.false_eq_true, if_false] at ht1
        have := Run.ok.inj ht1
        subst this
        exact ⟨rfl, Or.inr ⟨hg, size_lt_of_load_false hg.pos ha1 hgd, le_refl _,
          fun _ _ => Iff.rfl, rfl⟩⟩
    obtain ⟨hal, h⟩ := key
    rcases h with hlost | ⟨hg1, hfree, hcap, hst, hsz⟩
    · rw [lost_place hash t1 k v hlost.1] at hr1
      have := Run.ok.inj hr1
      subst this
      exact ⟨hal, Or.inl hlost⟩
    · obtain ⟨hg', hto, hc', ha', _, _⟩ := good_place hg1 hfree hr1
      refine ⟨ha'.trans hal, Or.inr ⟨hg', ?_⟩⟩
      have hfree' : (toIdeal t1).size < (toIdeal t1).capacity := by
        have h0 := hg1.size_nonneg
        have hp := hg1.pos
        simp only [toIdeal_size, toIdeal_capacity]
        omega
      have hhk : HoldsKey (toIdeal t1) k ↔ HoldsKey (toIdeal t) k := by
        rw [holdsKey_iff_stored, holdsKey_iff_stored]
        exact exists_congr fun w => hst k w
      have hszn : (toIdeal t1).size = (toIdeal t).size := by
        simp only [toIdeal_size, hsz]
      refine ⟨hg'.inv, ?_, ?_, ?_, ?_, ?_⟩
      · simp only [toIdeal_alpha, ha', hal]
      · have hp := hg.pos
        simp only [toIdeal_capacity, hc']
        omega
      · intro k' v'
        rw [hto, place_stored hg1.inv hfree', hst]
      · intro hh
        rw [hto, (place_size hg1.inv hfree' k v).1 (hhk.mpr hh), hszn]
      · intro hh
        rw [hto, (place_size hg1.inv hfree' k v).2 (fun h => hh (hhk.mp h)), hszn]

end Machine

/-! ## Termination in the machine model -/

namespace Machine

theorem place_buckets_occupied {hash : Key → Nat} {t t' : Table} {k : Key} {v : Int}
    (h : toIdeal t' = HashTable.place hash (toIdeal t) k v) :
    occupied t'.buckets ≤ occupied t.buckets + 1 := by
  have := place_occupied_le hash (toIdeal t) k v
  rw [← h] at this
  exact this

theorem reinsert_returns {hash : Key → Nat} {ins : Table → Key → Int → Run Table} {bound : Nat}
    (hret : ReturnsOkBelow hash ins bound) (hins : MeetsMachinePost hash ins)
    (hk : KeepsLost ins) (l : List (Option Pair)) (tc : Table) (hs : Good hash tc ∨ Lost tc)
    (ha0 : 0 < tc.alpha) (ha1 : tc.alpha ≤ 1)
    (hb : occupied tc.buckets + occupied l ≤ bound) :
    ∃ t', reinsert ins l tc = Run.ok t' ∧
      occupied t'.buckets ≤ occupied tc.buckets + occupied l := by
  induction l generalizing tc with
  | nil => exact ⟨tc, rfl, le_refl _⟩
  | cons a l ih =>
    cases a with
    | none =>
      have ho : occupied (none :: l) = occupied l := by simp [occupied, List.countP_cons]
      rw [ho] at hb ⊢
      exact ih tc hs ha0 ha1 hb
    | some p =>
      have ho : occupied (some p :: l) = occupied l + 1 := by
        simp [occupied, List.countP_cons]
      rw [ho] at hb ⊢
      obtain ⟨t1, ht1, hle1⟩ := hret tc p.key p.value hs ha0 ha1 (by omega)
      have hs1 : t1.alpha = tc.alpha ∧ (Good hash t1 ∨ Lost t1) := by
        rcases hs with hg | hl
        · obtain ⟨h0, h⟩ := hins tc p.key p.value t1 hg ha0 ha1 ht1
          rcases h with h | ⟨h, _⟩
          · exact ⟨h0, Or.inr h⟩
          · exact ⟨h0, Or.inl h⟩
        · have := hk tc p.key p.value t1 hl ha0 ht1
          subst this
          exact ⟨rfl, Or.inr hl⟩
      obtain ⟨t', ht', hle'⟩ := ih t1 hs1.2 (by rw [hs1.1]; exact ha0)
        (by rw [hs1.1]; exact ha1) (by omega)
      refine ⟨t', ?_, by omega⟩
      simp only [reinsert, ht1, bind_ok]
      exact ht'

/-- The call `table_insert_or_update(t, k, v)` returns, on a table in working order or
overflowed: a recursion depth above the number of occupied slots is never exceeded, and
`table_locate` never divides by zero. -/
theorem insert_returns_below (hash : Key → Nat) (fuel : Nat) :
    ReturnsOkBelow hash (table_insert_or_update hash fuel) fuel := by
  induction fuel with
  | zero =>
    intro t k v _ _ _ h
    exact absurd h (Nat.not_lt_zero _)
  | succ fuel ih =>
    intro t k v hs ha0 ha1 h
    rcases hs with hg | hl
    · rw [table_insert_or_update_step]
      cases hgd : load_ge t.size t.capacity t.alpha with
      | false =>
        simp only [Bool.false_eq_true, if_false, bind_ok]
        have hfree := size_lt_of_load_false hg.pos ha1 hgd
        have hmax := hg.le_max
        obtain ⟨t', h1, h2, _⟩ := place_of_pos hash t k v hg.pos hg.size_nonneg (by omega)
        exact ⟨t', h1, place_buckets_occupied h2⟩
      | true =>
        simp only [if_true]
        have hkl := keepsLost_insert hash fuel
        have hpost := insert_machine_post hash fuel
        have hfr : Good hash ⟨calloc (wrap32 (t.capacity * 2)), wrap32 (t.capacity * 2), 0,
            t.alpha⟩ ∨ Lost ⟨calloc (wrap32 (t.capacity * 2)), wrap32 (t.capacity * 2), 0,
            t.alpha⟩ := by
          obtain ⟨w1, w2⟩ := wrap32_double t.capacity hg.pos hg.le_max
          have hpos := hg.pos
          by_cases hov : t.capacity * 2 ≤ INT_MAX
          · left
            rw [w1 hov]
            exact good_fresh hash _ _ (by omega) hov
          · right
            obtain ⟨_, hneg⟩ := w2 (by omega)
            exact ⟨hneg, calloc_of_nonpos _ (le_of_lt hneg), rfl⟩
        obtain ⟨t1, ht1, hle1⟩ := reinsert_returns ih hpost hkl t.buckets
          ⟨calloc (wrap32 (t.capacity * 2)), wrap32 (t.capacity * 2), 0, t.alpha⟩ hfr ha0 ha1
          (by simp only [occupied_calloc]; omega)
        simp only [occupied_calloc] at hle1
        have hrs : table_resize_with (table_insert_or_update hash fuel) t
            (wrap32 (t.capacity * 2)) = Run.ok t1 := by
          rw [table_resize_with_as_reinsert _ t _ hg.length_eq]
          exact ht1
        rw [hrs, bind_ok]
        have hst : Lost t1 ∨ (Good hash t1 ∧ t1.size < t1.capacity) := by
          obtain ⟨w1, w2⟩ := wrap32_double t.capacity hg.pos hg.le_max
          have hpos := hg.pos
          by_cases hov : t.capacity * 2 ≤ INT_MAX
          · rw [w1 hov] at hrs
            obtain ⟨_, h⟩ := resize_with_good hpost hkl t (t.capacity * 2) t1 hg ha0 ha1
              (by omega) hov hrs
            rcases h with h | ⟨h1, h3, _, h5⟩
            · exact Or.inl h
            · have := hg.size_le_capacity
              exact Or.inr ⟨h1, by omega⟩
          · obtain ⟨_, hneg⟩ := w2 (by omega)
            have := resize_with_negative hkl t _ t1 ha0 hneg hrs
            subst this
            exact Or.inl ⟨hneg, rfl, rfl⟩
        rcases hst with hl1 | ⟨hg1, hfree⟩
        · rw [lost_place hash t1 k v hl1.1]
          exact ⟨t1, rfl, by omega⟩
        · have hmax := hg1.le_max
          obtain ⟨t', h1, h2, _⟩ := place_of_pos hash t1 k v hg1.pos hg1.size_nonneg (by omega)
          refine ⟨t', h1, ?_⟩
          have := place_buckets_occupied h2
          omega
    · rw [lost_insert hash fuel t k v hl ha0]
      exact ⟨t, rfl, by omega⟩

theorem insert_returns_ok (hash : Key → Nat) (t : Table) (k : Key) (v : Int)
    (hs : Good hash t ∨ Lost t) (ha0 : 0 < t.alpha) (ha1 : t.alpha ≤ 1) :
    ∃ t', InsertReturns hash t k v t' := by
  obtain ⟨t', ht', _⟩ := insert_returns_below hash (occupied t.buckets + 1) t k v hs ha0 ha1
    (Nat.lt_succ_self _)
  exact ⟨t', _, ht'⟩

/-- Every table built from `table_create(c, alpha)`, `0 < c ≤ INT_MAX`, `0 < alpha ≤ 1`,
is in working order or has overflowed, and still carries `alpha`. -/
theorem Built.state {hash : Key → Nat} {dflt c : Int} {alpha : ℚ} {ops : List (Key × Int)}
    {t : Table} (hc : 0 < c) (hm : c ≤ INT_MAX) (ha0 : 0 < alpha) (ha1 : alpha ≤ 1)
    (h : Built hash dflt c alpha ops t) : t.alpha = alpha ∧ (Good hash t ∨ Lost t) := by
  induction h with
  | create =>
    rw [table_create_pos dflt c alpha hc]
    exact ⟨rfl, Or.inl (good_fresh hash c alpha hc hm)⟩
  | @insert ops t t' k v fuel _ hstep ih =>
    obtain ⟨hal, hs⟩ := ih
    rcases hs with hg | hl
    · obtain ⟨h0, h⟩ := insert_machine_post hash fuel t k v t' hg (by rw [hal]; exact ha0)
        (by rw [hal]; exact ha1) hstep
      refine ⟨h0.trans hal, ?_⟩
      rcases h with h | ⟨h, _⟩
      · exact Or.inr h
      · exact Or.inl h
    · have := keepsLost_insert hash fuel t k v t' hl (by rw [hal]; exact ha0) hstep
      subst this
      exact ⟨hal, Or.inr hl⟩

/-- What a returning insertion on a built table guarantees when the capacity it leaves is
positive: the table was in working order before, is so after, and `InsertPost` holds. -/
theorem Built.insert_post_of_pos {hash : Key → Nat} {dflt c : Int} {alpha : ℚ}
    {ops : List (Key × Int)} {t t' : Table} {k : Key} {v : Int} (hc : 0 < c)
    (hm : c ≤ INT_MAX) (ha0 : 0 < alpha) (ha1 : alpha ≤ 1) (h : Built hash dflt c alpha ops t)
    (hr : InsertReturns hash t k v t') (hpos : 0 < t'.capacity) :
    Good hash t ∧ Good hash t' ∧ InsertPost hash (toIdeal t) k v (toIdeal t') := by
  obtain ⟨fuel, hf⟩ := hr
  obtain ⟨hal, hs⟩ := h.state hc hm ha0 ha1
  rcases hs with hg | hl
  · obtain ⟨_, hh⟩ := insert_machine_post hash fuel t k v t' hg (by rw [hal]; exact ha0)
      (by rw [hal]; exact ha1) hf
    rcases hh with hh | ⟨h1, h2⟩
    · have := hh.1
      omega
    · exact ⟨hg, h1, h2⟩
  · have := keepsLost_insert hash fuel t k v t' hl (by rw [hal]; exact ha0) hf
    subst this
    have := hl.1
    omega

theorem Built.returns {hash : Key → Nat} {dflt c : Int} {alpha : ℚ} {ops : List (Key × Int)}
    {t : Table} (hc : 0 < c) (hm : c ≤ INT_MAX) (ha0 : 0 < alpha) (ha1 : alpha ≤ 1)
    (h : Built hash dflt c alpha ops t) (k : Key) (v : Int) :
    ∃ t', InsertReturns hash t k v t' := by
  obtain ⟨hal, hs⟩ := h.state hc hm ha0 ha1
  exact insert_returns_ok hash t k v hs (by rw [hal]; exact ha0) (by rw [hal]; exact ha1)

/-- Looking up a stored key in a table in working order yields its value. -/
theorem good_lookup_of_stored {hash : Key → Nat} {t : Table} (hg : Good hash t) {k : Key}
    {v : Int} (hs : Stored (toIdeal t) k v) : table_lookup hash t k = Run.ok v := by
  rw [table_lookup_pos hash t k hg.pos, table_lookup_of_stored hg.inv hs]

end Machine

/-! ## Single steps of the machine model: a fresh table, an overflow, an untouched guard -/

namespace Machine

/-- When the guard does not fire, `table_insert_or_update` is the step after the guard. -/
theorem insert_of_load_false (hash : Key → Nat) (fuel : Nat) (t : Table) (k : Key) (v : Int)
    (hg : load_ge t.size t.capacity t.alpha = false) :
    table_insert_or_update hash (fuel + 1) t k v = place hash t k v := by
  rw [table_insert_or_update_step]
  simp only [hg, Bool.false_eq_true, if_false, bind_ok]

theorem returns_succ {hash : Key → Nat} {fuel : Nat} {t t' : Table} {k : Key} {v : Int}
    (hr : table_insert_or_update hash fuel t k v = Run.ok t') : ∃ f, fuel = f + 1 := by
  cases fuel with
  | zero => simp [table_insert_or_update] at hr
  | succ f => exact ⟨f, rfl⟩

/-- Which way a returning insertion went, when it leaves a positive capacity: the guard
did not fire and the capacity is what it was, or it fired and the capacity is at least
twice what it was.  The size grows by at most one. -/
theorem insert_branch (hash : Key → Nat) (fuel : Nat) (t t' : Table) (k : Key) (v : Int)
    (hg : Good hash t) (ha0 : 0 < t.alpha) (ha1 : t.alpha ≤ 1)
    (hr : table_insert_or_update hash fuel t k v = Run.ok t') (hpos : 0 < t'.capacity) :
    t'.size ≤ t.size + 1 ∧
      ((load_ge t.size t.capacity t.alpha = false ∧ t'.capacity = t.capacity) ∨
        (load_ge t.size t.capacity t.alpha = true ∧ 2 * t.capacity ≤ t'.capacity)) := by
  obtain ⟨_, hh⟩ := insert_machine_post hash fuel t k v t' hg ha0 ha1 hr
  have hg' : Good hash t' := by
    rcases hh with hh | ⟨h1, _⟩
    · have := hh.1
      omega
    · exact h1
  have hp : InsertPost hash (toIdeal t) k v (toIdeal t') := by
    rcases hh with hh | ⟨_, h2⟩
    · have := hh.1
      omega
    · exact h2
  obtain ⟨_, hso, hsn⟩ := post_in_int hg hg' hp
  constructor
  · by_cases hk : HoldsKey (toIdeal t) k
    · rw [hso hk]; omega
    · rw [hsn hk]
  · obtain ⟨f, hf⟩ := returns_succ hr
    subst hf
    rw [table_insert_or_update_step] at hr
    obtain ⟨t1, ht1, hr1⟩ := bind_eq_ok.mp hr
    cases hgd : load_ge t.size t.capacity t.alpha with
    | false =>
      left
      rw [hgd] at ht1
      simp only [Bool.false_eq_true, if_false] at ht1
      have := Run.ok.inj ht1
      subst this
      obtain ⟨_, _, hc', _⟩ := good_place hg (size_lt_of_load_false hg.pos ha1 hgd) hr1
      exact ⟨rfl, hc'⟩
    | true =>
      right
      refine ⟨rfl, ?_⟩
      rw [hgd, if_pos rfl] at ht1
      obtain ⟨w1, w2⟩ := wrap32_double t.capacity hg.pos hg.le_max
      have hpos1 := hg.pos
      by_cases hov : t.capacity * 2 ≤ INT_MAX
      · rw [w1 hov] at ht1
        obtain ⟨_, h⟩ := resize_with_good (insert_machine_post hash f)
          (keepsLost_insert hash f) t (t.capacity * 2) t1 hg ha0 ha1 (by omega) hov ht1
        rcases h with h | ⟨h1, h3, _, h5⟩
        · rw [lost_place hash t1 k v h.1] at hr1
          have := Run.ok.inj hr1
          subst this
          have := h.1
          omega
        · have hsz := hg.size_le_capacity
          obtain ⟨_, _, hc', _⟩ := good_place h1 (by omega) hr1
          omega
      · obtain ⟨_, hneg⟩ := w2 (by omega)
        have := resize_with_negative (keepsLost_insert hash f) t _ t1 ha0 hneg ht1
        subst this
        rw [lost_place hash _ k v hneg] at hr1
        have := Run.ok.inj hr1
        subst this
        simp only at hpos
        omega

/-! ## One growth step per insertion, for `alpha > 1/4` -/

/-- Reinsertions none of which meets the guard: the capacity stays as it is. -/
theorem reinsert_capacity_kept (hash : Key → Nat) (fuel : Nat) (l : List (Option Pair))
    (tc t' : Table) (m : Int) (hg : Good hash tc) (ha1 : tc.alpha ≤ 1)
    (hm : tc.size + (occupied l : Int) ≤ m)
    (hload : load_ge (m - 1) tc.capacity tc.alpha = false)
    (hr : reinsert (table_insert_or_update hash fuel) l tc = Run.ok t') :
    Good hash t' ∧ t'.capacity = tc.capacity ∧ t'.alpha = tc.alpha ∧
      t'.size ≤ tc.size + (occupied l : Int) := by
  induction l generalizing tc with
  | nil =>
    simp only [reinsert] at hr
    have := Run.ok.inj hr
    subst this
    exact ⟨hg, rfl, rfl, by simp [occupied]⟩
  | cons a l ih =>
    cases a with
    | none =>
      have ho : occupied (none :: l) = occupied l := by simp [occupied, List.countP_cons]
      rw [ho] at hm ⊢
      simp only [reinsert] at hr
      exact ih tc hg ha1 hm hload hr
    | some p =>
      have ho : occupied (some p :: l) = occupied l + 1 := by
        simp [occupied, List.countP_cons]
      rw [ho] at hm ⊢
      push_cast at hm ⊢
      simp only [reinsert] at hr
      obtain ⟨t1, ht1, hr1⟩ := bind_eq_ok.mp hr
      obtain ⟨f, hf⟩ := returns_succ ht1
      subst hf
      have hgd : load_ge tc.size tc.capacity tc.alpha = false :=
        load_false_mono hg.size_nonneg (by omega) hg.pos (le_refl _) hload
      rw [insert_of_load_false hash f tc p.key p.value hgd] at ht1
      obtain ⟨hg1, _, hc1, hal1, _, hs1⟩ :=
        good_place hg (size_lt_of_load_false hg.pos ha1 hgd) ht1
      obtain ⟨h1, h2, h3, h4⟩ := ih t1 hg1 (by rw [hal1]; exact ha1) (by omega)
        (by rw [hc1, hal1]; exact hload) hr1
      exact ⟨h1, h2.trans hc1, h3.trans hal1, by omega⟩

/-- With `1/4 < alpha ≤ 1`, an insertion into a table in working order that grew steadily
leaves the capacity as it was or sets it to the `int` value of twice the capacity; the
table it leaves has overflowed or is again in working order and steady. -/
theorem insert_one_step (hash : Key → Nat) (fuel : Nat) (t t' : Table) (k : Key) (v : Int)
    (hg : Good hash t) (hst : Steady t) (ha0 : 1 / 4 < t.alpha) (ha1 : t.alpha ≤ 1)
    (hr : table_insert_or_update hash fuel t k v = Run.ok t') :
    (t'.capacity = t.capacity ∨ t'.capacity = wrap32 (t.capacity * 2)) ∧
      t'.alpha = t.alpha ∧ (Lost t' ∨ (Good hash t' ∧ Steady t')) := by
  have hapos : 0 < t.alpha := lt_trans (by norm_num) ha0
  obtain ⟨f, hf⟩ := returns_succ hr
  subst hf
  rw [table_insert_or_update_step] at hr
  obtain ⟨t1, ht1, hr1⟩ := bind_eq_ok.mp hr
  have hpos := hg.pos
  have hs0 := hg.size_nonneg
  cases hgd : load_ge t.size t.capacity t.alpha with
  | false =>
    rw [hgd] at ht1
    simp only [Bool.false_eq_true, if_false] at ht1
    have := Run.ok.inj ht1
    subst this
    obtain ⟨hg', _, hc', hal', _, hs'⟩ :=
      good_place hg (size_lt_of_load_false hg.pos ha1 hgd) hr1
    refine ⟨Or.inl hc', hal', Or.inr ⟨hg', ?_⟩⟩
    by_cases h1 : 1 ≤ t'.size
    · right
      rw [hc', hal']
      exact load_false_mono (by omega) (by omega) hpos (le_refl _) hgd
    · left
      omega
  | true =>
    rw [hgd, if_pos rfl] at ht1
    have hs1 : 1 ≤ t.size := by
      by_contra hn
      have h0 : t.size = 0 := by omega
      rw [h0, load_ge_of_size_zero _ _ (by omega) hapos] at hgd
      cases hgd
    obtain ⟨w1, w2⟩ := wrap32_double t.capacity hg.pos hg.le_max
    by_cases hov : t.capacity * 2 ≤ INT_MAX
    · rw [w1 hov] at ht1 ⊢
      rw [table_resize_with_as_reinsert _ t _ hg.length_eq] at ht1
      have hload : load_ge (t.size - 1) (t.capacity * 2) t.alpha = false := by
        rcases hst with hB | hA
        · rw [load_ge_eq _ _ _ (by omega)]
          simp only [ge_iff_le, decide_eq_false_iff_not, not_le]
          have hcq : (0 : ℚ) < ((t.capacity * 2 : Int) : ℚ) := by
            exact_mod_cast (by omega : 0 < t.capacity * 2)
          have hsq : (0 : ℚ) ≤ ((t.size - 1 : Int) : ℚ) := by
            exact_mod_cast (by omega : 0 ≤ t.size - 1)
          have hle : ((t.size - 1 : Int) : ℚ) / ((t.capacity * 2 : Int) : ℚ) ≤ 1 / 4 := by
            rw [div_le_iff₀ hcq]
            have : (4 * (t.size - 1) : Int) ≤ t.capacity * 2 := by omega
            have h4 : ((4 * (t.size - 1) : Int) : ℚ) ≤ ((t.capacity * 2 : Int) : ℚ) := by
              exact_mod_cast this
            push_cast at h4 ⊢
            linarith
          have := roundDouble_mono (div_nonneg hsq (le_of_lt hcq)) hle
          rw [roundDouble_quarter] at this
          exact lt_of_le_of_lt this ha0
        · exact load_false_mono (by omega) (le_refl _) hpos (by omega) hA
      obtain ⟨hg1, hc1, hal1, hsz1⟩ := reinsert_capacity_kept hash f t.buckets
        ⟨calloc (t.capacity * 2), t.capacity * 2, 0, t.alpha⟩ t1 t.size
        (good_fresh hash _ _ (by omega) hov) ha1
        (by rw [hg.size_occupied]; simp) hload ht1
      have hsz := hg.size_le_capacity
      have hsz1' : t1.size ≤ t.size := by
        rw [hg.size_occupied]
        simpa using hsz1
      have hc1' : t1.capacity = t.capacity * 2 := hc1
      have hal1' : t1.alpha = t.alpha := hal1
      obtain ⟨hg', _, hc', hal', _, hs'⟩ := good_place hg1 (by omega) hr1
      refine ⟨Or.inr (hc'.trans hc1'), hal'.trans hal1', Or.inr ⟨hg', Or.inl ?_⟩⟩
      omega
    · obtain ⟨_, hneg⟩ := w2 (by omega)
      have := resize_with_negative (keepsLost_insert hash f) t _ t1 hapos hneg ht1
      subst this
      rw [lost_place hash _ k v hneg] at hr1
      have := Run.ok.inj hr1
      subst this
      exact ⟨Or.inr rfl, rfl, Or.inl ⟨hneg, rfl, rfl⟩⟩

/-- With `1/4 < alpha ≤ 1`, every built table has overflowed or is in working order and
steady. -/
theorem Built.steady {hash : Key → Nat} {dflt c : Int} {alpha : ℚ} {ops : List (Key × Int)}
    {t : Table} (hc : 0 < c) (hm : c ≤ INT_MAX) (ha0 : 1 / 4 < alpha) (ha1 : alpha ≤ 1)
    (h : Built hash dflt c alpha ops t) :
    t.alpha = alpha ∧ (Lost t ∨ (Good hash t ∧ Steady t)) := by
  induction h with
  | create =>
    rw [table_create_pos dflt c alpha hc]
    refine ⟨rfl, Or.inr ⟨good_fresh hash c alpha hc hm, Or.inl ?_⟩⟩
    simp only
    omega
  | @insert ops t t' k v fuel _ hstep ih =>
    obtain ⟨hal, hs⟩ := ih
    rcases hs with hl | ⟨hg, hst⟩
    · have := keepsLost_insert hash fuel t k v t' hl
        (by rw [hal]; exact lt_trans (by norm_num) ha0) hstep
      subst this
      exact ⟨hal, Or.inl hl⟩
    · obtain ⟨_, h2, h3⟩ := insert_one_step hash fuel t t' k v hg hst (by rw [hal]; exact ha0)
        (by rw [hal]; exact ha1) hstep
      exact ⟨h2.trans hal, h3⟩

end Machine

/-! ## Counting the probes that fail, in the machine model -/

namespace Machine

/-- The two steps after the guard for two distinct keys with the same home slot `h` in an
empty table of `c ≥ 2` slots: the first key lands in slot `h`, the second in the next
slot, and the table keeps the invariant. -/
theorem colliding_places (hash : Key → Nat) (c : Nat) (alpha : ℚ) (hc : 2 ≤ c) (k1 k2 : Key)
    (v1 v2 : Int) (hne : k1 ≠ k2) (h : Nat) (h1 : hash k1 % c = h) (h2 : hash k2 % c = h) :
    (HashTable.place hash ⟨List.replicate c none, c, 0, alpha⟩ k1 v1).buckets.getD h none
        = some ⟨k1, v1⟩ ∧
      (HashTable.place hash ⟨List.replicate c none, c, 0, alpha⟩ k1 v1).size = 1 ∧
      (HashTable.place hash (HashTable.place hash ⟨List.replicate c none, c, 0, alpha⟩ k1 v1)
        k2 v2).buckets.getD h none = some ⟨k1, v1⟩ ∧
      (HashTable.place hash (HashTable.place hash ⟨List.replicate c none, c, 0, alpha⟩ k1 v1)
        k2 v2).buckets.getD ((h + 1) % c) none = some ⟨k2, v2⟩ ∧
      Inv hash (HashTable.place hash
        (HashTable.place hash ⟨List.replicate c none, c, 0, alpha⟩ k1 v1) k2 v2) := by
  have hcpos : 0 < c := by omega
  have hh : h < c := by rw [← h1]; exact Nat.mod_lt _ hcpos
  have hinv0 : Inv hash ⟨List.replicate c none, c, 0, alpha⟩ :=
    inv_fresh hash ⟨[], 0, 0, alpha⟩ c hcpos
  have hl1 : HashTable.table_locate hash ⟨List.replicate c none, c, 0, alpha⟩ k1
      = (h : Int) := by
    have := table_locate_eq_of_first hash ⟨List.replicate c none, c, 0, alpha⟩ k1
      hcpos 0 (stops_of_none (getD_replicate_none _ _))
      (fun j' hj' => absurd hj' (Nat.not_lt_zero j'))
    simp only [h1, Nat.add_zero, Nat.mod_eq_of_lt hh] at this
    exact this
  have hb1 : (HashTable.place hash ⟨List.replicate c none, c, 0, alpha⟩ k1 v1).buckets
      = (List.replicate c none).set h (some ⟨k1, v1⟩) :=
    place_buckets hash _ k1 v1 h hl1 (stops_of_none (getD_replicate_none _ _))
  have hc1 : (HashTable.place hash ⟨List.replicate c none, c, 0, alpha⟩ k1 v1).capacity = c :=
    place_capacity hash _ k1 v1
  have hs1 : (HashTable.place hash ⟨List.replicate c none, c, 0, alpha⟩ k1 v1).size = 1 :=
    place_size_of_none hash _ k1 v1 h hl1 (getD_replicate_none _ _)
  have hinv1 : Inv hash (HashTable.place hash ⟨List.replicate c none, c, 0, alpha⟩ k1 v1) :=
    place_inv hinv0 hcpos k1 v1
  have hslot1 : (HashTable.place hash ⟨List.replicate c none, c, 0, alpha⟩ k1 v1).buckets.getD
      h none = some ⟨k1, v1⟩ := by
    rw [hb1, getD_set_self _ _ _ (by simpa using hh)]
  have hne2 : (h + 1) % c ≠ h := succ_mod_ne c h hc hh
  have hfree : (HashTable.place hash ⟨List.replicate c none, c, 0, alpha⟩ k1 v1).buckets.getD
      ((h + 1) % c) none = none := by
    rw [hb1, getD_set_of_ne _ _ _ _ (Ne.symm hne2), getD_replicate_none]
  have hl2 : HashTable.table_locate hash
      (HashTable.place hash ⟨List.replicate c none, c, 0, alpha⟩ k1 v1) k2
      = (((h + 1) % c : Nat) : Int) := by
    have := table_locate_eq_of_first hash
      (HashTable.place hash ⟨List.replicate c none, c, 0, alpha⟩ k1 v1) k2
      (by rw [hc1]; exact hcpos) 1
      (by rw [hc1, h2]; exact stops_of_none hfree)
      (by
        intro j' hj'
        have hj0 : j' = 0 := by omega
        rw [hj0, hc1, h2, Nat.add_zero, Nat.mod_eq_of_lt hh]
        exact not_stops_iff.mpr ⟨⟨k1, v1⟩, hslot1, hne⟩)
    rw [hc1, h2] at this
    exact this
  have hb2 : (HashTable.place hash
      (HashTable.place hash ⟨List.replicate c none, c, 0, alpha⟩ k1 v1) k2 v2).buckets
      = (HashTable.place hash ⟨List.replicate c none, c, 0, alpha⟩ k1 v1).buckets.set
        ((h + 1) % c) (some ⟨k2, v2⟩) :=
    place_buckets hash _ k2 v2 _ hl2 (stops_of_none hfree)
  have hlen1 : (HashTable.place hash ⟨List.replicate c none, c, 0, alpha⟩ k1 v1).buckets.length
      = c := by rw [hinv1.len, hc1]
  refine ⟨hslot1, hs1, ?_, ?_, ?_⟩
  · rw [hb2, getD_set_of_ne _ _ _ _ hne2]
    exact hslot1
  · rw [hb2, getD_set_self _ _ _ (by rw [hlen1]; exact Nat.mod_lt _ hcpos)]
  · exact place_inv hinv1 (by rw [hs1, hc1]; omega) k2 v2

end Machine

/-! ## Worked instances of the machine model -/

namespace Machine

theorem place_keeps_capacity {hash : Key → Nat} {t t' : Table} {k : Key} {v : Int}
    (hr : place hash t k v = Run.ok t') : t'.capacity = t.capacity := by
  simp only [place] at hr
  obtain ⟨index, _, hr1⟩ := bind_eq_ok.mp hr
  by_cases h1 : index = -1
  · simp only [h1, if_true] at hr1
    rw [← Run.ok.inj hr1]
  · simp only [h1, if_false] at hr1
    cases hg : t.buckets.getD index.toNat none with
    | none =>
      rw [hg] at hr1
      simp only at hr1
      rw [← Run.ok.inj hr1]
    | some p =>
      rw [hg] at hr1
      simp only at hr1
      rw [← Run.ok.inj hr1]

theorem tableOne_built : Built lengthHash 8 1 (1 / 2) [("a", 1)] tableOne :=
  @Built.insert lengthHash 8 1 (1 / 2) [] _ tableOne "a" 1 1 Built.create (by decide!)

theorem tableQuarter_built : Built lengthHash 8 1 (1 / 4) [("a", 1), ("b", 2)] tableQuarter :=
  @Built.insert lengthHash 8 1 (1 / 4) [("a", 1)] ⟨[some ⟨"a", 1⟩], 1, 1, 1 / 4⟩
    tableQuarter "b" 2 2
    (@Built.insert lengthHash 8 1 (1 / 4) [] _ _ "a" 1 1 Built.create (by decide!))
    (by decide!)

end Machine

/-! ## The exact reading as a description of the machine runs -/

namespace Machine

/-- For `alpha = 1/2`, the load factor of the driver, rounding does not change the outcome
of the test: a quotient of two `int`s below `1/2` is below `1/2 - 2^-32`, which is a
`double`. -/
theorem agrees_half : Agrees (1 / 2) := by
  intro s c hs hc hm
  have hcq : (0 : ℚ) < (c : ℚ) := by exact_mod_cast hc
  have hsq : (0 : ℚ) ≤ (s : ℚ) := by exact_mod_cast hs
  constructor
  · intro h
    have h1 := load_ge_eq s c (1 / 2) (by omega)
    rw [h] at h1
    have h2 : (1 / 2 : ℚ) ≤ roundDouble ((s : ℚ) / (c : ℚ)) := by
      have := h1.symm
      simpa using this
    by_contra hn
    have hlt : (s : ℚ) / (c : ℚ) < 1 / 2 := not_le.mp hn
    have hint : 2 * s < c := by
      rw [div_lt_iff₀ hcq] at hlt
      have : (2 : ℚ) * (s : ℚ) < (c : ℚ) := by linarith
      exact_mod_cast this
    have hle : (s : ℚ) / (c : ℚ) ≤ 2147483647 / 4294967296 := by
      rw [div_le_iff₀ hcq]
      have h3 : (2 * s + 1 : Int) ≤ c := by omega
      have h4 : (c : Int) ≤ 2147483647 := hm
      have h3q : (2 : ℚ) * (s : ℚ) + 1 ≤ (c : ℚ) := by exact_mod_cast h3
      have h4q : (c : ℚ) ≤ 2147483647 := by exact_mod_cast h4
      linarith
    have h5 := roundDouble_mono (div_nonneg hsq (le_of_lt hcq)) hle
    have h6 : roundDouble (2147483647 / 4294967296) = 2147483647 / 4294967296 := by decide!
    rw [h6] at h5
    have : (1 / 2 : ℚ) ≤ 2147483647 / 4294967296 := le_trans h2 h5
    norm_num at this
  · intro h
    rw [load_ge_eq s c (1 / 2) (by omega)]
    have h1 := roundDouble_mono (by norm_num : (0 : ℚ) ≤ 1 / 2) h
    have h2 : roundDouble (1 / 2) = 1 / 2 := by decide!
    rw [h2] at h1
    simpa using h1

theorem exact_guard_iff {hash : Key → Nat} {t : Table} (hg : Good hash t)
    (ha : Agrees t.alpha) :
    load_ge t.size t.capacity t.alpha = true ↔
      ((toIdeal t).size : ℚ) / ((toIdeal t).capacity : ℚ) ≥ (toIdeal t).alpha := by
  rw [ha t.size t.capacity hg.size_nonneg hg.pos hg.le_max]
  have h1 : (((toIdeal t).size : Nat) : ℚ) = (t.size : ℚ) := by
    have : ((t.size.toNat : Nat) : Int) = t.size := Int.toNat_of_nonneg hg.size_nonneg
    rw [toIdeal_size, ← Int.cast_natCast, this]
  have h2 : (((toIdeal t).capacity : Nat) : ℚ) = (t.capacity : ℚ) := by
    have : ((t.capacity.toNat : Nat) : Int) = t.capacity :=
      Int.toNat_of_nonneg (le_of_lt hg.pos)
    rw [toIdeal_capacity, ← Int.cast_natCast, this]
  rw [h1, h2, toIdeal_alpha]

theorem reinsert_refines {hash : Key → Nat} {ins : Table → Key → Int → Run Table}
    {insx : HashTable.Table → Key → Int → Option HashTable.Table}
    (hsim : ∀ t k v t', Good hash t → Agrees t.alpha → 0 < t.alpha → t.alpha ≤ 1 →
      ins t k v = Run.ok t' → 0 < t'.capacity → insx (toIdeal t) k v = some (toIdeal t'))
    (hpost : MeetsMachinePost hash ins) (hk : KeepsLost ins) (l : List (Option Pair))
    (tc t' : Table) (hg : Good hash tc) (hag : Agrees tc.alpha) (ha0 : 0 < tc.alpha)
    (ha1 : tc.alpha ≤ 1) (hr : reinsert ins l tc = Run.ok t') (hpos : 0 < t'.capacity) :
    HashTable.reinsert insx l (toIdeal tc) = some (toIdeal t') := by
  induction l generalizing tc with
  | nil =>
    simp only [reinsert] at hr
    rw [Run.ok.inj hr]
    rfl
  | cons a l ih =>
    cases a with
    | none =>
      simp only [reinsert] at hr
      simp only [HashTable.reinsert]
      exact ih tc hg hag ha0 ha1 hr
    | some p =>
      simp only [reinsert] at hr
      obtain ⟨t1, ht1, hr1⟩ := bind_eq_ok.mp hr
      obtain ⟨hal, hh⟩ := hpost tc p.key p.value t1 hg ha0 ha1 ht1
      rcases hh with hl | ⟨hg1, _⟩
      · exfalso
        have := reinsert_lost hk l t1 t' hl (by rw [hal]; exact ha0) hr1
        rw [this] at hpos
        have := hl.1
        omega
      · have h1 := hsim tc p.key p.value t1 hg hag ha0 ha1 ht1 hg1.pos
        simp only [HashTable.reinsert, h1, Option.some_bind]
        exact ih t1 hg1 (by rw [hal]; exact hag) (by rw [hal]; exact ha0)
          (by rw [hal]; exact ha1) hr1

/-- The machine reading refines to the exact one: when rounding does not change the
outcome of the test against `alpha`, a machine call on a table in working order that
leaves a positive capacity, so that no doubling overflowed, is matched step by step by the
exact reading, with the same depth of recursion. -/
theorem machine_refines_exact (hash : Key → Nat) (fuel : Nat) (t : Table) (k : Key) (v : Int)
    (t' : Table) (hg : Good hash t) (hag : Agrees t.alpha) (ha0 : 0 < t.alpha)
    (ha1 : t.alpha ≤ 1) (hr : table_insert_or_update hash fuel t k v = Run.ok t')
    (hpos : 0 < t'.capacity) :
    HashTable.table_insert_or_update hash fuel (toIdeal t) k v = some (toIdeal t') := by
  induction fuel generalizing t k v t' with
  | zero => simp [table_insert_or_update] at hr
  | succ fuel ih =>
    rw [table_insert_or_update_step] at hr
    obtain ⟨t1, ht1, hr1⟩ := bind_eq_ok.mp hr
    have hcap : t'.capacity = t1.capacity := place_keeps_capacity hr1
    rw [table_insert_or_update_succ]
    cases hgd : load_ge t.size t.capacity t.alpha with
    | false =>
      rw [hgd] at ht1
      simp only [Bool.false_eq_true, if_false] at ht1
      have := Run.ok.inj ht1
      subst this
      have hng : ¬ ((toIdeal t).size : ℚ) / ((toIdeal t).capacity : ℚ) ≥ (toIdeal t).alpha := by
        rw [← exact_guard_iff hg hag, hgd]
        simp
      rw [if_neg hng]
      obtain ⟨_, hto, _⟩ := good_place hg (size_lt_of_load_false hg.pos ha1 hgd) hr1
      simp only [Option.some_bind, hto]
    | true =>
      rw [hgd, if_pos rfl] at ht1
      have hyg : ((toIdeal t).size : ℚ) / ((toIdeal t).capacity : ℚ) ≥ (toIdeal t).alpha :=
        (exact_guard_iff hg hag).mp hgd
      rw [if_pos hyg]
      obtain ⟨w1, w2⟩ := wrap32_double t.capacity hg.pos hg.le_max
      have hp := hg.pos
      have hov : t.capacity * 2 ≤ INT_MAX := by
        by_contra hn
        obtain ⟨_, hneg⟩ := w2 (by omega)
        have := resize_with_negative (keepsLost_insert hash fuel) t _ t1 ha0 hneg ht1
        rw [this] at hcap
        simp only at hcap
        omega
      rw [w1 hov] at ht1
      obtain ⟨_, h⟩ := resize_with_good (insert_machine_post hash fuel)
        (keepsLost_insert hash fuel) t (t.capacity * 2) t1 hg ha0 ha1 (by omega) hov ht1
      have hg1 : Good hash t1 := by
        rcases h with h | ⟨h, _⟩
        · have := h.1
          omega
        · exact h
      have hsz : t1.size < t1.capacity := by
        rcases h with h | ⟨_, h3, _, h5⟩
        · have := h.1
          omega
        · have := hg.size_le_capacity
          omega
      rw [table_resize_with_as_reinsert _ t _ hg.length_eq] at ht1
      have hfresh : toIdeal ⟨calloc (t.capacity * 2), t.capacity * 2, 0, t.alpha⟩ =
          { toIdeal t with buckets := List.replicate ((toIdeal t).capacity * 2) none,
                           capacity := (toIdeal t).capacity * 2, size := 0 } := by
        have : (t.capacity * 2).toNat = t.capacity.toNat * 2 := by omega
        simp [toIdeal, calloc, this]
      have h2 := reinsert_refines
        (fun t k v t' a b c d e f => ih t k v t' a b c d e f)
        (insert_machine_post hash fuel) (keepsLost_insert hash fuel) t.buckets
        ⟨calloc (t.capacity * 2), t.capacity * 2, 0, t.alpha⟩ t1
        (good_fresh hash _ _ (by omega) hov) hag ha0 ha1 ht1 hg1.pos
      rw [hfresh] at h2
      rw [table_resize_with_eq _ (toIdeal t) _ hg.inv.len]
      simp only [toIdeal_buckets] at h2 ⊢
      rw [h2]
      obtain ⟨_, hto, _⟩ := good_place hg1 hsz hr1
      simp only [Option.some_bind, hto]

/-- A table built in the machine reading that has a positive capacity is built, by the
same insertions, in the exact reading, provided rounding does not change the outcome of
the test against `alpha`: what the exact reading proves of built tables holds of the
machine runs in which no doubling overflows. -/
theorem Built.exact {hash : Key → Nat} {dflt c : Int} {alpha : ℚ} {ops : List (Key × Int)}
    {t : Table} (hc : 0 < c) (hm : c ≤ INT_MAX) (hag : Agrees alpha) (ha0 : 0 < alpha)
    (ha1 : alpha ≤ 1) (h : Built hash dflt c alpha ops t) (hpos : 0 < t.capacity) :
    HashTable.Built hash dflt.toNat c alpha ops (toIdeal t) := by
  induction h with
  | create =>
    have hnot : ¬ c ≤ 0 := by omega
    have : toIdeal (table_create dflt c alpha) = HashTable.table_create dflt.toNat c alpha := by
      simp [toIdeal, table_create, HashTable.table_create, hnot, calloc]
    rw [this]
    exact HashTable.Built.create
  | @insert ops t t' k v fuel hb hstep ih =>
    obtain ⟨hg, _, _⟩ := hb.insert_post_of_pos hc hm ha0 ha1 ⟨fuel, hstep⟩ hpos
    have hal := (hb.state hc hm ha0 ha1).1
    have hx := machine_refines_exact hash fuel t k v t' hg (by rw [hal]; exact hag)
      (by rw [hal]; exact ha0) (by rw [hal]; exact ha1) hstep hpos
    exact HashTable.Built.insert (ih hg.pos) hx

end Machine

/-! ## The claims -/

namespace Machine

end Machine

/-- C6 (absence).  For every `alpha` whatever, on a table built from
`table_create(c, alpha)`, `c > 0`, by insertions none of which used key `k`,
`table_lookup(t, k)` is `-1`: on the fresh table, on a table with free slots and on a
full one. -/
theorem lookup_of_never_inserted (hash : Key → Nat) (dflt : Nat) (c : Int) (alpha : ℚ)
    (hc : 0 < c) (ops : List (Key × Int)) (t : Table) (hb : Built hash dflt c alpha ops t)
    (k : Key) (hk : ∀ kv, kv ∈ ops → kv.1 ≠ k) : table_lookup hash t k = -1 := by
  obtain ⟨hpos, hkeys⟩ := hb.keys hc
  refine table_lookup_of_absent hash t k hpos ?_
  intro hh
  obtain ⟨kv, hkv, hkk⟩ := List.mem_map.mp (hkeys k hh)
  exact hk kv hkv hkk

/-- Instance of C6: the full table `tableA` has never seen `"b"`. -/
theorem lookup_of_never_inserted_witness :
    Built lengthHash 8 1 (1 / 2) [("a", 1)] tableA ∧
      (∀ kv, kv ∈ [(("a", 1) : Key × Int)] → kv.1 ≠ "b") ∧
      table_lookup lengthHash tableA "b" = -1 :=
  ⟨tableA_built, by decide,
    lookup_of_never_inserted lengthHash 8 1 (1 / 2) (by decide) [("a", 1)] tableA
      tableA_built "b" (by decide)⟩

namespace Machine

/-- Counterexample to C7 as stated: with `c = 1` and `alpha = 1/2` the first insertion
leaves `size / capacity = 1/1`, and the next one, which resizes, leaves `2/2`; neither
is below `alpha`. -/
theorem load_factor_counterexample :
    (0 : Int) < 1 ∧ (0 : ℚ) < 1 / 2 ∧ (1 / 2 : ℚ) < 1 ∧
      Built lengthHash 8 1 (1 / 2) [] (table_create 8 1 (1 / 2)) ∧
      table_insert_or_update lengthHash 1 (table_create 8 1 (1 / 2)) "a" 1 = Run.ok tableOne ∧
      ¬ ((tableOne.size : ℚ) / (tableOne.capacity : ℚ) < 1 / 2) ∧
      Built lengthHash 8 1 (1 / 2) [("a", 1)] tableOne ∧
      table_insert_or_update lengthHash 2 tableOne "b" 2 = Run.ok tableTwo ∧
      ¬ ((tableTwo.size : ℚ) / (tableTwo.capacity : ℚ) < 1 / 2) :=
  ⟨by decide, by norm_num, by norm_num, Built.create, by decide!, by decide!,
    tableOne_built, by decide!, by decide!⟩

/-- C7 as amended (load factor).  On every table built from `table_create(c, alpha)`,
`0 < c ≤ INT_MAX`, `alpha` a `double` with `0 < alpha ≤ 1`, by insertions, the call
`table_insert_or_update(t, k, v)` returns; when the capacity it leaves is positive, that
is when no doubling has overflowed `int`, `size ≤ capacity`, the load factor counted
without the entry just written, `(size - 1) / capacity`, is at most `max(alpha, 1/2)`, and
it is strictly below `alpha` when the call did not change the capacity. -/
theorem load_factor_after_insert (hash : Key → Nat) (dflt c : Int) (alpha : ℚ) (hc : 0 < c)
    (hm : c ≤ INT_MAX) (hd : IsDouble alpha) (ha0 : 0 < alpha) (ha1 : alpha ≤ 1)
    (ops : List (Key × Int)) (t : Table) (hb : Built hash dflt c alpha ops t) (k : Key)
    (v : Int) :
    (∃ t', InsertReturns hash t k v t') ∧
      ∀ t', InsertReturns hash t k v t' → 0 < t'.capacity →
        t'.size ≤ t'.capacity ∧
        ((t'.size : ℚ) - 1) / (t'.capacity : ℚ) ≤ max alpha (1 / 2) ∧
        (t'.capacity = t.capacity → ((t'.size : ℚ) - 1) / (t'.capacity : ℚ) < alpha) := by
  refine ⟨hb.returns hc hm ha0 ha1 k v, ?_⟩
  intro t' hr hpos
  obtain ⟨hg, hg', _⟩ := hb.insert_post_of_pos hc hm ha0 ha1 hr hpos
  obtain ⟨fuel, hf⟩ := hr
  have hal := (hb.state hc hm ha0 ha1).1
  obtain ⟨hsz, hcases⟩ := insert_branch hash fuel t t' k v hg (by rw [hal]; exact ha0)
    (by rw [hal]; exact ha1) hf hpos
  have hpos' : (0 : ℚ) < (t'.capacity : ℚ) := by exact_mod_cast hpos
  have hposq : (0 : ℚ) < (t.capacity : ℚ) := by exact_mod_cast hg.pos
  have hszq : (t'.size : ℚ) - 1 ≤ (t.size : ℚ) := by
    have : (t'.size : ℚ) ≤ (t.size : ℚ) + 1 := by exact_mod_cast hsz
    linarith
  have hs0 : (0 : ℚ) ≤ (t.size : ℚ) := by exact_mod_cast hg.size_nonneg
  have hstrict : load_ge t.size t.capacity t.alpha = false → t'.capacity = t.capacity →
      ((t'.size : ℚ) - 1) / (t'.capacity : ℚ) < alpha := by
    intro h1 h2
    have h3 := load_lt_of_false hg.pos h1
    rw [hal] at h3
    have h4 := lt_of_roundDouble_lt hd (le_of_lt ha0) h3
    rw [h2]
    exact lt_of_le_of_lt (div_le_div_of_nonneg_right hszq (le_of_lt hposq)) h4
  refine ⟨hg'.size_le_capacity, ?_, ?_⟩
  · rcases hcases with ⟨h1, h2⟩ | ⟨_, h2⟩
    · exact le_trans (le_of_lt (hstrict h1 h2)) (le_max_left _ _)
    · refine le_trans ?_ (le_max_right _ _)
      rw [div_le_iff₀ hpos']
      have h3 : (t.size : ℚ) ≤ (t.capacity : ℚ) := by exact_mod_cast hg.size_le_capacity
      have h4 : 2 * (t.capacity : ℚ) ≤ (t'.capacity : ℚ) := by exact_mod_cast h2
      linarith
  · intro hcap
    rcases hcases with ⟨h1, h2⟩ | ⟨_, h2⟩
    · exact hstrict h1 h2
    · have := hg.pos
      omega

/-- Instance of C7 as amended: inserting `("b", 2)` into `tableOne`. -/
theorem load_factor_after_insert_witness :
    Built lengthHash 8 1 (1 / 2) [("a", 1)] tableOne ∧
      ((∃ t', InsertReturns lengthHash tableOne "b" 2 t') ∧
        ∀ t', InsertReturns lengthHash tableOne "b" 2 t' → 0 < t'.capacity →
          t'.size ≤ t'.capacity ∧
          ((t'.size : ℚ) - 1) / (t'.capacity : ℚ) ≤ max (1 / 2) (1 / 2) ∧
          (t'.capacity = tableOne.capacity →
            ((t'.size : ℚ) - 1) / (t'.capacity : ℚ) < 1 / 2)) :=
  ⟨tableOne_built,
    load_factor_after_insert lengthHash 8 1 (1 / 2) (by decide) (by decide)
      (by unfold IsDouble; decide!) (by norm_num) (by norm_num) [("a", 1)] tableOne
      tableOne_built "b" 2⟩

end Machine

/-- C8 (characterisation of `table_locate`).  On a table with `capacity > 0`, with
`home = hash(k) mod capacity`: `table_locate(t, k)` is the first slot of the cyclic
sequence `home, home+1, ..` (mod `capacity`) that is empty or holds `k`; a result other
than `-1` lies in `[0, capacity)` and is such a first slot; and the result is `-1`
exactly when each of the `capacity` slots holds a key other than `k`. -/
theorem table_locate_characterisation (hash : Key → Nat) (t : Table) (k : Key)
    (hc : 0 < t.capacity) :
    (∀ j, j < t.capacity →
      Stops t.buckets k ((hash k % t.capacity + j) % t.capacity) →
      (∀ j', j' < j → ¬ Stops t.buckets k ((hash k % t.capacity + j') % t.capacity)) →
      table_locate hash t k = (((hash k % t.capacity + j) % t.capacity : Nat) : Int)) ∧
    (table_locate hash t k ≠ -1 →
      0 ≤ table_locate hash t k ∧ table_locate hash t k < (t.capacity : Int) ∧
      ∃ j, j < t.capacity ∧
        table_locate hash t k = (((hash k % t.capacity + j) % t.capacity : Nat) : Int) ∧
        Stops t.buckets k ((hash k % t.capacity + j) % t.capacity) ∧
        ∀ j', j' < j → ¬ Stops t.buckets k ((hash k % t.capacity + j') % t.capacity)) ∧
    (table_locate hash t k = -1 ↔
      ∀ i, i < t.capacity → ∃ p, t.buckets.getD i none = some p ∧ p.key ≠ k) := by
  refine ⟨?_, ?_, ?_⟩
  · intro j _ hs hn
    exact table_locate_eq_of_first hash t k hc j hs hn
  · intro hne
    rcases table_locate_cases hash t k hc with ⟨h1, _⟩ | ⟨j, hj, h1, h2, h3⟩
    · exact absurd h1 hne
    · have hlt : (hash k % t.capacity + j) % t.capacity < t.capacity := Nat.mod_lt _ hc
      refine ⟨?_, ?_, j, hj, h1, h2, h3⟩
      · rw [h1]; exact Int.ofNat_nonneg _
      · rw [h1]; exact_mod_cast hlt
  · constructor
    · intro h
      rcases table_locate_cases hash t k hc with ⟨_, h2⟩ | ⟨j, _, h1, _, _⟩
      · intro i hi
        exact not_stops_iff.mp (h2 i hi)
      · rw [h1] at h
        omega
    · intro h
      rcases table_locate_cases hash t k hc with ⟨h1, _⟩ | ⟨j, _, _, h2, _⟩
      · exact h1
      · exact absurd h2 (not_stops_iff.mpr (h _ (Nat.mod_lt _ hc)))

/-- Instance of C8: probing for `"b"` in `tableAB`. -/
theorem table_locate_characterisation_witness :
    0 < tableAB.capacity ∧
    ((∀ j, j < tableAB.capacity →
      Stops tableAB.buckets "b" ((lengthHash "b" % tableAB.capacity + j) % tableAB.capacity) →
      (∀ j', j' < j →
        ¬ Stops tableAB.buckets "b"
          ((lengthHash "b" % tableAB.capacity + j') % tableAB.capacity)) →
      table_locate lengthHash tableAB "b" =
        (((lengthHash "b" % tableAB.capacity + j) % tableAB.capacity : Nat) : Int)) ∧
    (table_locate lengthHash tableAB "b" ≠ -1 →
      0 ≤ table_locate lengthHash tableAB "b" ∧
      table_locate lengthHash tableAB "b" < (tableAB.capacity : Int) ∧
      ∃ j, j < tableAB.capacity ∧
        table_locate lengthHash tableAB "b" =
          (((lengthHash "b" % tableAB.capacity + j) % tableAB.capacity : Nat) : Int) ∧
        Stops tableAB.buckets "b" ((lengthHash "b" % tableAB.capacity + j) % tableAB.capacity) ∧
        ∀ j', j' < j →
          ¬ Stops tableAB.buckets "b"
            ((lengthHash "b" % tableAB.capacity + j') % tableAB.capacity)) ∧
    (table_locate lengthHash tableAB "b" = -1 ↔
      ∀ i, i < tableAB.capacity → ∃ p, tableAB.buckets.getD i none = some p ∧ p.key ≠ "b")) :=
  ⟨by decide, table_locate_characterisation lengthHash tableAB "b" (by decide)⟩

/-- C9 (a full table is left alone).  When each of the `capacity` slots of `t` holds a
key other than `k` and `size / capacity < alpha`, so that the guard does not fire, the
call `table_insert_or_update(t, k, v)` returns with buckets, size and capacity, indeed
the whole table, as they were. -/
theorem insert_into_full_is_noop (hash : Key → Nat) (t : Table) (k : Key) (v : Int)
    (fuel : Nat)
    (hfull : ∀ i, i < t.capacity → ∃ p, t.buckets.getD i none = some p ∧ p.key ≠ k)
    (hload : (t.size : ℚ) / (t.capacity : ℚ) < t.alpha) :
    table_insert_or_update hash (fuel + 1) t k v = some t := by
  have hl : table_locate hash t k = -1 := by
    by_cases hc : 0 < t.capacity
    · rcases table_locate_cases hash t k hc with ⟨h1, _⟩ | ⟨j, _, _, h2, _⟩
      · exact h1
      · exact absurd h2 (not_stops_iff.mpr (hfull _ (Nat.mod_lt _ hc)))
    · have h0 : t.capacity = 0 := by omega
      simp only [table_locate, h0, locate_loop]
  rw [table_insert_or_update_succ, if_neg (not_le.mpr hload)]
  simp only [Option.some_bind, place_of_full hash t k v hl]

/-- Instance of C9: inserting `("b", 2)` into the full `tableFull`, whose `alpha` is 2. -/
theorem insert_into_full_is_noop_witness :
    (∀ i, i < tableFull.capacity →
        ∃ p, tableFull.buckets.getD i none = some p ∧ p.key ≠ "b") ∧
      (tableFull.size : ℚ) / (tableFull.capacity : ℚ) < tableFull.alpha ∧
      table_insert_or_update lengthHash (0 + 1) tableFull "b" 2 = some tableFull :=
  have h1 : ∀ i, i < tableFull.capacity →
      ∃ p, tableFull.buckets.getD i none = some p ∧ p.key ≠ "b" := by
    intro i hi
    have hi0 : i = 0 := by
      have : tableFull.capacity = 1 := rfl
      omega
    subst hi0
    exact ⟨⟨"a", 1⟩, rfl, by decide⟩
  have h2 : (tableFull.size : ℚ) / (tableFull.capacity : ℚ) < tableFull.alpha := by decide!
  ⟨h1, h2, insert_into_full_is_noop lengthHash tableFull "b" 2 0 h1 h2⟩

namespace Machine

end Machine

/-- C14 (key uniqueness).  In every table built from `table_create(c, alpha)`, `c > 0`,
`0 < alpha ≤ 1`, by insertions, no two occupied slots hold the same key; and the same is
true of the table after any call `table_resize(t, n)` on it. -/
theorem keys_are_unique (hash : Key → Nat) (dflt : Nat) (c : Int) (alpha : ℚ)
    (hc : 0 < c) (ha0 : 0 < alpha) (ha1 : alpha ≤ 1) (ops : List (Key × Int)) (t : Table)
    (hb : Built hash dflt c alpha ops t) :
    KeysUnique t ∧ ∀ n t', ResizeReturns hash t n t' → KeysUnique t' := by
  obtain ⟨hinv, hal⟩ := hb.inv hc ha1
  refine ⟨hinv.keysUnique, fun n t' hr => ?_⟩
  exact (resize_unique_chain hinv (by rw [hal]; exact ha0) (by rw [hal]; exact ha1) hr).1

/-- Instance of C14: the table `tableT`, and what a resize makes of it. -/
theorem keys_are_unique_witness :
    Built lengthHash 8 1 (1 / 10) [("a", 1), ("b", 2)] tableT ∧
      (KeysUnique tableT ∧ ∀ n t', ResizeReturns lengthHash tableT n t' → KeysUnique t') :=
  ⟨tableT_built,
    keys_are_unique lengthHash 8 1 (1 / 10) (by decide) (by norm_num) (by norm_num)
      [("a", 1), ("b", 2)] tableT tableT_built⟩

namespace Machine

end Machine

/-- C19 (probe chain).  In every table built from `table_create(c, alpha)`, `c > 0`,
`0 < alpha ≤ 1`, by insertions, and in the table after any call `table_resize(t, n)` on
it: for every occupied slot `i`, holding key `k`, every slot on the cyclic path from
`hash(k) mod capacity` up to but excluding `i` is occupied by a key other than `k`, and
`table_locate(t, k)` answers `i`. -/
theorem probe_chain_invariant (hash : Key → Nat) (dflt : Nat) (c : Int) (alpha : ℚ)
    (hc : 0 < c) (ha0 : 0 < alpha) (ha1 : alpha ≤ 1) (ops : List (Key × Int)) (t : Table)
    (hb : Built hash dflt c alpha ops t) :
    ProbeChain hash t ∧ ∀ n t', ResizeReturns hash t n t' → ProbeChain hash t' := by
  obtain ⟨hinv, hal⟩ := hb.inv hc ha1
  refine ⟨hinv.probeChain, fun n t' hr => ?_⟩
  exact (resize_unique_chain hinv (by rw [hal]; exact ha0) (by rw [hal]; exact ha1) hr).2

/-- Instance of C19: the table `tableT`, in which `"b"` was pushed from slot 1 round to
slot 0. -/
theorem probe_chain_invariant_witness :
    Built lengthHash 8 1 (1 / 10) [("a", 1), ("b", 2)] tableT ∧
      (ProbeChain lengthHash tableT ∧
        ∀ n t', ResizeReturns lengthHash tableT n t' → ProbeChain lengthHash t') :=
  ⟨tableT_built,
    probe_chain_invariant lengthHash 8 1 (1 / 10) (by decide) (by norm_num) (by norm_num)
      [("a", 1), ("b", 2)] tableT tableT_built⟩

/-- C20 (termination).  On every table with `capacity > 0`, `size` equal to its number
of occupied slots and `0 < alpha ≤ 1`, the call `table_insert_or_update(t, k, v)`
returns: the resizes it sets off nest no deeper than `size`, each nested
`table_resize` working on a table with fewer entries, also when a reinsertion resizes
again.  So does `table_resize(t, n)`. -/
theorem insert_terminates (hash : Key → Nat) (t : Table) (k : Key) (v : Int)
    (_hc : 0 < t.capacity) (hs : t.size = occupied t.buckets) (_ha0 : 0 < t.alpha)
    (_ha1 : t.alpha ≤ 1) :
    (∀ fuel, t.size < fuel → ∃ t', table_insert_or_update hash fuel t k v = some t') ∧
      ∀ n fuel, t.size ≤ fuel → ∃ t', table_resize hash fuel t n = some t' := by
  constructor
  · intro fuel hf
    obtain ⟨t', ht', _⟩ := insert_total hash fuel t k v (by rw [← hs]; exact hf)
    exact ⟨t', ht'⟩
  · intro n fuel hf
    exact resize_total hash fuel t n (by rw [← hs]; exact hf)

/-- Instance of C20: inserting `"c"` into `tableT`, where the reinsertion of `"a"`
resizes a second time; depth 3 is enough and gives `tableTC`. -/
theorem insert_terminates_witness :
    table_insert_or_update lengthHash 3 tableT "c" 3 = some tableTC ∧
      ((∀ fuel, tableT.size < fuel →
          ∃ t', table_insert_or_update lengthHash fuel tableT "c" 3 = some t') ∧
        ∀ n fuel, tableT.size ≤ fuel → ∃ t', table_resize lengthHash fuel tableT n = some t') :=
  ⟨by decide!,
    insert_terminates lengthHash tableT "c" 3 (by decide) (by decide) (by decide!) (by decide!)⟩

namespace Machine

/-- Counterexample to C16 as stated: with `alpha = 1/4`, inserting `"c"` into the built
table `tableQuarter` (2 slots, both taken) resizes to 4 slots; the reinsertion of the
second entry finds `1/4 ≥ alpha` and resizes again, to 8: the capacity is neither
unchanged nor twice what it was. -/
theorem one_growth_step_counterexample :
    (0 : Int) < 1 ∧ (0 : ℚ) < 1 / 4 ∧ (1 / 4 : ℚ) < 1 ∧
      Built lengthHash 8 1 (1 / 4) [("a", 1), ("b", 2)] tableQuarter ∧
      table_insert_or_update lengthHash 3 tableQuarter "c" 3 = Run.ok tableQuarterC ∧
      tableQuarterC.capacity ≠ tableQuarter.capacity ∧
      tableQuarterC.capacity ≠ 2 * tableQuarter.capacity :=
  ⟨by decide, by norm_num, by norm_num, tableQuarter_built, by decide!, by decide, by decide⟩

/-- C16 as amended (one growth step per insertion).  On every table built from
`table_create(c, alpha)`, `0 < c ≤ INT_MAX`, `1/4 < alpha ≤ 1`, by insertions, the call
`table_insert_or_update(t, k, v)` returns with the capacity unchanged or set to the `int`
value of `capacity * 2`, no reinsertion resizing again; that value is exactly twice the
capacity as long as `capacity * 2 ≤ INT_MAX`, and negative otherwise. -/
theorem growth_per_insert (hash : Key → Nat) (dflt c : Int) (alpha : ℚ) (hc : 0 < c)
    (hm : c ≤ INT_MAX) (ha0 : 1 / 4 < alpha) (ha1 : alpha ≤ 1) (ops : List (Key × Int))
    (t : Table) (hb : Built hash dflt c alpha ops t) (k : Key) (v : Int) :
    (∃ t', InsertReturns hash t k v t') ∧
      ∀ t', InsertReturns hash t k v t' →
        (t'.capacity = t.capacity ∨ t'.capacity = wrap32 (t.capacity * 2)) ∧
        (t.capacity * 2 ≤ INT_MAX →
          t'.capacity = t.capacity ∨ t'.capacity = 2 * t.capacity) ∧
        (0 < t.capacity → INT_MAX < t.capacity * 2 →
          t'.capacity = t.capacity ∨ t'.capacity < 0) := by
  have hapos : 0 < alpha := lt_trans (by norm_num) ha0
  refine ⟨hb.returns hc hm hapos ha1 k v, ?_⟩
  rintro t' ⟨fuel, hf⟩
  obtain ⟨hal, hs⟩ := hb.steady hc hm ha0 ha1
  have hmain : t'.capacity = t.capacity ∨ t'.capacity = wrap32 (t.capacity * 2) := by
    rcases hs with hl | ⟨hg, hst⟩
    · have := keepsLost_insert hash fuel t k v t' hl (by rw [hal]; exact hapos) hf
      exact Or.inl (by rw [this])
    · exact (insert_one_step hash fuel t t' k v hg hst (by rw [hal]; exact ha0)
        (by rw [hal]; exact ha1) hf).1
  refine ⟨hmain, ?_, ?_⟩
  · intro hov
    rcases hmain with h | h
    · exact Or.inl h
    · rcases hs with hl | ⟨hg, _⟩
      · have := keepsLost_insert hash fuel t k v t' hl (by rw [hal]; exact hapos) hf
        exact Or.inl (by rw [this])
      · right
        rw [h, (wrap32_double t.capacity hg.pos hg.le_max).1 hov]
        ring
  · intro hpos hov
    rcases hmain with h | h
    · exact Or.inl h
    · right
      have hmax : t.capacity ≤ INT_MAX := by
        rcases hs with hl | ⟨hg, _⟩
        · have := hl.1
          omega
        · exact hg.le_max
      rw [h]
      exact ((wrap32_double t.capacity hpos hmax).2 hov).2

/-- Instance of C16 as amended: inserting `("b", 2)` into `tableOne`, `alpha = 1/2`. -/
theorem growth_per_insert_witness :
    Built lengthHash 8 1 (1 / 2) [("a", 1)] tableOne ∧
      ((∃ t', InsertReturns lengthHash tableOne "b" 2 t') ∧
        ∀ t', InsertReturns lengthHash tableOne "b" 2 t' →
          (t'.capacity = tableOne.capacity ∨ t'.capacity = wrap32 (tableOne.capacity * 2)) ∧
          (tableOne.capacity * 2 ≤ INT_MAX →
            t'.capacity = tableOne.capacity ∨ t'.capacity = 2 * tableOne.capacity) ∧
          (0 < tableOne.capacity → INT_MAX < tableOne.capacity * 2 →
            t'.capacity = tableOne.capacity ∨ t'.capacity < 0)) :=
  ⟨tableOne_built,
    growth_per_insert lengthHash 8 1 (1 / 2) (by decide) (by decide) (by norm_num)
      (by norm_num) [("a", 1)] tableOne tableOne_built "b" 2⟩

end Machine

/-- Counterexample to C17 as stated: `table_insert_or_update(t, "a", -1)` on the fresh
table stores `-1`; the slot holds a negative value, and `table_lookup(t, "a")` is `-1`
although a slot holds `"a"`. -/
theorem stored_values_counterexample :
    (0 : Int) < 1 ∧ (0 : ℚ) < 1 / 2 ∧ (1 / 2 : ℚ) ≤ 1 ∧
      Built lengthHash 8 1 (1 / 2) [("a", -1)] tableNeg ∧
      tableNeg.buckets.getD 0 none = some ⟨"a", -1⟩ ∧ ¬ ((0 : Int) ≤ -1) ∧
      table_lookup lengthHash tableNeg "a" = -1 ∧ HoldsKey tableNeg "a" :=
  ⟨by decide, by norm_num, by norm_num, tableNeg_built, rfl, by decide, by decide!,
    ⟨0, ⟨"a", -1⟩, rfl, rfl⟩⟩

/-- C17 as amended (stored values).  In every table built from `table_create(c, alpha)`,
`c > 0`, `0 < alpha ≤ 1`, by insertions whose values are all `≥ 0`, every occupied slot
holds a value `≥ 0`, and `table_lookup(t, k)` is `-1` exactly when no slot holds `k`. -/
theorem stored_values_nonneg (hash : Key → Nat) (dflt : Nat) (c : Int) (alpha : ℚ)
    (hc : 0 < c) (_ha0 : 0 < alpha) (ha1 : alpha ≤ 1) (ops : List (Key × Int)) (t : Table)
    (hb : Built hash dflt c alpha ops t) (hv : ∀ kv, kv ∈ ops → 0 ≤ kv.2) :
    (∀ i p, t.buckets.getD i none = some p → 0 ≤ p.value) ∧
      ∀ k, table_lookup hash t k = -1 ↔ ¬ HoldsKey t k := by
  obtain ⟨hinv, _⟩ := hb.inv hc ha1
  obtain ⟨hst, _⟩ := hb.refines hc ha1
  have hval : ∀ i p, t.buckets.getD i none = some p → 0 ≤ p.value := by
    intro i p hp
    have h1 : Stored t p.key p.value := ⟨i, hp⟩
    exact hv _ (lastValue_mem ops p.key p.value ((hst _ _).mp h1))
  refine ⟨hval, fun k => ⟨?_, table_lookup_of_absent hash t k hinv.pos⟩⟩
  rintro hl ⟨i, p, hp, hk⟩
  have h1 : Stored t k p.value := ⟨i, by rw [hp, ← hk]⟩
  have h2 := table_lookup_of_stored hinv h1
  have h3 := hval i p hp
  omega

/-- Instance of C17 as amended: the table `tableA`, built by inserting `("a", 1)`. -/
theorem stored_values_nonneg_witness :
    Built lengthHash 8 1 (1 / 2) [("a", 1)] tableA ∧
      (∀ kv, kv ∈ [(("a", 1) : Key × Int)] → 0 ≤ kv.2) ∧
      ((∀ i p, tableA.buckets.getD i none = some p → 0 ≤ p.value) ∧
        ∀ k, table_lookup lengthHash tableA k = -1 ↔ ¬ HoldsKey tableA k) :=
  ⟨tableA_built, by decide,
    stored_values_nonneg lengthHash 8 1 (1 / 2) (by decide) (by norm_num) (by norm_num)
      [("a", 1)] tableA tableA_built (by decide)⟩

/-- C12 (growth from capacity 1).  For every hash function and every list of 1000 pairs
with pairwise distinct keys, the pairs can be inserted one at a time into
`table_create(1, 1/2)`, and the table that results has `size = 1000`, looks every key up
to its inserted value, and has a capacity that is a power of two and at least 2000. -/
theorem growth_from_capacity_one (hash : Key → Nat) (dflt : Nat) (ops : List (Key × Int))
    (hlen : ops.length = 1000) (hnd : (ops.map Prod.fst).Nodup) :
    (∃ t, Built hash dflt 1 (1 / 2) ops t) ∧
      ∀ t, Built hash dflt 1 (1 / 2) ops t →
        t.size = 1000 ∧ (∀ kv, kv ∈ ops → table_lookup hash t kv.1 = kv.2) ∧
        (∃ j, t.capacity = 2 ^ j) ∧ 2000 ≤ t.capacity := by
  refine ⟨built_exists hash dflt 1 (1 / 2) ops, ?_⟩
  intro t hb
  have hc : (0 : Int) < 1 := by decide
  have ha1 : (1 / 2 : ℚ) ≤ 1 := by norm_num
  obtain ⟨hinv, _⟩ := hb.inv hc ha1
  obtain ⟨hst, hsz⟩ := hb.refines hc ha1
  have hsize : t.size = 1000 := by rw [hsz, distinctKeyCount_of_nodup ops hnd, hlen]
  obtain ⟨j, hj⟩ := hb.capacity_pow
  have hj' : t.capacity = 2 ^ j := by
    have h1 : (table_create dflt 1 (1 / 2)).capacity = 1 := by
      simp [table_create]
    rw [hj, h1, Nat.one_mul]
  have hhalf : 2 * (t.size - 1) ≤ t.capacity := by
    cases hb with
    | create => simp at hlen
    | @insert ops0 t0 _ k v fuel hb0 hstep =>
      obtain ⟨hinv0, hal0⟩ := hb0.inv hc ha1
      exact insert_half_full hash fuel t0 k v t hinv0 (by rw [hal0]) hstep
  refine ⟨hsize, ?_, ⟨j, hj'⟩, ?_⟩
  · intro kv hkv
    exact table_lookup_of_stored hinv
      ((hst kv.1 kv.2).mpr (lastValue_of_mem_nodup ops hnd kv.1 kv.2 hkv))
  · rw [hsize, hj'] at hhalf
    rw [hj']
    by_contra hlt
    have hj10 : j ≤ 10 := by
      by_contra hgt
      have : 2 ^ 11 ≤ 2 ^ j := Nat.pow_le_pow_right (by decide) (by omega)
      omega
    have : 2 ^ j ≤ 2 ^ 10 := Nat.pow_le_pow_right (by decide) hj10
    omega

/-- Instance of C12: the keys `""`, `"a"`, `"aa"`, .. of `thousandPairs`, hashed by
their length. -/
theorem growth_from_capacity_one_witness :
    thousandPairs.length = 1000 ∧ (thousandPairs.map Prod.fst).Nodup ∧
      ((∃ t, Built lengthHash 8 1 (1 / 2) thousandPairs t) ∧
        ∀ t, Built lengthHash 8 1 (1 / 2) thousandPairs t →
          t.size = 1000 ∧
          (∀ kv, kv ∈ thousandPairs → table_lookup lengthHash t kv.1 = kv.2) ∧
          (∃ j, t.capacity = 2 ^ j) ∧ 2000 ≤ t.capacity) :=
  ⟨thousandPairs_length, thousandPairs_nodup,
    growth_from_capacity_one lengthHash 8 thousandPairs thousandPairs_length
      thousandPairs_nodup⟩

namespace Machine

/-- Counterexample to C13 as stated: `c = 10` and `alpha` the `double` `0.1`, which lies
above `1/10`, so that `1 / c < alpha ≤ 1`.  The keys `key9` and `key19` differ and share
the home slot `9` modulo 10.  The second insertion computes `(double)1 / 10`, which
rounds to the `double` `0.1`, finds it `>= alpha` and resizes to 20 slots: `key19` goes to
slot 19, and slot `(9 + 1) mod 10 = 0` stays empty. -/
theorem collision_handling_counterexample :
    (2 : Int) ≤ 10 ∧ (1 : ℚ) / 10 < tenth ∧ tenth ≤ 1 ∧ key9 ≠ key19 ∧
      lengthHash key9 % 10 = 9 ∧ lengthHash key19 % 10 = 9 ∧
      table_insert_or_update lengthHash 1 (table_create 8 10 tenth) key9 1 = Run.ok tableTen ∧
      table_insert_or_update lengthHash 2 tableTen key19 2 = Run.ok tableTwenty ∧
      tableTwenty.buckets.getD ((9 + 1) % 10) none = none ∧
      tableTwenty.buckets.getD 19 none = some ⟨key19, 2⟩ ∧ tableTwenty.capacity = 20 :=
  ⟨by decide, by unfold tenth; norm_num, by unfold tenth; norm_num, by decide, by decide,
    by decide, by decide!, by decide!, by decide, by decide, by decide⟩

/-- C13 as amended (collision handling).  For every capacity `c` with `2 ≤ c ≤ INT_MAX`,
every `alpha ≤ 1` that lies above the quotient `1 / c` as rounded to `double`, and every
two distinct keys whose hashes agree modulo `c`, on `h`: inserting `(k1, v1)` then
`(k2, v2)` into `table_create(c, alpha)` puts `k1` in slot `h` and `k2` in slot
`(h + 1) mod c` of a table that still has `c` slots, and afterwards `table_lookup` gives
`v1` for `k1` and `v2` for `k2`. -/
theorem collision_handling (hash : Key → Nat) (dflt : Int) (c : Nat) (alpha : ℚ) (hc : 2 ≤ c)
    (hm : (c : Int) ≤ INT_MAX) (hlo : roundDouble (1 / (c : ℚ)) < alpha) (ha1 : alpha ≤ 1)
    (k1 k2 : Key) (v1 v2 : Int) (hne : k1 ≠ k2) (h : Nat) (h1 : hash k1 % c = h)
    (h2 : hash k2 % c = h) :
    (∃ t1 t2, InsertReturns hash (table_create dflt (c : Int) alpha) k1 v1 t1 ∧
      InsertReturns hash t1 k2 v2 t2) ∧
      ∀ t1 t2, InsertReturns hash (table_create dflt (c : Int) alpha) k1 v1 t1 →
        InsertReturns hash t1 k2 v2 t2 →
        t1.buckets.getD h none = some ⟨k1, v1⟩ ∧
        t2.buckets.getD h none = some ⟨k1, v1⟩ ∧
        t2.buckets.getD ((h + 1) % c) none = some ⟨k2, v2⟩ ∧
        t2.capacity = (c : Int) ∧
        table_lookup hash t2 k1 = Run.ok v1 ∧ table_lookup hash t2 k2 = Run.ok v2 := by
  have hcpos : (0 : Int) < (c : Int) := by omega
  have hcq : (0 : ℚ) < (c : ℚ) := by
    have : 0 < c := by omega
    exact_mod_cast this
  have ha0 : 0 < alpha :=
    lt_of_le_of_lt (roundDouble_nonneg (le_of_lt (by positivity))) hlo
  have hg0 : Good hash ⟨calloc (c : Int), (c : Int), 0, alpha⟩ :=
    good_fresh hash c alpha hcpos hm
  have hl0 : load_ge (0 : Int) (c : Int) alpha = false :=
    load_ge_of_size_zero _ _ (by omega) ha0
  have hl1 : load_ge (1 : Int) (c : Int) alpha = false := by
    rw [load_ge_eq _ _ _ (by omega)]
    simp only [ge_iff_le, decide_eq_false_iff_not, not_le, Int.cast_one, Int.cast_natCast]
    exact hlo
  have hto0 : toIdeal ⟨calloc (c : Int), (c : Int), 0, alpha⟩
      = ⟨List.replicate c none, c, 0, alpha⟩ := by
    simp [toIdeal, calloc]
  obtain ⟨p1, p2, p3, p4, p5⟩ := colliding_places hash c alpha hc k1 k2 v1 v2 hne h h1 h2
  have main : ∀ t1 t2, InsertReturns hash (table_create dflt (c : Int) alpha) k1 v1 t1 →
      InsertReturns hash t1 k2 v2 t2 →
      t1.buckets.getD h none = some ⟨k1, v1⟩ ∧
      t2.buckets.getD h none = some ⟨k1, v1⟩ ∧
      t2.buckets.getD ((h + 1) % c) none = some ⟨k2, v2⟩ ∧
      t2.capacity = (c : Int) ∧
      table_lookup hash t2 k1 = Run.ok v1 ∧ table_lookup hash t2 k2 = Run.ok v2 := by
    rintro t1 t2 ⟨f1, hr1⟩ ⟨f2, hr2⟩
    rw [table_create_pos dflt c alpha hcpos] at hr1
    obtain ⟨g1, hg1⟩ := returns_succ hr1
    subst hg1
    rw [insert_of_load_false hash g1 _ k1 v1 hl0] at hr1
    obtain ⟨hgood1, hto1, hc1', hal1', _, _⟩ := good_place hg0 hcpos hr1
    have hc1 : t1.capacity = (c : Int) := hc1'
    have hal1 : t1.alpha = alpha := hal1'
    rw [hto0] at hto1
    have hs1 : t1.size = 1 := by
      have := congrArg HashTable.Table.size hto1
      rw [p2, toIdeal_size] at this
      have := hgood1.size_nonneg
      omega
    obtain ⟨g2, hg2⟩ := returns_succ hr2
    subst hg2
    have hl1' : load_ge t1.size t1.capacity t1.alpha = false := by
      rw [hs1, hc1, hal1]
      exact hl1
    rw [insert_of_load_false hash g2 _ k2 v2 hl1'] at hr2
    obtain ⟨hgood2, hto2, hc2, _, _, _⟩ :=
      good_place hgood1 (by rw [hs1, hc1]; omega) hr2
    rw [hto1] at hto2
    have hb1 : t1.buckets = (HashTable.place hash ⟨List.replicate c none, c, 0, alpha⟩ k1
        v1).buckets := by
      rw [← hto1]
      rfl
    have hb2 : t2.buckets = (HashTable.place hash
        (HashTable.place hash ⟨List.replicate c none, c, 0, alpha⟩ k1 v1) k2 v2).buckets := by
      rw [← hto2]
      rfl
    refine ⟨by rw [hb1]; exact p1, by rw [hb2]; exact p3, by rw [hb2]; exact p4,
      hc2.trans hc1, ?_, ?_⟩
    · exact good_lookup_of_stored hgood2 ⟨h, by rw [toIdeal_buckets, hb2]; exact p3⟩
    · exact good_lookup_of_stored hgood2 ⟨_, by rw [toIdeal_buckets, hb2]; exact p4⟩
  refine ⟨?_, main⟩
  have hgc : Good hash (table_create dflt (c : Int) alpha) := by
    rw [table_create_pos dflt c alpha hcpos]
    exact hg0
  obtain ⟨t1, f1, hr1⟩ := insert_returns_ok hash (table_create dflt (c : Int) alpha) k1 v1
    (Or.inl hgc) ha0 ha1
  obtain ⟨hal1, hs1⟩ := insert_machine_post hash f1 _ k1 v1 t1 hgc ha0 ha1 hr1
  have hs1' : Good hash t1 ∨ Lost t1 := by
    rcases hs1 with h | ⟨h, _⟩
    · exact Or.inr h
    · exact Or.inl h
  have hal1' : t1.alpha = alpha := hal1
  obtain ⟨t2, hr2⟩ := insert_returns_ok hash t1 k2 v2 hs1' (by rw [hal1']; exact ha0)
    (by rw [hal1']; exact ha1)
  exact ⟨t1, t2, ⟨f1, hr1⟩, hr2⟩

/-- Instance of C13 as amended: `"a"` and `"b"`, both of hash 1, into
`table_create(4, 1/2)`; they land in slots 1 and 2. -/
theorem collision_handling_witness :
    (2 ≤ 4) ∧ (((4 : Nat) : Int) ≤ INT_MAX) ∧ roundDouble (1 / ((4 : Nat) : ℚ)) < 1 / 2 ∧
      "a" ≠ "b" ∧ lengthHash "a" % 4 = 1 ∧ lengthHash "b" % 4 = 1 ∧
      ((∃ t1 t2, InsertReturns lengthHash (table_create 8 ((4 : Nat) : Int) (1 / 2)) "a" 10 t1 ∧
        InsertReturns lengthHash t1 "b" 20 t2) ∧
        ∀ t1 t2, InsertReturns lengthHash (table_create 8 ((4 : Nat) : Int) (1 / 2)) "a" 10 t1 →
          InsertReturns lengthHash t1 "b" 20 t2 →
          t1.buckets.getD 1 none = some ⟨"a", 10⟩ ∧
          t2.buckets.getD 1 none = some ⟨"a", 10⟩ ∧
          t2.buckets.getD ((1 + 1) % 4) none = some ⟨"b", 20⟩ ∧
          t2.capacity = ((4 : Nat) : Int) ∧
          table_lookup lengthHash t2 "a" = Run.ok 10 ∧
          table_lookup lengthHash t2 "b" = Run.ok 20) :=
  ⟨by decide, by decide, by decide!, by decide, by decide, by decide,
    collision_handling lengthHash 8 4 (1 / 2) (by decide) (by decide) (by decide!)
      (by norm_num) "a" "b" 10 20 (by decide) 1 (by decide) (by decide)⟩

end Machine

/-- C18 (characterisation of `str_trim`).  `str_trim(s)` is empty exactly when `s` has no
alphanumeric character, as for `"..."`, `"!!!"`, `"---"` and `""`; otherwise it is the
stretch of `s` from its first alphanumeric character, at `a`, through its last one, at
`b`, with everything in between as it was. -/
theorem str_trim_characterisation (s : String) :
    ((str_trim s).length = 0 ↔ ∀ c, c ∈ s.data → isalnum c = false) ∧
    (str_trim s = "" ↔ (str_trim s).length = 0) ∧
    ((∃ c, c ∈ s.data ∧ isalnum c = true) →
      ∃ a b, a ≤ b ∧ b < s.data.length ∧
        isalnum (s.data.getD a (Char.ofNat 0)) = true ∧
        isalnum (s.data.getD b (Char.ofNat 0)) = true ∧
        (∀ i, i < a → isalnum (s.data.getD i (Char.ofNat 0)) = false) ∧
        (∀ i, b < i → i < s.data.length → isalnum (s.data.getD i (Char.ofNat 0)) = false) ∧
        (str_trim s).data = (s.data.take (b + 1)).drop a) ∧
    str_trim "..." = "" ∧ str_trim "!!!" = "" ∧ str_trim "---" = "" ∧ str_trim "" = "" ∧
    str_trim "--it's.." = "it's" := by
  have hmem : (∀ c, c ∈ s.data → isalnum c = false) ↔
      ∀ i, i < s.data.length → isalnum (s.data.getD i (Char.ofNat 0)) = false := by
    constructor
    · intro h i hi
      rw [List.getD_eq_getElem _ _ hi]
      exact h _ (List.getElem_mem hi)
    · intro h c hc
      obtain ⟨i, hi, hic⟩ := List.mem_iff_getElem.mp hc
      rw [← hic, ← List.getD_eq_getElem _ (Char.ofNat 0) hi]
      exact h i hi
  have hlen : (str_trim s).length = (str_trim s).data.length := rfl
  refine ⟨?_, ?_, ?_, by decide, by decide, by decide, by decide, by decide⟩
  · rw [hmem, hlen]
    rcases str_trim_data s with ⟨h1, h2⟩ | ⟨a, b, hab, hb, ha1, _, _, _, hd⟩
    · rw [h2]
      exact ⟨fun _ => h1, fun _ => rfl⟩
    · rw [hd, List.length_drop, List.length_take]
      constructor
      · intro h0
        have : min (b + 1) s.data.length = b + 1 := Nat.min_eq_left (by omega)
        omega
      · intro hall
        rw [hall a (by omega)] at ha1
        cases ha1
  · rw [hlen]
    constructor
    · intro h
      rw [h]
      rfl
    · intro h
      exact String.ext (List.length_eq_zero.mp h)
  · rintro ⟨c, hc, hal⟩
    rcases str_trim_data s with ⟨h1, _⟩ | h
    · rw [hmem.mpr h1 c hc] at hal
      cases hal
    · exact h

end HashTable
